import Mathlib

/-!
Verification of the left-leaning red-black BST symbol table implemented in
`src/red_black_bst.h` / `src/red_black_bst.cc` (template `RedBlackBST<Key, Value>`).

The C++ code is a pointer-mutating implementation in which every private helper
takes a subtree root and returns the (possibly restructured) subtree root; the
caller reassigns its child slot from the return value.  This shallow embedding
translates each helper into a pure function on an inductive tree type.  The
reserved "null" sentinels `defaultValue<Key>()` / `defaultValue<Value>()`
(specialized to `-1` for `int`) are modelled as explicit parameters `defK` /
`defV`.  C++ exceptions are modelled with `Except`: each `throw` site becomes an
`Except.error` carrying the exception type and message of the source.
-/

namespace RedBlackBSTVerify

/-- Colors are stored as a `bool` field in the source: `RED = true`, `BLACK = false`. -/
def RED : Bool := true

/-- Black color constant of the source. -/
def BLACK : Bool := false

/-- The `Node` structure of `RedBlackBST`: key, value, two child pointers (absent
children are `nil`), a color bit and a cached subtree size (`size_`). -/
inductive RBNode (K V : Type) where
  | nil : RBNode K V
  | node (key : K) (val : V) (l r : RBNode K V) (color : Bool) (sz : Nat) : RBNode K V
deriving DecidableEq

namespace RBNode

variable {K V : Type}

/-- Left child (`h->left_`); `nil` stands for the null pointer. -/
def left : RBNode K V → RBNode K V
  | nil => nil
  | node _ _ l _ _ _ => l

/-- Right child (`h->right_`). -/
def right : RBNode K V → RBNode K V
  | nil => nil
  | node _ _ _ r _ _ => r

/-- Source `isRed(Node* x)`: false for the null pointer, else the color bit. -/
def isRed : RBNode K V → Bool
  | nil => false
  | node _ _ _ _ c _ => c

/-- Null test on a child pointer (`!x`). -/
def isNil : RBNode K V → Bool
  | nil => true
  | node .. => false

/-- Source `size(Node* x)`: 0 for the null pointer, else the stored `size_` field. -/
def size : RBNode K V → Nat
  | nil => 0
  | node _ _ _ _ _ s => s

/-- Actual number of nodes in a subtree (what `size_` is supposed to cache). -/
def realSize : RBNode K V → Nat
  | nil => 0
  | node _ _ l r _ _ => realSize l + realSize r + 1

/-- In-order list of key/value pairs stored in the subtree. -/
def pairs : RBNode K V → List (K × V)
  | nil => []
  | node k v l r _ _ => pairs l ++ (k, v) :: pairs r

/-- In-order list of keys. -/
def keysList (t : RBNode K V) : List K := (pairs t).map Prod.fst

/-- Source `rotateLeft`: make a right-leaning link lean to the left.  The new root
takes the old root's color and stored size; the demoted node is recolored `RED`
and its size is recomputed from its children's stored sizes.  (The source asserts
`h != null && isRed(h.right)`; outside that precondition it would dereference
null, so the embedding returns the input unchanged there.) -/
def rotateLeft : RBNode K V → RBNode K V
  | node k v l (node rk rv rl rr _ _) c s =>
      node rk rv (node k v l rl RED (size l + size rl + 1)) rr c s
  | t => t

/-- Source `rotateRight`: make a left-leaning link lean to the right. -/
def rotateRight : RBNode K V → RBNode K V
  | node k v (node lk lv ll lr _ _) r c s =>
      node lk lv ll (node k v lr r RED (size lr + size r + 1)) c s
  | t => t

/-- Source `flipColors`: negate the color of a node and of its two children.
(The source asserts both children non-null.) -/
def flipColors : RBNode K V → RBNode K V
  | node k v (node lk lv ll lr lc ls) (node rk rv rl rr rc rs) c s =>
      node k v (node lk lv ll lr (!lc) ls) (node rk rv rl rr (!rc) rs) (!c) s
  | t => t

/-- Final `h->size_ = size(h->left_) + size(h->right_) + 1` statement shared by
`put` and `balance`. -/
def resize : RBNode K V → RBNode K V
  | nil => nil
  | node k v l r c _ => node k v l r c (size l + size r + 1)

/-- Source `balance`: restore the red-black invariant on the way back up. -/
def balance (h : RBNode K V) : RBNode K V :=
  let h1 := if isRed h.right then rotateLeft h else h
  let h2 := if isRed h1.left && isRed h1.left.left then rotateRight h1 else h1
  let h3 := if isRed h2.left && isRed h2.right then flipColors h2 else h2
  h3.resize

/-- Source `moveRedLeft`: assuming `h` is red and `h.left`, `h.left.left` are
black, make `h.left` or one of its children red. -/
def moveRedLeft (h : RBNode K V) : RBNode K V :=
  let h1 := flipColors h
  if isRed h1.right.left then
    let h2 := match h1 with
      | node k v l r c s => node k v l (rotateRight r) c s
      | nil => nil
    flipColors (rotateLeft h2)
  else h1

/-- Source `moveRedRight`: assuming `h` is red and `h.right`, `h.right.left` are
black, make `h.right` or one of its children red. -/
def moveRedRight (h : RBNode K V) : RBNode K V :=
  let h1 := flipColors h
  if isRed h1.left.left then flipColors (rotateRight h1) else h1

/-- Source private `get(Node* x, Key key)`: iterative descent returning the stored
value, or `defaultValue<Value>()` (parameter `defV`) when the key is absent. -/
def getNode [LinearOrder K] (defV : V) : RBNode K V → K → V
  | nil, _ => defV
  | node k v l r _ _, key =>
      if key < k then getNode defV l key
      else if k < key then getNode defV r key
      else v

/-- Source private `put(Node* h, Key key, Value val)`: recursive insertion
followed by the three fix-up steps and the size recomputation. -/
def putNode [LinearOrder K] (key : K) (val : V) : RBNode K V → RBNode K V
  | nil => node key val nil nil RED 1
  | node k v l r c s =>
      let h1 := if key < k then node k v (putNode key val l) r c s
                else if k < key then node k v l (putNode key val r) c s
                else node k val l r c s
      let h2 := if isRed h1.right && !isRed h1.left then rotateLeft h1 else h1
      let h3 := if isRed h2.left && isRed h2.left.left then rotateRight h2 else h2
      let h4 := if isRed h3.left && isRed h3.right then flipColors h3 else h3
      h4.resize

/-- Source private `min(Node* x)`: follow left links (asserts `x != null`). -/
def minNode : RBNode K V → RBNode K V
  | nil => nil
  | node k v l r c s => match l with
      | nil => node k v l r c s
      | node .. => minNode l

/-- Source private `max(Node* x)`: follow right links (asserts `x != null`). -/
def maxNode : RBNode K V → RBNode K V
  | nil => nil
  | node k v l r c s => match r with
      | nil => node k v l r c s
      | node .. => maxNode r

/-- Key of the root node, with an explicit fallback for the null pointer (the
source would dereference null there; all call sites guard against it). -/
def rootKeyD (d : K) : RBNode K V → K
  | nil => d
  | node k _ _ _ _ _ => k

/-- Value of the root node with fallback. -/
def rootValD (d : V) : RBNode K V → V
  | nil => d
  | node _ v _ _ _ _ => v

/-- Source private `floor(Node* x, Key key)`: largest key `<= key`, as a node
pointer (`nil` = no such key). -/
def floorNode [LinearOrder K] (key : K) : RBNode K V → RBNode K V
  | nil => nil
  | node k v l r c s =>
      if ¬ key < k ∧ ¬ k < key then node k v l r c s
      else if key < k then floorNode key l
      else match floorNode key r with
        | nil => node k v l r c s
        | t => t

/-- Source private `ceiling(Node* x, Key key)`: smallest key `>= key`. -/
def ceilingNode [LinearOrder K] (key : K) : RBNode K V → RBNode K V
  | nil => nil
  | node k v l r c s =>
      if ¬ key < k ∧ ¬ k < key then node k v l r c s
      else if ¬ key < k then ceilingNode key r
      else match ceilingNode key l with
        | nil => node k v l r c s
        | t => t

/-- Source private `select(Node* x, int rank)`: descend using the cached subtree
sizes.  The `!x` branch of the source returns `nullptr` as a `Key`; it is
unreachable under the documented precondition and is modelled by the fallback
key `d`. -/
def selectNode [LinearOrder K] (d : K) : RBNode K V → Int → K
  | nil, _ => d
  | node k _ l r _ _, rank =>
      let leftSize : Int := size l
      if leftSize > rank then selectNode d l rank
      else if leftSize < rank then selectNode d r (rank - leftSize - 1)
      else k

/-- Source private `rank(Key key, Node* x)`: number of keys smaller than `key`,
computed from the cached subtree sizes. -/
def rankNode [LinearOrder K] (key : K) : RBNode K V → Int
  | nil => 0
  | node k _ l r _ _ =>
      if ¬ key < k ∧ ¬ k < key then (size l : Int)
      else if key < k then rankNode key l
      else 1 + (size l : Int) + rankNode key r

/-- Source private `keys(Node* x, queue, lo, hi)`: in-order collection of the keys
in `[lo, hi]`; the queue is modelled by list concatenation in push order. -/
def keysAux [LinearOrder K] (lo hi : K) : RBNode K V → List K
  | nil => []
  | node k _ l r _ _ =>
      (if lo < k then keysAux lo hi l else [])
      ++ (if (lo < k ∨ ¬ k < lo) ∧ ¬ hi < k then [k] else [])
      ++ (if k < hi then keysAux lo hi r else [])

/-! ### Structural invariants (the properties checked by the source's `check()`,
stated directly over the tree rather than through the sentinel-based walkers) -/

/-- Symmetric order: at every node all keys of the left subtree are strictly
smaller and all keys of the right subtree strictly greater. -/
def Ordered [LinearOrder K] : RBNode K V → Prop
  | nil => True
  | node k _ l r _ _ =>
      (∀ a ∈ keysList l, a < k) ∧ (∀ a ∈ keysList r, k < a) ∧ Ordered l ∧ Ordered r

/-- Size consistency: every stored `size_` field equals one plus the sizes of the
two children (`isSizeConsistent`). -/
def Sizes : RBNode K V → Prop
  | nil => True
  | node _ _ l r _ s => s = realSize l + realSize r + 1 ∧ Sizes l ∧ Sizes r

/-- The left-leaning 2-3 property (`is23`): no red right link, and no red node
with a red left child. -/
def Ok23 : RBNode K V → Prop
  | nil => True
  | node _ _ l r c _ => Ok23 l ∧ Ok23 r ∧ isRed r = false ∧ (c = true → isRed l = false)

/-- Relaxation of `Ok23` used for `put`: both children are fine and there is no
red right link at the root, but the root may be red with a red left child. -/
def Okd : RBNode K V → Prop
  | nil => True
  | node _ _ l r _ _ => Ok23 l ∧ Ok23 r ∧ isRed r = false

/-- Perfect black balance, computed bottom-up: `some n` when every path from the
root to an empty subtree crosses exactly `n` black links, `none` otherwise. -/
def bhOpt : RBNode K V → Option Nat
  | nil => some 0
  | node _ _ l r c _ =>
      match bhOpt l, bhOpt r with
      | some a, some b => if a = b then some (a + (if c then 0 else 1)) else none
      | _, _ => none

/-- The subtree is perfectly black balanced with black height `n`. -/
def Balanced (t : RBNode K V) (n : Nat) : Prop := bhOpt t = some n

instance [LinearOrder K] : (t : RBNode K V) → Decidable (Ordered t)
  | nil => .isTrue trivial
  | node k v l r c s => by
      have dl : Decidable (Ordered l) := instDecidableOrdered l
      have dr : Decidable (Ordered r) := instDecidableOrdered r
      unfold Ordered
      exact instDecidableAnd

instance : (t : RBNode K V) → Decidable (Sizes t)
  | nil => .isTrue trivial
  | node k v l r c s => by
      have dl : Decidable (Sizes l) := instDecidableSizes l
      have dr : Decidable (Sizes r) := instDecidableSizes r
      unfold Sizes
      exact instDecidableAnd

instance : (t : RBNode K V) → Decidable (Ok23 t)
  | nil => .isTrue trivial
  | node k v l r c s => by
      have dl : Decidable (Ok23 l) := instDecidableOk23 l
      have dr : Decidable (Ok23 r) := instDecidableOk23 r
      unfold Ok23
      exact instDecidableAnd

/-! ### Shape lemmas used for the well-founded recursion of the deletion code -/

theorem pairs_rotateLeft : ∀ t : RBNode K V, (rotateLeft t).pairs = t.pairs
  | nil => rfl
  | node _ _ _ nil _ _ => rfl
  | node k v l (node rk rv rl rr rc rs) c s => by simp [rotateLeft, pairs]

theorem pairs_rotateRight : ∀ t : RBNode K V, (rotateRight t).pairs = t.pairs
  | nil => rfl
  | node _ _ nil _ _ _ => rfl
  | node k v (node lk lv ll lr lc ls) r c s => by simp [rotateRight, pairs]

theorem pairs_flipColors : ∀ t : RBNode K V, (flipColors t).pairs = t.pairs
  | nil => rfl
  | node _ _ nil _ _ _ => rfl
  | node _ _ (node ..) nil _ _ => rfl
  | node k v (node ..) (node ..) c s => by simp [flipColors, pairs]

theorem pairs_resize : ∀ t : RBNode K V, t.resize.pairs = t.pairs
  | nil => rfl
  | node .. => rfl

theorem pairs_balance (t : RBNode K V) : (balance t).pairs = t.pairs := by
  simp only [balance]
  split_ifs <;>
    simp [pairs_rotateLeft, pairs_rotateRight, pairs_flipColors, pairs_resize]

theorem pairs_moveRedLeft (t : RBNode K V) : (moveRedLeft t).pairs = t.pairs := by
  simp only [moveRedLeft]
  split_ifs with h
  · cases hft : t.flipColors with
    | nil =>
        rw [← pairs_flipColors t, hft]
        simp [rotateLeft, flipColors, pairs]
    | node k v l r c s =>
        rw [pairs_flipColors, pairs_rotateLeft, ← pairs_flipColors t, hft]
        simp [pairs, pairs_rotateRight]
  · exact pairs_flipColors t

theorem pairs_moveRedRight (t : RBNode K V) : (moveRedRight t).pairs = t.pairs := by
  simp only [moveRedRight]
  split_ifs with h
  · rw [pairs_flipColors, pairs_rotateRight, pairs_flipColors]
  · exact pairs_flipColors t

theorem realSize_eq_pairs_length : ∀ t : RBNode K V, t.realSize = t.pairs.length
  | nil => rfl
  | node k v l r c s => by
      simp [realSize, pairs, realSize_eq_pairs_length l, realSize_eq_pairs_length r]
      omega

theorem realSize_rotateLeft (t : RBNode K V) : (rotateLeft t).realSize = t.realSize := by
  rw [realSize_eq_pairs_length, realSize_eq_pairs_length, pairs_rotateLeft]

theorem realSize_rotateRight (t : RBNode K V) : (rotateRight t).realSize = t.realSize := by
  rw [realSize_eq_pairs_length, realSize_eq_pairs_length, pairs_rotateRight]

theorem realSize_moveRedLeft (t : RBNode K V) : (moveRedLeft t).realSize = t.realSize := by
  rw [realSize_eq_pairs_length, realSize_eq_pairs_length, pairs_moveRedLeft]

theorem realSize_moveRedRight (t : RBNode K V) : (moveRedRight t).realSize = t.realSize := by
  rw [realSize_eq_pairs_length, realSize_eq_pairs_length, pairs_moveRedRight]

theorem realSize_balance (t : RBNode K V) : (balance t).realSize = t.realSize := by
  rw [realSize_eq_pairs_length, realSize_eq_pairs_length, pairs_balance]

@[simp] theorem rotateLeft_eq_nil_iff {t : RBNode K V} : rotateLeft t = nil ↔ t = nil := by
  cases t with
  | nil => simp [rotateLeft]
  | node k v l r c s => cases r <;> simp [rotateLeft]

@[simp] theorem rotateRight_eq_nil_iff {t : RBNode K V} : rotateRight t = nil ↔ t = nil := by
  cases t with
  | nil => simp [rotateRight]
  | node k v l r c s => cases l <;> simp [rotateRight]

@[simp] theorem flipColors_eq_nil_iff {t : RBNode K V} : flipColors t = nil ↔ t = nil := by
  cases t with
  | nil => simp [flipColors]
  | node k v l r c s => cases l <;> cases r <;> simp [flipColors]

theorem moveRedLeft_ne_nil {t : RBNode K V} (h : t ≠ nil) : moveRedLeft t ≠ nil := by
  simp only [moveRedLeft]
  split_ifs with hc
  · cases hft : t.flipColors with
    | nil => exact absurd (flipColors_eq_nil_iff.mp hft) h
    | node k v l r c s => simp
  · intro hn
    exact h (flipColors_eq_nil_iff.mp hn)

theorem moveRedRight_ne_nil {t : RBNode K V} (h : t ≠ nil) : moveRedRight t ≠ nil := by
  simp only [moveRedRight]
  split_ifs with hc
  · intro hn
    rw [flipColors_eq_nil_iff, rotateRight_eq_nil_iff, flipColors_eq_nil_iff] at hn
    exact h hn
  · intro hn
    exact h (flipColors_eq_nil_iff.mp hn)

theorem realSize_left_lt {t : RBNode K V} (h : t ≠ nil) : t.left.realSize < t.realSize := by
  cases t with
  | nil => exact absurd rfl h
  | node k v l r c s => simp [left, realSize]; omega

theorem realSize_right_lt {t : RBNode K V} (h : t ≠ nil) : t.right.realSize < t.realSize := by
  cases t with
  | nil => exact absurd rfl h
  | node k v l r c s => simp [right, realSize]; omega

/-- Helper written for child reassignment `h->left_ = ...` on a node. -/
def setLeft : RBNode K V → RBNode K V → RBNode K V
  | nil, _ => nil
  | node k v _ r c s, l' => node k v l' r c s

/-- Helper written for child reassignment `h->right_ = ...` on a node. -/
def setRight : RBNode K V → RBNode K V → RBNode K V
  | nil, _ => nil
  | node k v l _ c s, r' => node k v l r' c s

/-- Helper for the successor replacement in `deleteItem`:
`h->key_ = ...; h->val_ = ...; h->right_ = ...` on a node. -/
def setKeyValRight : RBNode K V → K → V → RBNode K V → RBNode K V
  | nil, _, _, _ => nil
  | node _ _ l _ c s, k', v', r' => node k' v' l r' c s

theorem minStep_lt (k : K) (v : V) (l r : RBNode K V) (c : Bool) (s : Nat) :
    (if !isRed l && !isRed l.left then moveRedLeft (node k v l r c s)
      else node k v l r c s).left.realSize < (node k v l r c s).realSize := by
  have hne : (if !isRed l && !isRed l.left then moveRedLeft (node k v l r c s)
      else node k v l r c s) ≠ nil := by
    split
    · exact moveRedLeft_ne_nil (by simp)
    · simp
  have hrs : (if !isRed l && !isRed l.left then moveRedLeft (node k v l r c s)
      else node k v l r c s).realSize = (node k v l r c s).realSize := by
    split
    · exact realSize_moveRedLeft _
    · rfl
  calc _ < _ := realSize_left_lt hne
    _ = _ := hrs

theorem maxStep_aux (t h1 : RBNode K V) (h1ne : h1 ≠ nil) (h1rs : h1.realSize = t.realSize) :
    (if !isRed h1.right && !isRed h1.right.left then moveRedRight h1
      else h1).right.realSize < t.realSize := by
  have h2ne : (if !isRed h1.right && !isRed h1.right.left then moveRedRight h1
      else h1) ≠ nil := by
    split
    · exact moveRedRight_ne_nil h1ne
    · exact h1ne
  have h2rs : (if !isRed h1.right && !isRed h1.right.left then moveRedRight h1
      else h1).realSize = t.realSize := by
    rw [← h1rs]
    split
    · exact realSize_moveRedRight _
    · rfl
  calc _ < _ := realSize_right_lt h2ne
    _ = _ := h2rs

theorem maxStep_lt (k : K) (v : V) (l r : RBNode K V) (c : Bool) (s : Nat) :
    (if !isRed (if isRed l then rotateRight (node k v l r c s) else node k v l r c s).right &&
        !isRed (if isRed l then rotateRight (node k v l r c s) else node k v l r c s).right.left
      then moveRedRight (if isRed l then rotateRight (node k v l r c s) else node k v l r c s)
      else if isRed l then rotateRight (node k v l r c s)
        else node k v l r c s).right.realSize < (node k v l r c s).realSize := by
  apply maxStep_aux
  · split <;> simp
  · split
    · exact realSize_rotateRight _
    · rfl

/-- Source private `deleteMin(Node* h)`: delete the key-value pair with the
minimum key in the subtree rooted at `h` (the source asserts `h != null` through
its call sites; the `nil` case is unreachable). -/
def deleteMinNode : RBNode K V → RBNode K V
  | nil => nil
  | node k v l r c s =>
      if l.isNil then nil
      else
        let h1 := if !isRed l && !isRed l.left then moveRedLeft (node k v l r c s)
                  else node k v l r c s
        balance (setLeft h1 (deleteMinNode h1.left))
termination_by t => t.realSize
decreasing_by
  apply minStep_lt

/-- Source private `deleteMax(Node* h)`. -/
def deleteMaxNode : RBNode K V → RBNode K V
  | nil => nil
  | node k v l r c s =>
      let h1 := if isRed l then rotateRight (node k v l r c s) else node k v l r c s
      if h1.right.isNil then nil
      else
        let h2 := if !isRed h1.right && !isRed h1.right.left then moveRedRight h1 else h1
        balance (setRight h2 (deleteMaxNode h2.right))
termination_by t => t.realSize
decreasing_by
  apply maxStep_lt

/-- Source private `deleteItem(Node* h, Key key)`: delete the pair with the given
key (asserted present) from the subtree rooted at `h`.  When the target node is
reached with a right child present, its key/value are overwritten with those of
the minimum of the right subtree, whose minimum is then deleted. -/
def deleteItemNode [LinearOrder K] (key : K) : RBNode K V → RBNode K V
  | nil => nil
  | node k v l r c s =>
      if key < k then
        let h1 := if !isRed l && !isRed l.left then moveRedLeft (node k v l r c s)
                  else node k v l r c s
        balance (setLeft h1 (deleteItemNode key h1.left))
      else
        let h1 := if isRed l then rotateRight (node k v l r c s) else node k v l r c s
        if (¬ key < rootKeyD key h1 ∧ ¬ rootKeyD key h1 < key) ∧ h1.right.isNil then nil
        else
          let h2 := if !isRed h1.right && !isRed h1.right.left then moveRedRight h1 else h1
          if ¬ key < rootKeyD key h2 ∧ ¬ rootKeyD key h2 < key then
            balance (setKeyValRight h2 (rootKeyD k (minNode h2.right))
              (rootValD v (minNode h2.right)) (deleteMinNode h2.right))
          else
            balance (setRight h2 (deleteItemNode key h2.right))
termination_by t => t.realSize
decreasing_by
  all_goals first
    | apply minStep_lt
    | apply maxStep_lt

/-! ### In-order lists versus the symmetric-order invariant -/

@[simp] theorem pairs_nil : (nil : RBNode K V).pairs = [] := rfl

@[simp] theorem pairs_node {k : K} {v : V} {l r : RBNode K V} {c : Bool} {s : Nat} :
    (node k v l r c s).pairs = l.pairs ++ (k, v) :: r.pairs := rfl

@[simp] theorem keysList_nil : (nil : RBNode K V).keysList = [] := rfl

@[simp] theorem keysList_node {k : K} {v : V} {l r : RBNode K V} {c : Bool} {s : Nat} :
    (node k v l r c s).keysList = l.keysList ++ k :: r.keysList := by
  simp [keysList]

@[simp] theorem left_node {k : K} {v : V} {l r : RBNode K V} {c : Bool} {s : Nat} :
    (node k v l r c s).left = l := rfl

@[simp] theorem right_node {k : K} {v : V} {l r : RBNode K V} {c : Bool} {s : Nat} :
    (node k v l r c s).right = r := rfl

@[simp] theorem isRed_node {k : K} {v : V} {l r : RBNode K V} {c : Bool} {s : Nat} :
    (node k v l r c s).isRed = c := rfl

@[simp] theorem isRed_nil : (nil : RBNode K V).isRed = false := rfl

@[simp] theorem isNil_nil : (nil : RBNode K V).isNil = true := rfl

@[simp] theorem isNil_node {k : K} {v : V} {l r : RBNode K V} {c : Bool} {s : Nat} :
    (node k v l r c s).isNil = false := rfl

@[simp] theorem size_nil : (nil : RBNode K V).size = 0 := rfl

@[simp] theorem size_node {k : K} {v : V} {l r : RBNode K V} {c : Bool} {s : Nat} :
    (node k v l r c s).size = s := rfl

theorem sorted_append_iff [LinearOrder K] {l1 l2 : List K} :
    (l1 ++ l2).Sorted (· < ·) ↔
      l1.Sorted (· < ·) ∧ l2.Sorted (· < ·) ∧ ∀ a ∈ l1, ∀ b ∈ l2, a < b :=
  List.pairwise_append

theorem ordered_iff_sorted [LinearOrder K] :
    ∀ t : RBNode K V, Ordered t ↔ t.keysList.Sorted (· < ·)
  | nil => by simp [Ordered]
  | node k v l r c s => by
      have ihl := ordered_iff_sorted l
      have ihr := ordered_iff_sorted r
      simp only [Ordered, keysList_node, sorted_append_iff, List.sorted_cons, ihl, ihr]
      constructor
      · rintro ⟨hl, hr, sl, sr⟩
        refine ⟨sl, ⟨hr, sr⟩, ?_⟩
        intro x hx y hy
        rcases List.mem_cons.mp hy with hy | hy
        · exact hy ▸ hl x hx
        · exact lt_trans (hl x hx) (hr y hy)
      · rintro ⟨sl, ⟨hr, sr⟩, hcross⟩
        exact ⟨fun a ha => hcross a ha k (List.mem_cons_self _ _), hr, sl, sr⟩

theorem ordered_congr [LinearOrder K] {t t' : RBNode K V} (h : t'.pairs = t.pairs) :
    Ordered t ↔ Ordered t' := by
  rw [ordered_iff_sorted, ordered_iff_sorted, keysList, keysList, h]

theorem ordered_of_pairs_sublist [LinearOrder K] {t t' : RBNode K V}
    (h : t'.pairs.Sublist t.pairs) (ht : Ordered t) : Ordered t' := by
  rw [ordered_iff_sorted] at ht ⊢
  exact List.Pairwise.sublist (h.map Prod.fst) ht

theorem nodup_keysList [LinearOrder K] {t : RBNode K V} (h : Ordered t) : t.keysList.Nodup :=
  ((ordered_iff_sorted t).mp h).nodup

/-! ### Size-consistency machinery -/

@[simp] theorem realSize_nil : (nil : RBNode K V).realSize = 0 := rfl

@[simp] theorem realSize_node {k : K} {v : V} {l r : RBNode K V} {c : Bool} {s : Nat} :
    (node k v l r c s).realSize = l.realSize + r.realSize + 1 := rfl

@[simp] theorem sizes_nil : Sizes (nil : RBNode K V) := trivial

theorem sizes_node_iff {k : K} {v : V} {l r : RBNode K V} {c : Bool} {s : Nat} :
    Sizes (node k v l r c s) ↔ s = l.realSize + r.realSize + 1 ∧ Sizes l ∧ Sizes r :=
  Iff.rfl

theorem size_eq_realSize : ∀ {t : RBNode K V}, Sizes t → t.size = t.realSize
  | nil, _ => rfl
  | node k v l r c s, h => by
      rw [sizes_node_iff] at h
      simp [h.1]

/-- Size consistency of both children, with an arbitrary stored size at the root
(the transient state between a child reassignment and the final size
recomputation of `put`/`balance`). -/
def SizesBR : RBNode K V → Prop
  | nil => True
  | node _ _ l r _ _ => Sizes l ∧ Sizes r

theorem sizes_sbr : ∀ {t : RBNode K V}, Sizes t → SizesBR t
  | nil, _ => trivial
  | node _ _ _ _ _ _, h => ⟨h.2.1, h.2.2⟩

theorem sbr_resize : ∀ {t : RBNode K V}, SizesBR t → Sizes t.resize
  | nil, _ => trivial
  | node k v l r c s, h => by
      rw [resize, sizes_node_iff]
      exact ⟨by rw [size_eq_realSize h.1, size_eq_realSize h.2], h.1, h.2⟩

theorem sbr_rotateLeft : ∀ {t : RBNode K V}, SizesBR t → SizesBR t.rotateLeft
  | nil, _ => trivial
  | node k v l nil c s, h => h
  | node k v l (node rk rv rl rr rc rs) c s, h => by
      rcases h with ⟨hl, hr⟩
      rw [sizes_node_iff] at hr
      exact ⟨sizes_node_iff.mpr
        ⟨by rw [size_eq_realSize hl, size_eq_realSize hr.2.1], hl, hr.2.1⟩, hr.2.2⟩

theorem sbr_rotateRight : ∀ {t : RBNode K V}, SizesBR t → SizesBR t.rotateRight
  | nil, _ => trivial
  | node k v nil r c s, h => h
  | node k v (node lk lv ll lr lc ls) r c s, h => by
      rcases h with ⟨hl, hr⟩
      rw [sizes_node_iff] at hl
      exact ⟨hl.2.1, sizes_node_iff.mpr
        ⟨by rw [size_eq_realSize hl.2.2, size_eq_realSize hr], hl.2.2, hr⟩⟩

theorem sbr_flipColors : ∀ {t : RBNode K V}, SizesBR t → SizesBR t.flipColors
  | nil, _ => trivial
  | node k v nil r c s, h => h
  | node k v (node ..) nil c s, h => h
  | node k v (node lk lv ll lr lc ls) (node rk rv rl rr rc rs) c s, h => by
      rcases h with ⟨hl, hr⟩
      rw [sizes_node_iff] at hl hr
      exact ⟨sizes_node_iff.mpr ⟨hl.1, hl.2⟩, sizes_node_iff.mpr ⟨hr.1, hr.2⟩⟩

theorem sizes_flipColors : ∀ {t : RBNode K V}, Sizes t → Sizes t.flipColors
  | nil, _ => trivial
  | node k v nil r c s, h => h
  | node k v (node ..) nil c s, h => h
  | node k v (node lk lv ll lr lc ls) (node rk rv rl rr rc rs) c s, h => by
      rw [sizes_node_iff] at h
      rcases h with ⟨hs, hl, hr⟩
      rw [sizes_node_iff] at hl hr
      simp only [flipColors]
      rw [sizes_node_iff]
      exact ⟨by simpa using hs, sizes_node_iff.mpr ⟨by simpa using hl.1, hl.2⟩,
        sizes_node_iff.mpr ⟨by simpa using hr.1, hr.2⟩⟩

theorem sizes_rotateLeft : ∀ {t : RBNode K V}, Sizes t → Sizes t.rotateLeft
  | nil, _ => trivial
  | node k v l nil c s, h => h
  | node k v l (node rk rv rl rr rc rs) c s, h => by
      rw [sizes_node_iff] at h
      rcases h with ⟨hs, hl, hr⟩
      rw [sizes_node_iff] at hr
      rcases hr with ⟨hrs, hrl, hrr⟩
      simp only [rotateLeft]
      rw [sizes_node_iff]
      refine ⟨?_, sizes_node_iff.mpr
        ⟨by rw [size_eq_realSize hl, size_eq_realSize hrl], hl, hrl⟩, hrr⟩
      simp only [realSize_node] at hs ⊢
      omega

theorem sizes_rotateRight : ∀ {t : RBNode K V}, Sizes t → Sizes t.rotateRight
  | nil, _ => trivial
  | node k v nil r c s, h => h
  | node k v (node lk lv ll lr lc ls) r c s, h => by
      rw [sizes_node_iff] at h
      rcases h with ⟨hs, hl, hr⟩
      rw [sizes_node_iff] at hl
      rcases hl with ⟨hls, hll, hlr⟩
      simp only [rotateRight]
      rw [sizes_node_iff]
      refine ⟨?_, hll, sizes_node_iff.mpr
        ⟨by rw [size_eq_realSize hlr, size_eq_realSize hr], hlr, hr⟩⟩
      simp only [realSize_node] at hs ⊢
      omega

theorem sizes_balance {t : RBNode K V} (h : SizesBR t) : Sizes (balance t) := by
  simp only [balance]
  split_ifs <;>
    exact sbr_resize (by
      first
        | exact sbr_flipColors (sbr_rotateRight (sbr_rotateLeft h))
        | exact sbr_rotateRight (sbr_rotateLeft h)
        | exact sbr_flipColors (sbr_rotateLeft h)
        | exact sbr_rotateLeft h
        | exact sbr_flipColors (sbr_rotateRight h)
        | exact sbr_rotateRight h
        | exact sbr_flipColors h
        | exact h)

theorem sizes_moveRedLeft {t : RBNode K V} (h : Sizes t) : Sizes (moveRedLeft t) := by
  simp only [moveRedLeft]
  split_ifs with hc
  · cases hft : t.flipColors with
    | nil => simp [rotateLeft, flipColors, Sizes]
    | node k v l r c s =>
        have hf : Sizes (node k v l r c s) := hft ▸ sizes_flipColors h
        rw [sizes_node_iff] at hf
        have h2 : Sizes (node k v l r.rotateRight c s) := by
          rw [sizes_node_iff]
          exact ⟨by rw [hf.1, realSize_eq_pairs_length r.rotateRight,
            realSize_eq_pairs_length r, pairs_rotateRight], hf.2.1, sizes_rotateRight hf.2.2⟩
        exact sizes_flipColors (sizes_rotateLeft h2)
  · exact sizes_flipColors h

theorem sizes_moveRedRight {t : RBNode K V} (h : Sizes t) : Sizes (moveRedRight t) := by
  simp only [moveRedRight]
  split_ifs with hc
  · exact sizes_flipColors (sizes_rotateRight (sizes_flipColors h))
  · exact sizes_flipColors h

theorem sizes_putNode [LinearOrder K] (key : K) (val : V) :
    ∀ {t : RBNode K V}, Sizes t → Sizes (putNode key val t)
  | nil, _ => by simp [putNode, sizes_node_iff, Sizes]
  | node k v l r c s, h => by
      rw [sizes_node_iff] at h
      rcases h with ⟨hs, hl, hr⟩
      have hbr : SizesBR (if key < k then node k v (putNode key val l) r c s
          else if k < key then node k v l (putNode key val r) c s
          else node k val l r c s) := by
        split_ifs
        · exact ⟨sizes_putNode key val hl, hr⟩
        · exact ⟨hl, sizes_putNode key val hr⟩
        · exact ⟨hl, hr⟩
      rw [putNode]
      have step2 : ∀ u : RBNode K V, SizesBR u →
          SizesBR (if isRed u.right && !isRed u.left then rotateLeft u else u) := by
        intro u hu
        split_ifs
        · exact sbr_rotateLeft hu
        · exact hu
      have step3 : ∀ u : RBNode K V, SizesBR u →
          SizesBR (if isRed u.left && isRed u.left.left then rotateRight u else u) := by
        intro u hu
        split_ifs
        · exact sbr_rotateRight hu
        · exact hu
      have step4 : ∀ u : RBNode K V, SizesBR u →
          SizesBR (if isRed u.left && isRed u.right then flipColors u else u) := by
        intro u hu
        split_ifs
        · exact sbr_flipColors hu
        · exact hu
      exact sbr_resize (step4 _ (step3 _ (step2 _ hbr)))

theorem sizes_left : ∀ {t : RBNode K V}, Sizes t → Sizes t.left
  | nil, _ => trivial
  | node _ _ _ _ _ _, h => h.2.1

theorem sizes_right : ∀ {t : RBNode K V}, Sizes t → Sizes t.right
  | nil, _ => trivial
  | node _ _ _ _ _ _, h => h.2.2

theorem sbr_setLeft : ∀ {t : RBNode K V} {x : RBNode K V},
    Sizes t → Sizes x → SizesBR (setLeft t x)
  | nil, _, _, _ => trivial
  | node _ _ _ _ _ _, _, h, hx => ⟨hx, h.2.2⟩

theorem sbr_setRight : ∀ {t : RBNode K V} {x : RBNode K V},
    Sizes t → Sizes x → SizesBR (setRight t x)
  | nil, _, _, _ => trivial
  | node _ _ _ _ _ _, _, h, hx => ⟨h.2.1, hx⟩

theorem sbr_setKeyValRight : ∀ {t : RBNode K V} {k' : K} {v' : V} {x : RBNode K V},
    Sizes t → Sizes x → SizesBR (setKeyValRight t k' v' x)
  | nil, _, _, _, _, _ => trivial
  | node _ _ _ _ _ _, _, _, _, h, hx => ⟨h.2.1, hx⟩

/-- `deleteMin` keeps every cached subtree size consistent. -/
theorem sizes_deleteMinNode :
    ∀ (N : Nat) (t : RBNode K V), t.realSize ≤ N → Sizes t → Sizes (deleteMinNode t) := by
  intro N
  induction N with
  | zero =>
      intro t hsz hs
      cases t with
      | nil => simp only [deleteMinNode]; trivial
      | node k v l r c s => simp [realSize] at hsz
  | succ N IH =>
      intro t hsz hs
      cases t with
      | nil => simp only [deleteMinNode]; trivial
      | node k v l r c s =>
          by_cases hl : l.isNil = true
          · have hres : deleteMinNode (node k v l r c s) = nil := by
              simp only [deleteMinNode]
              rw [if_pos hl]
            rw [hres]
            trivial
          · by_cases hC : (!isRed l && !isRed l.left) = true
            · have hres : deleteMinNode (node k v l r c s)
                  = balance (setLeft (moveRedLeft (node k v l r c s))
                      (deleteMinNode (moveRedLeft (node k v l r c s)).left)) := by
                simp only [deleteMinNode]
                rw [if_neg hl, if_pos hC]
              rw [hres]
              have hms : Sizes (moveRedLeft (node k v l r c s)) := sizes_moveRedLeft hs
              have hlt := minStep_lt (K := K) (V := V) k v l r c s
              rw [if_pos hC] at hlt
              exact sizes_balance (sbr_setLeft hms
                (IH _ (by omega) (sizes_left hms)))
            · have hres : deleteMinNode (node k v l r c s)
                  = balance (setLeft (node k v l r c s)
                      (deleteMinNode (node k v l r c s).left)) := by
                simp only [deleteMinNode]
                rw [if_neg hl, if_neg hC]
              rw [hres]
              have hlt := minStep_lt (K := K) (V := V) k v l r c s
              rw [if_neg hC] at hlt
              exact sizes_balance (sbr_setLeft hs
                (IH _ (by omega) (sizes_left hs)))

theorem sizes_deleteMax_aux (N : Nat)
    (IH : ∀ u : RBNode K V, u.realSize ≤ N → Sizes u → Sizes (deleteMaxNode u))
    (t h1 : RBNode K V) (hne : h1 ≠ nil) (hrs : h1.realSize = t.realSize)
    (hts : t.realSize ≤ N + 1) (hs1 : Sizes h1) :
    Sizes (balance (setRight
      (if !isRed h1.right && !isRed h1.right.left then moveRedRight h1 else h1)
      (deleteMaxNode
        (if !isRed h1.right && !isRed h1.right.left then moveRedRight h1
          else h1).right))) := by
  have hlt := maxStep_aux t h1 hne hrs
  have hs2 : Sizes (if !isRed h1.right && !isRed h1.right.left then moveRedRight h1
      else h1) := by
    split_ifs
    · exact sizes_moveRedRight hs1
    · exact hs1
  exact sizes_balance (sbr_setRight hs2 (IH _ (by omega) (sizes_right hs2)))

/-- `deleteMax` keeps every cached subtree size consistent. -/
theorem sizes_deleteMaxNode :
    ∀ (N : Nat) (t : RBNode K V), t.realSize ≤ N → Sizes t → Sizes (deleteMaxNode t) := by
  intro N
  induction N with
  | zero =>
      intro t hsz hs
      cases t with
      | nil => simp only [deleteMaxNode]; trivial
      | node k v l r c s => simp [realSize] at hsz
  | succ N IH =>
      intro t hsz hs
      cases t with
      | nil => simp only [deleteMaxNode]; trivial
      | node k v l r c s =>
          by_cases hrot : isRed l = true
          · have hres0 : deleteMaxNode (node k v l r c s)
                = if (rotateRight (node k v l r c s)).right.isNil then nil
                  else balance (setRight
                    (if !isRed (rotateRight (node k v l r c s)).right &&
                        !isRed (rotateRight (node k v l r c s)).right.left
                      then moveRedRight (rotateRight (node k v l r c s))
                      else rotateRight (node k v l r c s))
                    (deleteMaxNode
                      (if !isRed (rotateRight (node k v l r c s)).right &&
                          !isRed (rotateRight (node k v l r c s)).right.left
                        then moveRedRight (rotateRight (node k v l r c s))
                        else rotateRight (node k v l r c s)).right)) := by
              simp only [deleteMaxNode]
              rw [if_pos hrot]
            rw [hres0]
            by_cases hnl : (rotateRight (node k v l r c s)).right.isNil = true
            · rw [if_pos hnl]
              trivial
            · rw [if_neg hnl]
              exact sizes_deleteMax_aux N IH (node k v l r c s) _
                (by simp) (realSize_rotateRight _) hsz (sizes_rotateRight hs)
          · have hres0 : deleteMaxNode (node k v l r c s)
                = if (node k v l r c s).right.isNil then nil
                  else balance (setRight
                    (if !isRed (node k v l r c s).right &&
                        !isRed (node k v l r c s).right.left
                      then moveRedRight (node k v l r c s)
                      else node k v l r c s)
                    (deleteMaxNode
                      (if !isRed (node k v l r c s).right &&
                          !isRed (node k v l r c s).right.left
                        then moveRedRight (node k v l r c s)
                        else node k v l r c s).right)) := by
              simp only [deleteMaxNode]
              rw [if_neg hrot]
            rw [hres0]
            by_cases hnl : (node k v l r c s).right.isNil = true
            · rw [if_pos hnl]
              trivial
            · rw [if_neg hnl]
              exact sizes_deleteMax_aux N IH (node k v l r c s) _
                (by simp) rfl hsz hs

theorem sizes_deleteItem_aux [LinearOrder K] (key k : K) (v : V) (N : Nat)
    (IH : ∀ u : RBNode K V, u.realSize ≤ N → Sizes u → Sizes (deleteItemNode key u))
    (t h1 : RBNode K V) (hne : h1 ≠ nil) (hrs : h1.realSize = t.realSize)
    (hts : t.realSize ≤ N + 1) (hs1 : Sizes h1) :
    Sizes (if ¬key < rootKeyD key
              (if !isRed h1.right && !isRed h1.right.left then moveRedRight h1 else h1) ∧
            ¬rootKeyD key
              (if !isRed h1.right && !isRed h1.right.left then moveRedRight h1 else h1)
              < key then
        balance (setKeyValRight
          (if !isRed h1.right && !isRed h1.right.left then moveRedRight h1 else h1)
          (rootKeyD k (minNode
            (if !isRed h1.right && !isRed h1.right.left then moveRedRight h1
              else h1).right))
          (rootValD v (minNode
            (if !isRed h1.right && !isRed h1.right.left then moveRedRight h1
              else h1).right))
          (deleteMinNode
            (if !isRed h1.right && !isRed h1.right.left then moveRedRight h1
              else h1).right))
      else
        balance (setRight
          (if !isRed h1.right && !isRed h1.right.left then moveRedRight h1 else h1)
          (deleteItemNode key
            (if !isRed h1.right && !isRed h1.right.left then moveRedRight h1
              else h1).right))) := by
  have hlt := maxStep_aux t h1 hne hrs
  by_cases hC : (!isRed h1.right && !isRed h1.right.left) = true
  · rw [if_pos hC] at hlt ⊢
    have hs2 : Sizes (moveRedRight h1) := sizes_moveRedRight hs1
    split_ifs
    · exact sizes_balance (sbr_setKeyValRight hs2
        (sizes_deleteMinNode _ _ (le_refl _) (sizes_right hs2)))
    · exact sizes_balance (sbr_setRight hs2 (IH _ (by omega) (sizes_right hs2)))
  · rw [if_neg hC] at hlt ⊢
    split_ifs
    · exact sizes_balance (sbr_setKeyValRight hs1
        (sizes_deleteMinNode _ _ (le_refl _) (sizes_right hs1)))
    · exact sizes_balance (sbr_setRight hs1 (IH _ (by omega) (sizes_right hs1)))

/-- `deleteItem` keeps every cached subtree size consistent. -/
theorem sizes_deleteItemNode [LinearOrder K] (key : K) :
    ∀ (N : Nat) (t : RBNode K V), t.realSize ≤ N → Sizes t →
      Sizes (deleteItemNode key t) := by
  intro N
  induction N with
  | zero =>
      intro t hsz hs
      cases t with
      | nil => simp only [deleteItemNode]; trivial
      | node k v l r c s => simp [realSize] at hsz
  | succ N IH =>
      intro t hsz hs
      cases t with
      | nil => simp only [deleteItemNode]; trivial
      | node k v l r c s =>
          by_cases hkey : key < k
          · by_cases hC : (!isRed l && !isRed l.left) = true
            · have hres : deleteItemNode key (node k v l r c s)
                  = balance (setLeft (moveRedLeft (node k v l r c s))
                      (deleteItemNode key (moveRedLeft (node k v l r c s)).left)) := by
                simp only [deleteItemNode]
                rw [if_pos hkey, if_pos hC]
              rw [hres]
              have hms : Sizes (moveRedLeft (node k v l r c s)) := sizes_moveRedLeft hs
              have hlt := minStep_lt (K := K) (V := V) k v l r c s
              rw [if_pos hC] at hlt
              exact sizes_balance (sbr_setLeft hms
                (IH _ (by omega) (sizes_left hms)))
            · have hres : deleteItemNode key (node k v l r c s)
                  = balance (setLeft (node k v l r c s)
                      (deleteItemNode key (node k v l r c s).left)) := by
                simp only [deleteItemNode]
                rw [if_pos hkey, if_neg hC]
              rw [hres]
              have hlt := minStep_lt (K := K) (V := V) k v l r c s
              rw [if_neg hC] at hlt
              exact sizes_balance (sbr_setLeft hs
                (IH _ (by omega) (sizes_left hs)))
          · by_cases hrot : isRed l = true
            · simp only [deleteItemNode]
              rw [if_neg hkey, if_pos hrot]
              by_cases hdet : (¬key < rootKeyD key (rotateRight (node k v l r c s)) ∧
                    ¬rootKeyD key (rotateRight (node k v l r c s)) < key) ∧
                  (rotateRight (node k v l r c s)).right.isNil = true
              · rw [if_pos hdet]
                trivial
              · rw [if_neg hdet]
                exact sizes_deleteItem_aux key k v N IH (node k v l r c s) _
                  (by simp) (realSize_rotateRight _) hsz (sizes_rotateRight hs)
            · simp only [deleteItemNode]
              rw [if_neg hkey, if_neg hrot]
              by_cases hdet : (¬key < rootKeyD key (node k v l r c s) ∧
                    ¬rootKeyD key (node k v l r c s) < key) ∧
                  (node k v l r c s).right.isNil = true
              · rw [if_pos hdet]
                trivial
              · rw [if_neg hdet]
                exact sizes_deleteItem_aux key k v N IH (node k v l r c s) _
                  (by simp) rfl hsz hs

/-! ### Red-black invariant machinery -/

@[simp] theorem ok23_nil : Ok23 (nil : RBNode K V) := trivial

theorem ok23_node_iff {k : K} {v : V} {l r : RBNode K V} {c : Bool} {s : Nat} :
    Ok23 (node k v l r c s) ↔
      Ok23 l ∧ Ok23 r ∧ isRed r = false ∧ (c = true → isRed l = false) :=
  Iff.rfl

@[simp] theorem okd_nil : Okd (nil : RBNode K V) := trivial

theorem okd_node_iff {k : K} {v : V} {l r : RBNode K V} {c : Bool} {s : Nat} :
    Okd (node k v l r c s) ↔ Ok23 l ∧ Ok23 r ∧ isRed r = false :=
  Iff.rfl

theorem ok23_okd : ∀ {t : RBNode K V}, Ok23 t → Okd t
  | nil, _ => trivial
  | node _ _ _ _ _ _, h => ⟨h.1, h.2.1, h.2.2.1⟩

/-- Recoloring any node preserves `Ok23` as long as the new color is black, and
preserves it for any color when the left child is not red. -/
theorem ok23_recolor {k : K} {v : V} {l r : RBNode K V} {c c' : Bool} {s s' : Nat}
    (h : Ok23 (node k v l r c s)) (hc : c' = true → isRed l = false) :
    Ok23 (node k v l r c' s') :=
  ⟨h.1, h.2.1, h.2.2.1, hc⟩

@[simp] theorem bhOpt_nil : bhOpt (nil : RBNode K V) = some 0 := rfl

@[simp] theorem balanced_nil_iff {n : Nat} : Balanced (nil : RBNode K V) n ↔ n = 0 := by
  simp [Balanced, bhOpt, eq_comm]

theorem balanced_node_iff {k : K} {v : V} {l r : RBNode K V} {c : Bool} {s n : Nat} :
    Balanced (node k v l r c s) n ↔
      ∃ m, Balanced l m ∧ Balanced r m ∧ n = m + (if c then 0 else 1) := by
  simp only [Balanced, bhOpt]
  rcases hbl : bhOpt l with _ | a <;> rcases hbr : bhOpt r with _ | b
  · simp
  · simp
  · simp
  · by_cases hab : a = b
    · subst hab
      simp [eq_comm]
    · simp only [if_neg hab]
      constructor
      · intro h
        exact absurd h (by simp)
      · rintro ⟨m, hm1, hm2, _⟩
        cases hm1
        cases hm2
        exact absurd rfl hab

theorem balanced_node {k : K} {v : V} {l r : RBNode K V} {c : Bool} {s m : Nat}
    (hl : Balanced l m) (hr : Balanced r m) :
    Balanced (node k v l r c s) (m + (if c then 0 else 1)) :=
  balanced_node_iff.mpr ⟨m, hl, hr, rfl⟩

/-- The mere existence of a black height is unaffected by the stored sizes and
the root recoloring. -/
theorem balanced_recolor {k : K} {v : V} {l r : RBNode K V} {c c' : Bool} {s s' : Nat} {n : Nat}
    (h : Balanced (node k v l r c s) n) :
    ∃ n', Balanced (node k v l r c' s') n' := by
  rcases balanced_node_iff.mp h with ⟨m, hl, hr, _⟩
  exact ⟨_, balanced_node hl hr⟩

theorem isRed_true_node {t : RBNode K V} (h : isRed t = true) :
    ∃ k v l r s, t = node k v l r true s := by
  cases t with
  | nil => simp [isRed] at h
  | node k v l r c s =>
      cases c with
      | false => simp [isRed] at h
      | true => exact ⟨k, v, l, r, s, rfl⟩

/-- On an `Ok23` tree the red-red test of the second fix-up step never fires. -/
theorem ok23_no_redred {A : RBNode K V} (hA : Ok23 A) :
    (isRed A && isRed A.left) = false := by
  cases A with
  | nil => rfl
  | node k v l r c s =>
      cases c with
      | false => simp
      | true => simp [hA.2.2.2 rfl]

/-- Master specification of `balance` for the configurations produced by the
deletion code: both children satisfy the 2-3 shape and have equal black height,
and a red root has no red child.  The result is an `Ok23` tree whose black
height adds the root's black contribution, and it can only be red if the root
was red or both children were. -/
theorem balance_spec {k : K} {v : V} {A B : RBNode K V} {c : Bool} {s : Nat} {m : Nat}
    (hA : Ok23 A) (hB : Ok23 B) (bA : Balanced A m) (bB : Balanced B m)
    (hc : c = true → isRed A = false ∧ isRed B = false) :
    Ok23 (balance (node k v A B c s)) ∧
    Balanced (balance (node k v A B c s)) (m + (if c then 0 else 1)) ∧
    (isRed (balance (node k v A B c s)) = true →
      c = true ∨ (isRed A = true ∧ isRed B = true)) := by
  by_cases hBred : isRed B = true
  · -- right child red: the first fix-up rotates left
    obtain ⟨bk, bv, bl, br, bs, rfl⟩ := isRed_true_node hBred
    have hcf : c = false := by
      cases c with
      | false => rfl
      | true => exact absurd (hc rfl).2 (by simp)
    subst hcf
    obtain ⟨okbl, okbr, brb, hblb⟩ := hB
    have blb : isRed bl = false := hblb rfl
    obtain ⟨mb, hmbl, hmbr, hmb⟩ := balanced_node_iff.mp bB
    have hm : m = mb := by simpa using hmb
    subst hm
    by_cases hAred : isRed A = true
    · -- red left child after the rotation: rotate right then flip
      obtain ⟨ak, av, al, ar, asz, rfl⟩ := isRed_true_node hAred
      have hres : balance (node k v (node ak av al ar true asz)
            (node bk bv bl br true bs) false s)
          = node k v (node ak av al ar false asz)
              (node bk bv bl br false (size bl + size br + 1)) true
              (asz + (size bl + size br + 1) + 1) := by
        simp [balance, rotateLeft, rotateRight, flipColors, resize, RED, blb]
      rw [hres]
      obtain ⟨okal, okar, arb, halb⟩ := hA
      obtain ⟨ma, hmal, hmar, hma⟩ := balanced_node_iff.mp bA
      have hma2 : m = ma := by simpa using hma
      subst hma2
      refine ⟨⟨⟨okal, okar, arb, by simp⟩, ⟨okbl, okbr, brb, by simp⟩, by simp, by simp⟩,
        ?_, fun _ => Or.inr ⟨rfl, rfl⟩⟩
      have h1 : Balanced (node ak av al ar false asz) (m + 1) := by
        simpa using balanced_node (k := ak) (v := av) (c := false) (s := asz) hmal hmar
      have h2 : Balanced (node bk bv bl br false (size bl + size br + 1)) (m + 1) := by
        simpa using balanced_node (k := bk) (v := bv) (c := false)
          (s := size bl + size br + 1) hmbl hmbr
      have h3 := balanced_node (k := k) (v := v) (c := true)
        (s := asz + (size bl + size br + 1) + 1) h1 h2
      simpa using h3
    · -- black left child after the rotation: nothing more fires
      have hAred' : isRed A = false := by simpa using hAred
      have hres : balance (node k v A (node bk bv bl br true bs) false s)
          = node bk bv (node k v A bl true (size A + size bl + 1)) br false
              (size A + size bl + 1 + size br + 1) := by
        simp [balance, rotateLeft, resize, RED, hAred', brb]
      rw [hres]
      refine ⟨⟨⟨hA, okbl, blb, fun _ => hAred'⟩, okbr, brb, by simp⟩, ?_, by simp⟩
      have h1 : Balanced (node k v A bl true (size A + size bl + 1)) m := by
        simpa using balanced_node (k := k) (v := v) (c := true)
          (s := size A + size bl + 1) bA hmbl
      have h2 := balanced_node (k := bk) (v := bv) (c := false)
        (s := size A + size bl + 1 + size br + 1) h1 hmbr
      simpa using h2
  · -- right child black: no fix-up fires at all
    have hBred' : isRed B = false := by simpa using hBred
    have hres : balance (node k v A B c s) = node k v A B c (size A + size B + 1) := by
      simp [balance, resize, hBred', ok23_no_redred hA]
    rw [hres]
    exact ⟨⟨hA, hB, hBred', fun h => (hc h).1⟩, balanced_node bA bB,
      fun h => Or.inl (by cases c with | false => simp at h | true => rfl)⟩

theorem isRed_false_node {t : RBNode K V} (hne : t ≠ nil) (h : isRed t = false) :
    ∃ k v l r s, t = node k v l r false s := by
  cases t with
  | nil => exact absurd rfl hne
  | node k v l r c s =>
      cases c with
      | false => exact ⟨k, v, l, r, s, rfl⟩
      | true => simp [isRed] at h

/-- Specification of `moveRedLeft` under its documented precondition (`h` red,
`h.left` and `h.left.left` black), on black-balanced `Ok23` children.  The
result either has a black root with two red `Ok23` children (color flip only),
or is a fully `Ok23` red-rooted tree whose left child is black with a red left
child (flip, double rotation, flip). -/
theorem moveRedLeft_spec {k : K} {v : V} {l r : RBNode K V} {s : Nat} {m : Nat}
    (okl : Ok23 l) (okr : Ok23 r) (hlb : isRed l = false) (hllb : isRed l.left = false)
    (hrb : isRed r = false) (bl : Balanced l m) (br : Balanced r m)
    (hlne : l ≠ nil) (hrne : r ≠ nil) :
    ∃ k2 v2 L R s2 c2,
      moveRedLeft (node k v l r true s) = node k2 v2 L R c2 s2 ∧
      L ≠ nil ∧ Ok23 L ∧ (isRed L = true ∨ isRed L.left = true) ∧
      (k2 = k ∨ k2 ∈ keysList r) ∧
      ((c2 = false ∧ isRed L = true ∧ isRed R = true ∧ Ok23 R ∧
          ∃ mm, m = mm + 1 ∧ Balanced L mm ∧ Balanced R mm) ∨
       (c2 = true ∧ isRed L = false ∧ isRed R = false ∧ Ok23 R ∧
          Balanced L m ∧ Balanced R m)) := by
  obtain ⟨lk, lv, ll, lr, ls, rfl⟩ := isRed_false_node hlne hlb
  obtain ⟨rk, rv, rl, rr, rs, rfl⟩ := isRed_false_node hrne hrb
  simp only [left_node] at hllb
  obtain ⟨okll, oklr, lrb, _⟩ := okl
  obtain ⟨okrl, okrr, rrb, _⟩ := okr
  obtain ⟨m1, bll, blr, hm1⟩ := balanced_node_iff.mp bl
  obtain ⟨m2, brl, brr, hm2⟩ := balanced_node_iff.mp br
  have hm1 : m = m1 + 1 := by simpa using hm1
  have hm2 : m = m2 + 1 := by simpa using hm2
  have hm12 : m2 = m1 := by omega
  rw [hm12] at brl brr
  by_cases hrl : isRed rl = true
  · -- red left grandchild on the right: flip, rotate right, rotate left, flip
    obtain ⟨rlk, rlv, rll, rlr, rls, rfl⟩ := isRed_true_node hrl
    obtain ⟨okrll, okrlr, rlrb, hrllb⟩ := okrl
    obtain ⟨m3, brll, brlr, hm3⟩ := balanced_node_iff.mp brl
    have hm32 : m3 = m1 := by simpa using hm3.symm
    rw [hm32] at brll brlr
    have hres : moveRedLeft (node k v (node lk lv ll lr false ls)
          (node rk rv (node rlk rlv rll rlr true rls) rr false rs) true s)
        = node rlk rlv
            (node k v (node lk lv ll lr true ls) rll false (ls + size rll + 1))
            (node rk rv rlr rr false (size rlr + size rr + 1)) true s := by
      simp [moveRedLeft, flipColors, rotateLeft, rotateRight, RED, size]
    refine ⟨rlk, rlv, _, _, s, true, hres, by simp, ?_, ?_, ?_, Or.inr ⟨rfl, by simp, by simp,
      ⟨okrlr, okrr, rrb, by simp⟩, ?_, ?_⟩⟩
    · exact ⟨⟨okll, oklr, lrb, fun _ => hllb⟩, okrll, hrllb rfl, by simp⟩
    · simp
    · exact Or.inr (by simp)
    · have h1 : Balanced (node lk lv ll lr true ls) m1 := by
        simpa using balanced_node (k := lk) (v := lv) (c := true) (s := ls) bll blr
      have h2 := balanced_node (k := k) (v := v) (c := false)
        (s := ls + size rll + 1) h1 brll
      simpa [hm1] using h2
    · have h2 := balanced_node (k := rk) (v := rv) (c := false)
        (s := size rlr + size rr + 1) brlr brr
      simpa [hm1] using h2
  · -- plain color flip
    have hrl' : isRed rl = false := by simpa using hrl
    have hres : moveRedLeft (node k v (node lk lv ll lr false ls)
          (node rk rv rl rr false rs) true s)
        = node k v (node lk lv ll lr true ls) (node rk rv rl rr true rs) false s := by
      simp [moveRedLeft, flipColors, hrl']
    refine ⟨k, v, _, _, s, false, hres, by simp, ⟨okll, oklr, lrb, fun _ => hllb⟩,
      Or.inl (by simp), Or.inl rfl, Or.inl ⟨rfl, by simp, by simp,
        ⟨okrl, okrr, rrb, fun _ => hrl'⟩, m1, by omega, ?_, ?_⟩⟩
    · simpa using balanced_node (k := lk) (v := lv) (c := true) (s := ls) bll blr
    · simpa using balanced_node (k := rk) (v := rv) (c := true) (s := rs) brl brr

/-- Specification of `moveRedRight` under its documented precondition (`h` red,
`h.right` and `h.right.left` black).  Either a plain color flip (black root, two
red `Ok23` children), or a red-rooted tree whose right child is black with a red
right child and black left child (the transient shape consumed by the
right-descending deletions). -/
theorem moveRedRight_spec {k : K} {v : V} {l r : RBNode K V} {s : Nat} {m : Nat}
    (okl : Ok23 l) (okr : Ok23 r) (hlb : isRed l = false) (hrb : isRed r = false)
    (hrlb : isRed r.left = false) (bl : Balanced l m) (br : Balanced r m)
    (hlne : l ≠ nil) (hrne : r ≠ nil) :
    ∃ k2 v2 L R s2 c2,
      moveRedRight (node k v l r true s) = node k2 v2 L R c2 s2 ∧
      R ≠ nil ∧
      (k2 = k ∨ k2 ∈ keysList l) ∧
      ((c2 = false ∧ k2 = k ∧ isRed L = true ∧ isRed R = true ∧ Ok23 L ∧ Ok23 R ∧
          isRed R.left = false ∧
          ∃ mm, m = mm + 1 ∧ Balanced L mm ∧ Balanced R mm) ∨
       (c2 = true ∧ isRed L = false ∧ Ok23 L ∧ Balanced L m ∧ k2 ∈ keysList l ∧
          ∃ k3 v3 R1 R2 s3, R = node k3 v3 R1 R2 false s3 ∧ k3 = k ∧
            Ok23 R1 ∧ Ok23 R2 ∧ isRed R1 = false ∧ isRed R2 = true ∧
            Balanced R m)) := by
  obtain ⟨lk, lv, ll, lr, ls, rfl⟩ := isRed_false_node hlne hlb
  obtain ⟨rk, rv, rl, rr, rs, rfl⟩ := isRed_false_node hrne hrb
  simp only [left_node] at hrlb
  obtain ⟨okll, oklr, lrb, _⟩ := okl
  obtain ⟨okrl, okrr, rrb, _⟩ := okr
  obtain ⟨m1, bll, blr, hm1⟩ := balanced_node_iff.mp bl
  obtain ⟨m2, brl, brr, hm2⟩ := balanced_node_iff.mp br
  have hm1 : m = m1 + 1 := by simpa using hm1
  have hm2 : m = m2 + 1 := by simpa using hm2
  have hm12 : m2 = m1 := by omega
  rw [hm12] at brl brr
  by_cases hll : isRed ll = true
  · -- red left grandchild on the left: flip, rotate right, flip
    obtain ⟨llk, llv, lll, llr, lls, rfl⟩ := isRed_true_node hll
    obtain ⟨oklll, okllr, llrb, hlllb⟩ := okll
    obtain ⟨m0, blll, bllr, hm0⟩ := balanced_node_iff.mp bll
    have hm02 : m0 = m1 := by simpa using hm0.symm
    rw [hm02] at blll bllr
    have hres : moveRedRight (node k v
          (node lk lv (node llk llv lll llr true lls) lr false ls)
          (node rk rv rl rr false rs) true s)
        = node lk lv (node llk llv lll llr false lls)
            (node k v lr (node rk rv rl rr true rs) false (size lr + rs + 1)) true s := by
      simp [moveRedRight, flipColors, rotateRight, RED, size]
    refine ⟨lk, lv, _, _, s, true, hres, by simp, Or.inr (by simp),
      Or.inr ⟨rfl, by simp, ⟨oklll, okllr, llrb, by simp⟩, ?_, by simp,
        k, v, lr, node rk rv rl rr true rs, size lr + rs + 1, rfl, rfl,
        oklr, ⟨okrl, okrr, rrb, fun _ => hrlb⟩, lrb, by simp, ?_⟩⟩
    · have h2 := balanced_node (k := llk) (v := llv) (c := false) (s := lls) blll bllr
      simpa [hm1] using h2
    · have h1 : Balanced (node rk rv rl rr true rs) m1 := by
        simpa using balanced_node (k := rk) (v := rv) (c := true) (s := rs) brl brr
      have h2 := balanced_node (k := k) (v := v) (c := false)
        (s := size lr + rs + 1) blr h1
      simpa [hm1] using h2
  · -- plain color flip
    have hll' : isRed ll = false := by simpa using hll
    have hres : moveRedRight (node k v (node lk lv ll lr false ls)
          (node rk rv rl rr false rs) true s)
        = node k v (node lk lv ll lr true ls) (node rk rv rl rr true rs) false s := by
      simp [moveRedRight, flipColors, hll']
    refine ⟨k, v, _, _, s, false, hres, by simp, Or.inl rfl,
      Or.inl ⟨rfl, rfl, by simp, by simp, ⟨okll, oklr, lrb, fun _ => hll'⟩,
        ⟨okrl, okrr, rrb, fun _ => hrlb⟩, by simpa using hrlb, m1, by omega, ?_, ?_⟩⟩
    · simpa using balanced_node (k := lk) (v := lv) (c := true) (s := ls) bll blr
    · simpa using balanced_node (k := rk) (v := rv) (c := true) (s := rs) brl brr

theorem okd_ok23 : ∀ {t : RBNode K V}, Okd t → (isRed t && isRed t.left) = false → Ok23 t
  | nil, _, _ => trivial
  | node k v l r c s, h, hrr => by
      refine ⟨h.1, h.2.1, h.2.2, fun hc => ?_⟩
      subst hc
      simpa using hrr

/-- Invariant preservation of the recursive `put`: black height is preserved,
the result satisfies the relaxed shape `Okd` (at worst a red root with a red
left child), and when the input root is black the result is fully `Ok23`. -/
theorem putNode_spec [LinearOrder K] (key : K) (val : V) :
    ∀ (t : RBNode K V) (n : Nat), Ok23 t → Balanced t n →
      Okd (putNode key val t) ∧ Balanced (putNode key val t) n ∧
      (isRed t = false → Ok23 (putNode key val t)) ∧ putNode key val t ≠ nil
  | nil, n, _, bn => by
      have hn : n = 0 := balanced_nil_iff.mp bn
      subst hn
      simp only [putNode]
      refine ⟨⟨trivial, trivial, rfl⟩, ?_, fun _ => ⟨trivial, trivial, rfl, fun _ => rfl⟩,
        by simp⟩
      simpa [RED] using balanced_node (k := key) (v := val) (c := true) (s := 1)
        (balanced_nil_iff.mpr rfl) (balanced_nil_iff.mpr rfl)
  | node k v l r c s, n, okt, bn => by
      obtain ⟨okl, okr, hrb, hcl⟩ := okt
      obtain ⟨m, bl, br, hn⟩ := balanced_node_iff.mp bn
      rcases lt_trichotomy key k with hkey | hkey | hkey
      · -- descend left
        obtain ⟨okdL, bL, okFnL, neL⟩ := putNode_spec key val l m okl bl
        cases c with
        | true =>
            have okL : Ok23 (putNode key val l) := okFnL (hcl rfl)
            have hres : putNode key val (node k v l r true s)
                = node k v (putNode key val l) r true
                    (size (putNode key val l) + size r + 1) := by
              simp [putNode, hkey, hrb, ok23_no_redred okL, resize]
            rw [hres]
            refine ⟨⟨okL, okr, hrb⟩, ?_, fun hcf => by simp at hcf, by simp⟩
            simpa [hn] using balanced_node (k := k) (v := v) (c := true)
              (s := size (putNode key val l) + size r + 1) bL br
        | false =>
            by_cases hred : (isRed (putNode key val l) &&
                isRed (putNode key val l).left) = true
            · -- transient 4-node: rotate right, then flip
              have h1 := (Bool.and_eq_true _ _).mp hred
              obtain ⟨lk, lv, ll2, lr2, ls2, hL⟩ := isRed_true_node h1.1
              have h2 : isRed ll2 = true := by
                have := h1.2
                rw [hL] at this
                simpa using this
              obtain ⟨llk, llv, lll, llr, lls, hLL⟩ := isRed_true_node h2
              rw [hL] at okdL bL
              obtain ⟨okll2, oklr2, hlr2b⟩ := okdL
              obtain ⟨mL, bll2, blr2, hmL⟩ := balanced_node_iff.mp bL
              have hmL2 : mL = m := by simpa using hmL.symm
              rw [hmL2] at bll2 blr2
              rw [hLL] at okll2 bll2
              obtain ⟨oklll, okllr, hllrb, hlllb⟩ := okll2
              obtain ⟨m0, blll, bllr, hm0⟩ := balanced_node_iff.mp bll2
              have hm02 : m0 = m := by simpa using hm0.symm
              rw [hm02] at blll bllr
              have hres : putNode key val (node k v l r false s)
                  = node lk lv (node llk llv lll llr false lls)
                      (node k v lr2 r false (size lr2 + size r + 1)) true
                      (lls + (size lr2 + size r + 1) + 1) := by
                simp [putNode, hkey, hrb, hL, hLL, rotateRight, flipColors, resize, RED, size]
              rw [hres]
              have okRes : Ok23 (node lk lv (node llk llv lll llr false lls)
                  (node k v lr2 r false (size lr2 + size r + 1)) true
                  (lls + (size lr2 + size r + 1) + 1)) :=
                ⟨⟨oklll, okllr, hllrb, by simp⟩, ⟨oklr2, okr, hrb, by simp⟩, by simp, by simp⟩
              refine ⟨ok23_okd okRes, ?_, fun _ => okRes, by simp⟩
              have hb1 : Balanced (node llk llv lll llr false lls) (m + 1) := by
                simpa using balanced_node (k := llk) (v := llv) (c := false)
                  (s := lls) blll bllr
              have hb2 : Balanced (node k v lr2 r false (size lr2 + size r + 1)) (m + 1) := by
                simpa using balanced_node (k := k) (v := v) (c := false)
                  (s := size lr2 + size r + 1) blr2 br
              have hb3 := balanced_node (k := lk) (v := lv) (c := true)
                (s := lls + (size lr2 + size r + 1) + 1) hb1 hb2
              simpa [hn] using hb3
            · -- no transient 4-node
              have hred' : (isRed (putNode key val l) &&
                  isRed (putNode key val l).left) = false := by simpa using hred
              have okL : Ok23 (putNode key val l) := okd_ok23 okdL hred'
              have hres : putNode key val (node k v l r false s)
                  = node k v (putNode key val l) r false
                      (size (putNode key val l) + size r + 1) := by
                simp [putNode, hkey, hrb, hred', resize]
              rw [hres]
              refine ⟨ok23_okd ⟨okL, okr, hrb, by simp⟩, ?_, fun _ => ⟨okL, okr, hrb, by simp⟩,
                by simp⟩
              simpa [hn] using balanced_node (k := k) (v := v) (c := false)
                (s := size (putNode key val l) + size r + 1) bL br
      · -- equal keys: overwrite the value
        subst hkey
        have hres : putNode key val (node key v l r c s)
            = node key val l r c (size l + size r + 1) := by
          simp [putNode, lt_irrefl, hrb, ok23_no_redred okl, resize]
        rw [hres]
        refine ⟨ok23_okd ⟨okl, okr, hrb, hcl⟩, ?_, fun _ => ⟨okl, okr, hrb, hcl⟩, by simp⟩
        simpa [hn] using balanced_node (k := key) (v := val) (c := c)
          (s := size l + size r + 1) bl br
      · -- descend right
        have hnk : ¬ key < k := lt_asymm hkey
        obtain ⟨okdR, bR, okFnR, neR⟩ := putNode_spec key val r m okr br
        have okR : Ok23 (putNode key val r) := okFnR hrb
        by_cases hRred : isRed (putNode key val r) = true
        · by_cases hlred : isRed l = true
          · -- both children red: color flip
            have hcf : c = false := by
              cases c with
              | false => rfl
              | true => exact absurd (hcl rfl) (by simp [hlred])
            subst hcf
            obtain ⟨lk, lv, ll2, lr2, ls2, hl⟩ := isRed_true_node hlred
            obtain ⟨rk2, rv2, rl2, rr2, rs2, hR⟩ := isRed_true_node hRred
            subst hl
            obtain ⟨okll2, oklr2, hlr2b, hll2b⟩ := okl
            obtain ⟨mL, bll2, blr2, hmL⟩ := balanced_node_iff.mp bl
            have hmL2 : mL = m := by simpa using hmL.symm
            rw [hmL2] at bll2 blr2
            rw [hR] at okR bR
            obtain ⟨okrl2, okrr2, hrr2b, hrl2b⟩ := okR
            obtain ⟨mR, brl2, brr2, hmR⟩ := balanced_node_iff.mp bR
            have hmR2 : mR = m := by simpa using hmR.symm
            rw [hmR2] at brl2 brr2
            have hres : putNode key val (node k v (node lk lv ll2 lr2 true ls2) r false s)
                = node k v (node lk lv ll2 lr2 false ls2)
                    (node rk2 rv2 rl2 rr2 false rs2) true (ls2 + rs2 + 1) := by
              simp [putNode, hkey, hnk, hR, hll2b rfl, flipColors, resize, RED, size]
            rw [hres]
            have okRes : Ok23 (node k v (node lk lv ll2 lr2 false ls2)
                (node rk2 rv2 rl2 rr2 false rs2) true (ls2 + rs2 + 1)) :=
              ⟨⟨okll2, oklr2, hlr2b, by simp⟩, ⟨okrl2, okrr2, hrr2b, by simp⟩,
                by simp, by simp⟩
            refine ⟨ok23_okd okRes, ?_, fun _ => okRes, by simp⟩
            have hb1 : Balanced (node lk lv ll2 lr2 false ls2) (m + 1) := by
              simpa using balanced_node (k := lk) (v := lv) (c := false) (s := ls2) bll2 blr2
            have hb2 : Balanced (node rk2 rv2 rl2 rr2 false rs2) (m + 1) := by
              simpa using balanced_node (k := rk2) (v := rv2) (c := false) (s := rs2)
                brl2 brr2
            have hb3 := balanced_node (k := k) (v := v) (c := true)
              (s := ls2 + rs2 + 1) hb1 hb2
            simpa [hn] using hb3
          · -- red right child only: rotate left
            have hlred' : isRed l = false := by simpa using hlred
            obtain ⟨rk2, rv2, rl2, rr2, rs2, hR⟩ := isRed_true_node hRred
            rw [hR] at okR bR
            obtain ⟨okrl2, okrr2, hrr2b, hrl2b⟩ := okR
            obtain ⟨mR, brl2, brr2, hmR⟩ := balanced_node_iff.mp bR
            have hmR2 : mR = m := by simpa using hmR.symm
            rw [hmR2] at brl2 brr2
            have hres : putNode key val (node k v l r c s)
                = node rk2 rv2 (node k v l rl2 true (size l + size rl2 + 1)) rr2 c
                    (size l + size rl2 + 1 + size rr2 + 1) := by
              simp [putNode, hkey, hnk, hR, hlred', hrr2b, rotateLeft, resize, RED, size]
            rw [hres]
            have okInner : Ok23 (node k v l rl2 true (size l + size rl2 + 1)) :=
              ⟨okl, okrl2, hrl2b rfl, fun _ => hlred'⟩
            refine ⟨⟨okInner, okrr2, hrr2b⟩, ?_, fun hcf => ?_, by simp⟩
            · have hb1 : Balanced (node k v l rl2 true (size l + size rl2 + 1)) m := by
                simpa using balanced_node (k := k) (v := v) (c := true)
                  (s := size l + size rl2 + 1) bl brl2
              have hb2 := balanced_node (k := rk2) (v := rv2) (c := c)
                (s := size l + size rl2 + 1 + size rr2 + 1) hb1 brr2
              simpa [hn] using hb2
            · have hcf2 : c = false := by simpa using hcf
              subst hcf2
              exact ⟨okInner, okrr2, hrr2b, by simp⟩
        · -- black right child: nothing fires
          have hRred' : isRed (putNode key val r) = false := by simpa using hRred
          have hres : putNode key val (node k v l r c s)
              = node k v l (putNode key val r) c (size l + size (putNode key val r) + 1) := by
            simp [putNode, hkey, hnk, hRred', ok23_no_redred okl, resize]
          rw [hres]
          refine ⟨ok23_okd ⟨okl, okR, hRred', hcl⟩, ?_, fun _ => ⟨okl, okR, hRred', hcl⟩,
            by simp⟩
          simpa [hn] using balanced_node (k := k) (v := v) (c := c)
            (s := size l + size (putNode key val r) + 1) bl bR

/-! ### The in-order pairs list of `put`: sorted association-list insertion -/

/-- Insertion into a sorted association list: the list-level meaning of the
recursive `put`. -/
def insertKV [LinearOrder K] (key : K) (val : V) : List (K × V) → List (K × V)
  | [] => [(key, val)]
  | (a, b) :: rest =>
      if key < a then (key, val) :: (a, b) :: rest
      else if a < key then (a, b) :: insertKV key val rest
      else (key, val) :: rest

theorem insertKV_append_gt [LinearOrder K] {key : K} {val : V} {mk : K} {mv : V}
    (h : key < mk) :
    ∀ L : List (K × V), ∀ R : List (K × V),
      insertKV key val (L ++ (mk, mv) :: R) = insertKV key val L ++ (mk, mv) :: R
  | [], R => by simp [insertKV, h]
  | (a, b) :: L, R => by
      by_cases h1 : key < a
      · simp [insertKV, h1]
      · by_cases h2 : a < key
        · simp [insertKV, h1, h2, insertKV_append_gt h L R]
        · simp [insertKV, h1, h2]

theorem insertKV_append_lt [LinearOrder K] {key : K} {val : V} {mk : K} {mv : V}
    (h : mk < key) :
    ∀ L : List (K × V), (∀ p ∈ L, p.1 < key) → ∀ R : List (K × V),
      insertKV key val (L ++ (mk, mv) :: R) = L ++ (mk, mv) :: insertKV key val R
  | [], _, R => by simp [insertKV, asymm h, h]
  | (a, b) :: L, hL, R => by
      have ha : a < key := hL (a, b) (List.mem_cons_self _ _)
      simp [insertKV, asymm ha, ha,
        insertKV_append_lt h L (fun p hp => hL p (List.mem_cons_of_mem _ hp)) R]

theorem insertKV_append_eq [LinearOrder K] {key : K} {val : V} {mv : V} :
    ∀ L : List (K × V), (∀ p ∈ L, p.1 < key) → ∀ R : List (K × V),
      insertKV key val (L ++ (key, mv) :: R) = L ++ (key, val) :: R
  | [], _, R => by simp [insertKV, lt_irrefl]
  | (a, b) :: L, hL, R => by
      have ha : a < key := hL (a, b) (List.mem_cons_self _ _)
      simp [insertKV, asymm ha, ha,
        insertKV_append_eq L (fun p hp => hL p (List.mem_cons_of_mem _ hp)) R]

theorem pairs_putNode_fix [LinearOrder K] (key : K) (val : V) (k : K) (v : V)
    (l r : RBNode K V) (c : Bool) (s : Nat) :
    (putNode key val (node k v l r c s)).pairs =
      (if key < k then node k v (putNode key val l) r c s
       else if k < key then node k v l (putNode key val r) c s
       else node k val l r c s).pairs := by
  simp only [putNode]
  generalize (if key < k then node k v (putNode key val l) r c s
       else if k < key then node k v l (putNode key val r) c s
       else node k val l r c s) = h1
  split_ifs <;>
    simp [pairs_resize, pairs_rotateLeft, pairs_rotateRight, pairs_flipColors]

/-- The in-order pairs of `put` on a symmetric-ordered tree are exactly sorted
association-list insertion. -/
theorem pairs_putNode [LinearOrder K] (key : K) (val : V) :
    ∀ t : RBNode K V, Ordered t →
      (putNode key val t).pairs = insertKV key val t.pairs
  | nil, _ => by simp [putNode, insertKV]
  | node k v l r c s, hord => by
      obtain ⟨hkl, hkr, ol, or⟩ := hord
      rw [pairs_putNode_fix]
      rcases lt_trichotomy key k with hkey | hkey | hkey
      · rw [if_pos hkey]
        simp only [pairs_node]
        rw [pairs_putNode key val l ol, insertKV_append_gt hkey]
      · subst hkey
        rw [if_neg (lt_irrefl _), if_neg (lt_irrefl _)]
        simp only [pairs_node]
        rw [insertKV_append_eq l.pairs
          (fun p hp => hkl p.1 (List.mem_map_of_mem Prod.fst hp))]
      · rw [if_neg (asymm hkey), if_pos hkey]
        simp only [pairs_node]
        rw [pairs_putNode key val r or, insertKV_append_lt hkey l.pairs
          (fun p hp => lt_trans (hkl p.1 (List.mem_map_of_mem Prod.fst hp)) hkey)]

theorem mem_keys_insertKV [LinearOrder K] {key x : K} {val : V} :
    ∀ {L : List (K × V)},
      (x ∈ (insertKV key val L).map Prod.fst) ↔ x = key ∨ x ∈ L.map Prod.fst
  | [] => by simp [insertKV]
  | (a, b) :: L => by
      by_cases h1 : key < a
      · simp [insertKV, h1]
      · by_cases h2 : a < key
        · simp only [insertKV, if_neg h1, if_pos h2, List.map_cons, List.mem_cons]
          rw [mem_keys_insertKV (L := L)]
          tauto
        · have : a = key := le_antisymm (not_lt.mp h1) (not_lt.mp h2)
          subst this
          simp [insertKV]

theorem mem_vals_insertKV [LinearOrder K] {key : K} {val x : V} :
    ∀ {L : List (K × V)},
      (x ∈ (insertKV key val L).map Prod.snd) → x = val ∨ x ∈ L.map Prod.snd
  | [] => by simp [insertKV]
  | (a, b) :: L => by
      by_cases h1 : key < a
      · simp [insertKV, h1]
      · by_cases h2 : a < key
        · simp only [insertKV, if_neg h1, if_pos h2, List.map_cons, List.mem_cons]
          intro h
          rcases h with h | h
          · tauto
          · rcases mem_vals_insertKV (L := L) h with h | h <;> tauto
        · simp [insertKV, h1, h2]
          tauto

/-! ### Small structural helper lemmas for the deletion proofs -/

theorem pairs_ne_nil : ∀ {t : RBNode K V}, t ≠ nil → t.pairs ≠ []
  | nil, h => absurd rfl h
  | node k v l r c s, _ => by simp

theorem tail_append_of_ne_nil {α : Type} {L M : List α} (h : L ≠ []) :
    (L ++ M).tail = L.tail ++ M := by
  cases L with
  | nil => exact absurd rfl h
  | cons a L => simp

theorem isNil_eq_false {t : RBNode K V} (h : t ≠ nil) : t.isNil = false := by
  cases t with
  | nil => exact absurd rfl h
  | node k v l r c s => rfl

theorem balanced_zero_black_nil : ∀ {t : RBNode K V}, Balanced t 0 → isRed t = false → t = nil
  | nil, _, _ => rfl
  | node k v l r c s, hb, hr => by
      obtain ⟨m, _, _, hm⟩ := balanced_node_iff.mp hb
      simp only [isRed_node] at hr
      subst hr
      simp at hm

theorem black_bh_pos {t : RBNode K V} (hne : t ≠ nil) (hb : isRed t = false)
    {m : Nat} (hbal : Balanced t m) : 1 ≤ m := by
  rcases Nat.eq_zero_or_pos m with hm | hm
  · subst hm
    exact absurd (balanced_zero_black_nil hbal hb) hne
  · exact hm

theorem ne_nil_of_balanced_pos {t : RBNode K V} {m : Nat} (hbal : Balanced t m)
    (hm : 1 ≤ m) : t ≠ nil := by
  intro h
  subst h
  rw [balanced_nil_iff.mp hbal] at hm
  exact absurd hm (by simp)

/-! ### Invariant preservation of the three deletions -/

/-- Invariant preservation of the recursive `deleteMin`: on a non-2-node subtree
(root or left child red) satisfying the 2-3 shape with black height `m`, the
result again satisfies the 2-3 shape with the same black height, is red only if
the input root was red, and its in-order pairs are the tail of the input's. -/
theorem deleteMinNode_spec :
    ∀ (N : Nat) (t : RBNode K V) (m : Nat), t.realSize ≤ N → t ≠ nil → Ok23 t →
      (isRed t = true ∨ isRed t.left = true) → Balanced t m →
      Ok23 (deleteMinNode t) ∧ Balanced (deleteMinNode t) m ∧
      (isRed (deleteMinNode t) = true → isRed t = true) ∧
      (deleteMinNode t).pairs = t.pairs.tail := by
  intro N
  induction N with
  | zero =>
      intro t m hsz hne _ _ _
      cases t with
      | nil => exact absurd rfl hne
      | node k v l r c s => simp [realSize] at hsz
  | succ N IH =>
      intro t m hsz hne okt hpre hbal
      cases t with
      | nil => exact absurd rfl hne
      | node k v l r c s =>
        obtain ⟨okl, okr, hrb, hcl⟩ := okt
        by_cases hlnil : l = nil
        · -- minimum found: detach the node
          subst hlnil
          have hct : c = true := by
            rcases hpre with h | h
            · simpa using h
            · simp [left] at h
          subst hct
          obtain ⟨m1, bl1, br1, hm⟩ := balanced_node_iff.mp hbal
          have hm1 : m1 = 0 := balanced_nil_iff.mp bl1
          rw [hm1] at br1
          have hm0 : m = 0 := by simpa [hm1] using hm
          have hrnil : r = nil := balanced_zero_black_nil br1 hrb
          subst hrnil
          subst hm0
          have hres : deleteMinNode (node k v nil nil true s) = nil := by
            simp [deleteMinNode]
          rw [hres]
          exact ⟨trivial, by simp, by simp, by simp⟩
        · by_cases hC : (!isRed l && !isRed l.left) = true
          · -- left child is a 2-node: borrow via moveRedLeft
            have hCparts := (Bool.and_eq_true _ _).mp hC
            have hlb : isRed l = false := by simpa using hCparts.1
            have hllb : isRed l.left = false := by simpa using hCparts.2
            have hct : c = true := by
              rcases hpre with h | h
              · simpa using h
              · rw [left_node] at h
                rw [h] at hlb
                exact absurd hlb (by simp)
            subst hct
            obtain ⟨m1, bl1, br1, hm⟩ := balanced_node_iff.mp hbal
            have hmm : m = m1 := by simpa using hm
            rw [← hmm] at bl1 br1
            have hrne : r ≠ nil :=
              ne_nil_of_balanced_pos br1 (black_bh_pos hlnil hlb bl1)
            obtain ⟨k2, v2, L, R, s2, c2, hmv, hLne, okL, hLred, hk2, hshape⟩ :=
              moveRedLeft_spec (k := k) (v := v) (s := s)
                okl okr hlb hllb hrb bl1 br1 hlnil hrne
            have hres : deleteMinNode (node k v l r true s)
                = balance (node k2 v2 (deleteMinNode L) R c2 s2) := by
              simp only [deleteMinNode]
              rw [if_neg (by simp [isNil_eq_false hlnil])]
              rw [if_pos hC, hmv]
              simp [setLeft, left]
            rw [hres]
            have hLsz : L.realSize ≤ N := by
              have h1 : (node k2 v2 L R c2 s2).realSize
                  = (node k v l r true s).realSize := by
                rw [← hmv, realSize_moveRedLeft]
              simp only [realSize_node] at h1 hsz
              omega
            have hp : L.pairs ++ (k2, v2) :: R.pairs
                = l.pairs ++ (k, v) :: r.pairs := by
              have := pairs_moveRedLeft (node k v l r true s)
              rw [hmv] at this
              simpa using this
            rcases hshape with ⟨hc2, hLr, hRr, okR, mm, hmmm, bLmm, bRmm⟩ |
              ⟨hc2, hLr, hRr, okR, bLm, bRm⟩
            · -- flip shape: black root, both children red
              subst hc2
              obtain ⟨okD, bD, redD, pD⟩ := IH L mm hLsz hLne okL (Or.inl hLr) bLmm
              have hbal2 := balance_spec (k := k2) (v := v2) (s := s2)
                okD okR bD bRmm (fun h => absurd h Bool.false_ne_true)
              refine ⟨hbal2.1, ?_, fun _ => rfl, ?_⟩
              · have := hbal2.2.1
                rw [hmmm]
                simpa using this
              · rw [pairs_balance]
                simp only [pairs_node]
                rw [pD, ← hp, tail_append_of_ne_nil (pairs_ne_nil hLne)]
            · -- rotate shape: red root, fully Ok23
              subst hc2
              obtain ⟨okD, bD, redD, pD⟩ := IH L m hLsz hLne okL hLred bLm
              have hnotred : isRed (deleteMinNode L) = false := by
                cases hD : isRed (deleteMinNode L) with
                | false => rfl
                | true =>
                    rw [redD hD] at hLr
                    exact absurd hLr (by simp)
              have hbal2 := balance_spec (k := k2) (v := v2) (c := true) (s := s2)
                okD okR bD bRm (fun _ => ⟨hnotred, hRr⟩)
              refine ⟨hbal2.1, by simpa using hbal2.2.1, fun _ => rfl, ?_⟩
              rw [pairs_balance]
              simp only [pairs_node]
              rw [pD, ← hp, tail_append_of_ne_nil (pairs_ne_nil hLne)]
          · -- left child is not a 2-node: recurse directly
            have hC' : isRed l = true ∨ isRed l.left = true := by
              cases hx : isRed l with
              | true => exact Or.inl rfl
              | false =>
                  cases hy : isRed l.left with
                  | true => exact Or.inr rfl
                  | false => simp [hx, hy] at hC
            obtain ⟨m1, bl1, br1, hm⟩ := balanced_node_iff.mp hbal
            have hlsz : l.realSize ≤ N := by
              simp only [realSize_node] at hsz
              omega
            obtain ⟨okD, bD, redD, pD⟩ := IH l m1 hlsz hlnil okl hC' bl1
            have hres : deleteMinNode (node k v l r c s)
                = balance (node k v (deleteMinNode l) r c s) := by
              simp only [deleteMinNode]
              rw [if_neg (by simp [isNil_eq_false hlnil])]
              rw [if_neg hC]
              simp [setLeft, left]
            rw [hres]
            have hcred : c = true → isRed (deleteMinNode l) = false ∧ isRed r = false := by
              intro hc
              refine ⟨?_, hrb⟩
              cases hD : isRed (deleteMinNode l) with
              | false => rfl
              | true => exact absurd (redD hD) (by simp [hcl hc])
            have hbal2 := balance_spec (k := k) (v := v) (s := s) okD okr bD br1 hcred
            refine ⟨hbal2.1, ?_, ?_, ?_⟩
            · rw [hm]
              exact hbal2.2.1
            · intro hres2
              rcases hbal2.2.2 hres2 with h | h
              · simp [h]
              · rw [hrb] at h
                exact absurd h.2 (by simp)
            · rw [pairs_balance]
              simp only [pairs_node]
              rw [pD, tail_append_of_ne_nil (pairs_ne_nil hlnil)]

theorem dropLast_append_ne_nil {α : Type} {M : List α} (h : M ≠ []) :
    ∀ L : List α, (L ++ M).dropLast = L ++ M.dropLast
  | [] => by simp
  | a :: L => by
      have hLM : L ++ M ≠ [] := by
        intro hc
        exact h (List.append_eq_nil.mp hc).2
      rw [List.cons_append, List.dropLast_cons_of_ne_nil hLM, dropLast_append_ne_nil h L,
        List.cons_append]

/-- Shape of the subtrees on which the right-descending deletions recurse:
either a non-2-node `Ok23` tree, or the transient shape produced by
`moveRedRight` (a black root whose right child is red and left child black). -/
def DelRightPre : RBNode K V → Prop := fun t =>
  (Ok23 t ∧ (isRed t = true ∨ isRed t.left = true)) ∨
  (∃ k v l r s, t = node k v l r false s ∧ Ok23 l ∧ Ok23 r ∧
    isRed l = false ∧ isRed r = true)

/-- Invariant preservation of the recursive `deleteMax`. -/
theorem deleteMaxNode_spec :
    ∀ (N : Nat) (t : RBNode K V) (m : Nat), t.realSize ≤ N → t ≠ nil →
      DelRightPre t → Balanced t m →
      Ok23 (deleteMaxNode t) ∧ Balanced (deleteMaxNode t) m ∧
      (isRed (deleteMaxNode t) = true → isRed t = true) ∧
      (deleteMaxNode t).pairs = t.pairs.dropLast := by
  intro N
  induction N with
  | zero =>
      intro t m hsz hne _ _
      cases t with
      | nil => exact absurd rfl hne
      | node k v l r c s => simp [realSize] at hsz
  | succ N IH =>
      intro t m hsz hne hpre hbal
      cases t with
      | nil => exact absurd rfl hne
      | node k v l r c s =>
        by_cases hlred : isRed l = true
        · -- red left child: rotate right first, then recurse into the new right
          obtain ⟨okt, hpre1⟩ : Ok23 (node k v l r c s) ∧ _ := by
            rcases hpre with ⟨okt, hd⟩ | ⟨k2, v2, l2, r2, s2, heq, _, _, hlb2, _⟩
            · exact ⟨okt, hd⟩
            · cases heq
              rw [hlred] at hlb2
              exact absurd hlb2 (by simp)
          obtain ⟨okl, okr, hrb, hcl⟩ := okt
          have hcf : c = false := by
            cases c with
            | false => rfl
            | true => exact absurd (hcl rfl) (by simp [hlred])
          subst hcf
          obtain ⟨lk, lv, ll, lr, ls, rfl⟩ := isRed_true_node hlred
          obtain ⟨okll, oklr, hlrb, hllbf⟩ := okl
          have hllb : isRed ll = false := hllbf rfl
          obtain ⟨m1, bl1, br1, hm⟩ := balanced_node_iff.mp hbal
          have hm' : m = m1 + 1 := by simpa using hm
          obtain ⟨m0, bll, blr, hm0⟩ := balanced_node_iff.mp bl1
          have hm02 : m0 = m1 := by simpa using hm0.symm
          rw [hm02] at bll blr
          have hres : deleteMaxNode (node k v (node lk lv ll lr true ls) r false s)
              = balance (node lk lv ll
                  (deleteMaxNode (node k v lr r true (size lr + size r + 1))) false s) := by
            conv_lhs =>
              simp only [deleteMaxNode]
              rw [if_pos (show (node lk lv ll lr true ls).isRed = true from rfl)]
              simp [rotateRight, setRight, RED]
          rw [hres]
          have hinsz : (node k v lr r true (size lr + size r + 1)).realSize ≤ N := by
            simp only [realSize_node] at hsz ⊢
            omega
          have okin : Ok23 (node k v lr r true (size lr + size r + 1)) :=
            ⟨oklr, okr, hrb, fun _ => hlrb⟩
          have bin : Balanced (node k v lr r true (size lr + size r + 1)) m1 := by
            simpa using balanced_node (k := k) (v := v) (c := true)
              (s := size lr + size r + 1) blr br1
          obtain ⟨okD, bD, redD, pD⟩ := IH _ m1 hinsz (by simp)
            (Or.inl ⟨okin, Or.inl rfl⟩) bin
          have hbal2 := balance_spec (k := lk) (v := lv) (c := false) (s := s)
            okll okD bll bD (fun h => absurd h Bool.false_ne_true)
          refine ⟨hbal2.1, ?_, ?_, ?_⟩
          · rw [hm']
            simpa using hbal2.2.1
          · intro hres2
            rcases hbal2.2.2 hres2 with h | h
            · exact absurd h Bool.false_ne_true
            · rw [hllb] at h
              exact absurd h.1 (by simp)
          · rw [pairs_balance]
            simp only [pairs_node] at pD ⊢
            rw [pD]
            rw [dropLast_append_ne_nil (by simp) (ll.pairs ++ (lk, lv) :: lr.pairs),
              dropLast_append_ne_nil (by simp) lr.pairs]
            simp
        · -- black left child
          have hlb : isRed l = false := by simpa using hlred
          by_cases hrnil : r = nil
          · -- maximum found: detach the node
            subst hrnil
            have hct : c = true := by
              rcases hpre with ⟨okt, hd⟩ | ⟨k2, v2, l2, r2, s2, heq, _, _, _, hr2⟩
              · rcases hd with h | h
                · simpa using h
                · rw [left_node] at h
                  rw [h] at hlb
                  exact absurd hlb (by simp)
              · cases heq
                exact absurd hr2 (by simp)
            subst hct
            obtain ⟨m1, bl1, br1, hm⟩ := balanced_node_iff.mp hbal
            have hm1 : m1 = 0 := by simpa using (balanced_nil_iff.mp br1)
            rw [hm1] at bl1
            have hm0 : m = 0 := by simpa [hm1] using hm
            have hlnil : l = nil := balanced_zero_black_nil bl1 hlb
            subst hlnil
            subst hm0
            have hres : deleteMaxNode (node k v nil nil true s) = nil := by
              simp [deleteMaxNode, isNil, right]
            rw [hres]
            exact ⟨trivial, by simp, by simp, by simp⟩
          · -- non-empty right subtree
            by_cases hC : (!isRed r && !isRed r.left) = true
            · -- right child is a 2-node: borrow via moveRedRight
              have hCparts := (Bool.and_eq_true _ _).mp hC
              have hrb : isRed r = false := by simpa using hCparts.1
              have hrlb : isRed r.left = false := by simpa using hCparts.2
              have hct : c = true := by
                rcases hpre with ⟨okt, hd⟩ | ⟨k2, v2, l2, r2, s2, heq, _, _, _, hr2⟩
                · rcases hd with h | h
                  · simpa using h
                  · rw [left_node] at h
                    rw [h] at hlb
                    exact absurd hlb (by simp)
                · cases heq
                  rw [hrb] at hr2
                  exact absurd hr2 (by simp)
              subst hct
              have okt : Ok23 (node k v l r true s) := by
                rcases hpre with ⟨okt, _⟩ | ⟨k2, v2, l2, r2, s2, heq, _, _, _, hr2⟩
                · exact okt
                · cases heq
              obtain ⟨okl, okr, _, hcl⟩ := okt
              obtain ⟨m1, bl1, br1, hm⟩ := balanced_node_iff.mp hbal
              have hmm : m = m1 := by simpa using hm
              rw [← hmm] at bl1 br1
              have hlne : l ≠ nil :=
                ne_nil_of_balanced_pos bl1 (black_bh_pos hrnil hrb br1)
              obtain ⟨k2, v2, L, R, s2, c2, hmv, hRne, hk2, hshape⟩ :=
                moveRedRight_spec (k := k) (v := v) (s := s)
                  okl okr hlb hrb hrlb bl1 br1 hlne hrnil
              have hres : deleteMaxNode (node k v l r true s)
                  = balance (node k2 v2 L (deleteMaxNode R) c2 s2) := by
                simp only [deleteMaxNode]
                simp [hlb, isNil_eq_false hrnil, hC, hmv, setRight, right]
              rw [hres]
              have hRsz : R.realSize ≤ N := by
                have h1 : (node k2 v2 L R c2 s2).realSize
                    = (node k v l r true s).realSize := by
                  rw [← hmv, realSize_moveRedRight]
                simp only [realSize_node] at h1 hsz
                omega
              have hp : L.pairs ++ (k2, v2) :: R.pairs
                  = l.pairs ++ (k, v) :: r.pairs := by
                have := pairs_moveRedRight (node k v l r true s)
                rw [hmv] at this
                simpa using this
              rcases hshape with ⟨hc2, hk2e, hLr, hRr, okL, okR, hRlb, mm, hmmm, bLmm, bRmm⟩ |
                ⟨hc2, hLr, okL, bLm, hk2l, k3, v3, R1, R2, s3, hReq, hk3, okR1, okR2,
                  hR1b, hR2r, bRm⟩
              · -- flip shape
                subst hc2
                obtain ⟨okD, bD, redD, pD⟩ := IH R mm hRsz hRne
                  (Or.inl ⟨okR, Or.inl hRr⟩) bRmm
                have hbal2 := balance_spec (k := k2) (v := v2) (c := false) (s := s2)
                  okL okD bLmm bD (fun h => absurd h Bool.false_ne_true)
                refine ⟨hbal2.1, ?_, fun _ => rfl, ?_⟩
                · rw [hmmm]
                  simpa using hbal2.2.1
                · rw [pairs_balance]
                  simp only [pairs_node]
                  rw [pD, ← hp, dropLast_append_ne_nil (List.cons_ne_nil _ _),
                    List.dropLast_cons_of_ne_nil (pairs_ne_nil hRne)]
              · -- rotate shape: recurse into the transient black-root shape
                subst hc2
                obtain ⟨okD, bD, redD, pD⟩ := IH R m hRsz hRne
                  (Or.inr ⟨k3, v3, R1, R2, s3, hReq, okR1, okR2, hR1b, hR2r⟩) bRm
                have hDb : isRed (deleteMaxNode R) = false := by
                  cases hD : isRed (deleteMaxNode R) with
                  | false => rfl
                  | true =>
                      have := redD hD
                      rw [hReq] at this
                      exact absurd this (by simp)
                have hbal2 := balance_spec (k := k2) (v := v2) (c := true) (s := s2)
                  okL okD bLm bD (fun _ => ⟨hLr, hDb⟩)
                refine ⟨hbal2.1, by simpa using hbal2.2.1, fun _ => rfl, ?_⟩
                rw [pairs_balance]
                simp only [pairs_node]
                rw [pD, ← hp, dropLast_append_ne_nil (List.cons_ne_nil _ _),
                    List.dropLast_cons_of_ne_nil (pairs_ne_nil hRne)]
            · -- right child is not a 2-node: recurse directly
              have hC' : isRed r = true ∨ isRed r.left = true := by
                cases hx : isRed r with
                | true => exact Or.inl rfl
                | false =>
                    cases hy : isRed r.left with
                    | true => exact Or.inr rfl
                    | false => simp [hx, hy] at hC
              have hres : deleteMaxNode (node k v l r c s)
                  = balance (node k v l (deleteMaxNode r) c s) := by
                simp only [deleteMaxNode]
                simp [hlb, isNil_eq_false hrnil, hC, setRight, right]
              rw [hres]
              obtain ⟨m1, bl1, br1, hm⟩ := balanced_node_iff.mp hbal
              have hrsz : r.realSize ≤ N := by
                simp only [realSize_node] at hsz
                omega
              rcases hpre with ⟨okt, _⟩ | ⟨k2, v2, l2, r2, s2, heq, okl2, okr2, hl2b, hr2r⟩
              · -- plain Ok23 input
                obtain ⟨okl, okr, hrb, hcl⟩ := okt
                have hrr : isRed r = false := hrb
                have hC'' : isRed r.left = true := by
                  rcases hC' with h | h
                  · rw [hrr] at h
                    exact absurd h (by simp)
                  · exact h
                obtain ⟨okD, bD, redD, pD⟩ := IH r m1 hrsz hrnil
                  (Or.inl ⟨okr, Or.inr hC''⟩) br1
                have hDb : isRed (deleteMaxNode r) = false := by
                  cases hD : isRed (deleteMaxNode r) with
                  | false => rfl
                  | true => exact absurd (redD hD) (by simp [hrr])
                have hbal2 := balance_spec (k := k) (v := v) (c := c) (s := s)
                  okl okD bl1 bD (fun hc => ⟨hcl hc, hDb⟩)
                refine ⟨hbal2.1, ?_, ?_, ?_⟩
                · rw [hm]
                  exact hbal2.2.1
                · intro hres2
                  rcases hbal2.2.2 hres2 with h | h
                  · simp [h]
                  · rw [hDb] at h
                    exact absurd h.2 (by simp)
                · rw [pairs_balance]
                  simp only [pairs_node]
                  rw [pD, dropLast_append_ne_nil (List.cons_ne_nil _ _),
                    List.dropLast_cons_of_ne_nil (pairs_ne_nil hrnil)]
              · -- transient black root with red right child
                cases heq
                obtain ⟨okD, bD, redD, pD⟩ := IH r m1 hrsz hrnil
                  (Or.inl ⟨okr2, Or.inl hr2r⟩) br1
                have hbal2 := balance_spec (k := k) (v := v) (c := false) (s := s)
                  okl2 okD bl1 bD (fun h => absurd h Bool.false_ne_true)
                refine ⟨hbal2.1, ?_, ?_, ?_⟩
                · rw [hm]
                  simpa using hbal2.2.1
                · intro hres2
                  rcases hbal2.2.2 hres2 with h | h
                  · exact absurd h Bool.false_ne_true
                  · rw [hl2b] at h
                    exact absurd h.1 (by simp)
                · rw [pairs_balance]
                  simp only [pairs_node]
                  rw [pD, dropLast_append_ne_nil (List.cons_ne_nil _ _),
                    List.dropLast_cons_of_ne_nil (pairs_ne_nil hrnil)]

/-! ### Support lemmas for `deleteItem` -/

theorem ordered_node_iff [LinearOrder K] {k : K} {v : V} {l r : RBNode K V} {c : Bool}
    {s : Nat} :
    Ordered (node k v l r c s) ↔
      (∀ a ∈ keysList l, a < k) ∧ (∀ a ∈ keysList r, k < a) ∧ Ordered l ∧ Ordered r :=
  Iff.rfl

/-- Removal of all pairs with the given key from an association list.  On the
in-order pairs of a symmetric-ordered tree (whose keys are distinct) this
removes exactly the entry of that key. -/
def eraseKey [LinearOrder K] (key : K) (L : List (K × V)) : List (K × V) :=
  L.filter fun p => decide (p.1 ≠ key)

theorem eraseKey_of_forall_ne [LinearOrder K] {key : K} {L : List (K × V)}
    (h : ∀ p ∈ L, p.1 ≠ key) : eraseKey key L = L := by
  rw [eraseKey, List.filter_eq_self]
  intro p hp
  simpa using h p hp

theorem eraseKey_append_right_ne [LinearOrder K] {key k : K} {v : V} {L R : List (K × V)}
    (h1 : k ≠ key) (h2 : ∀ p ∈ R, p.1 ≠ key) :
    eraseKey key (L ++ (k, v) :: R) = eraseKey key L ++ (k, v) :: R := by
  rw [eraseKey, List.filter_append, List.filter_cons_of_pos (by simpa using h1)]
  rw [← eraseKey]
  rw [show List.filter (fun p => decide (p.1 ≠ key)) R = eraseKey key R from rfl]
  rw [eraseKey_of_forall_ne h2]

theorem eraseKey_append_left_ne [LinearOrder K] {key k : K} {v : V} {L R : List (K × V)}
    (h1 : ∀ p ∈ L, p.1 ≠ key) (h2 : k ≠ key) :
    eraseKey key (L ++ (k, v) :: R) = L ++ (k, v) :: eraseKey key R := by
  rw [eraseKey, List.filter_append, List.filter_cons_of_pos (by simpa using h2)]
  rw [show List.filter (fun p => decide (p.1 ≠ key)) L = eraseKey key L from rfl]
  rw [eraseKey_of_forall_ne h1]
  rfl

theorem eraseKey_append_eq [LinearOrder K] {key : K} {v : V} {L R : List (K × V)}
    (h1 : ∀ p ∈ L, p.1 ≠ key) (h2 : ∀ p ∈ R, p.1 ≠ key) :
    eraseKey key (L ++ (key, v) :: R) = L ++ R := by
  rw [eraseKey, List.filter_append, List.filter_cons_of_neg (by simp)]
  rw [show List.filter (fun p => decide (p.1 ≠ key)) L = eraseKey key L from rfl]
  rw [show List.filter (fun p => decide (p.1 ≠ key)) R = eraseKey key R from rfl]
  rw [eraseKey_of_forall_ne h1, eraseKey_of_forall_ne h2]

/-- The minimum node of a non-empty subtree carries the head of its in-order
pairs list (no ordering assumption needed: `min` follows the left spine). -/
theorem minNode_pairs (d : K) (dv : V) :
    ∀ {t : RBNode K V}, t ≠ nil →
      t.pairs = (rootKeyD d (minNode t), rootValD dv (minNode t)) :: t.pairs.tail
  | nil, h => absurd rfl h
  | node k v l r c s, _ => by
      cases l with
      | nil => simp [minNode, rootKeyD, rootValD]
      | node lk lv ll lr lc ls =>
          have ih := minNode_pairs d dv (t := node lk lv ll lr lc ls) (by simp)
          have hne : (node lk lv ll lr lc ls).pairs ≠ [] := by simp
          show (node lk lv ll lr lc ls).pairs ++ (k, v) :: r.pairs
              = (rootKeyD d (minNode (node lk lv ll lr lc ls)),
                 rootValD dv (minNode (node lk lv ll lr lc ls)))
                :: ((node lk lv ll lr lc ls).pairs ++ (k, v) :: r.pairs).tail
          rw [tail_append_of_ne_nil hne]
          conv_lhs => rw [ih]
          simp

theorem mem_left_of_lt_root [LinearOrder K] {key k : K} {v : V} {l r : RBNode K V}
    {c : Bool} {s : Nat} (hord : Ordered (node k v l r c s))
    (hk : key ∈ keysList (node k v l r c s)) (hlt : key < k) : key ∈ keysList l := by
  rw [keysList_node] at hk
  rcases List.mem_append.mp hk with h | h
  · exact h
  · rcases List.mem_cons.mp h with h | h
    · exact absurd (h ▸ hlt) (lt_irrefl _)
    · exact absurd (lt_trans hlt (hord.2.1 _ h)) (lt_irrefl _)

theorem mem_right_of_root_lt [LinearOrder K] {key k : K} {v : V} {l r : RBNode K V}
    {c : Bool} {s : Nat} (hord : Ordered (node k v l r c s))
    (hk : key ∈ keysList (node k v l r c s)) (hlt : k < key) : key ∈ keysList r := by
  rw [keysList_node] at hk
  rcases List.mem_append.mp hk with h | h
  · exact absurd (lt_trans hlt (hord.1 _ h)) (lt_irrefl _)
  · rcases List.mem_cons.mp h with h | h
    · exact absurd (h ▸ hlt) (lt_irrefl _)
    · exact h

theorem keysList_ne_nil_of_mem {key : K} {t : RBNode K V} (h : key ∈ keysList t) :
    t ≠ nil := by
  intro hc
  subst hc
  simp [keysList] at h

/-- Shape of the subtrees on which `deleteItem` recurses: either a non-2-node
`Ok23` tree, or the transient black root with a red right child, whose root key
is then known to be at most the deleted key. -/
def DelItemPre [LinearOrder K] (key : K) : RBNode K V → Prop := fun t =>
  (Ok23 t ∧ (isRed t = true ∨ isRed t.left = true)) ∨
  (∃ k v l r s, t = node k v l r false s ∧ Ok23 l ∧ Ok23 r ∧
    isRed l = false ∧ isRed r = true ∧ k ≤ key)

/-- Invariant preservation and functional behavior of the recursive
`deleteItem`: under the transient descent shapes, with the key present, the
result keeps the 2-3 shape and black height, is red only if the input root was
red, and its in-order pairs are the input's with the key's entry removed. -/
theorem deleteItemNode_spec [LinearOrder K] (key : K) :
    ∀ (N : Nat) (t : RBNode K V) (m : Nat), t.realSize ≤ N → Ordered t →
      DelItemPre key t → Balanced t m → key ∈ keysList t →
      Ok23 (deleteItemNode key t) ∧ Balanced (deleteItemNode key t) m ∧
      (isRed (deleteItemNode key t) = true → isRed t = true) ∧
      (deleteItemNode key t).pairs = eraseKey key t.pairs := by
  intro N
  induction N with
  | zero =>
      intro t m hsz hord hpre hbal hmem
      cases t with
      | nil => simp [keysList] at hmem
      | node k v l r c s => simp [realSize] at hsz
  | succ N IH =>
      intro t m hsz hord hpre hbal hmem
      cases t with
      | nil => simp [keysList] at hmem
      | node k v l r c s =>
        obtain ⟨hkl, hkr, ordl, ordr⟩ := hord
        by_cases hkey : key < k
        · -- descend left
          obtain ⟨okt, hpre1⟩ : Ok23 (node k v l r c s) ∧
              (isRed (node k v l r c s) = true ∨ isRed l = true) := by
            rcases hpre with ⟨okt, h⟩ | ⟨k2, v2, l2, r2, s2, heq, _, _, _, _, hkle⟩
            · exact ⟨okt, by simpa using h⟩
            · cases heq
              exact absurd (lt_of_le_of_lt hkle hkey) (lt_irrefl _)
          obtain ⟨okl, okr, hrb, hcl⟩ := okt
          have hordt : Ordered (node k v l r c s) := ⟨hkl, hkr, ordl, ordr⟩
          have hmeml : key ∈ keysList l := mem_left_of_lt_root hordt hmem hkey
          have hlnil : l ≠ nil := keysList_ne_nil_of_mem hmeml
          have hrne2 : ∀ p ∈ r.pairs, p.1 ≠ key := fun p hp =>
            ne_of_gt (lt_trans hkey (hkr _ (List.mem_map_of_mem Prod.fst hp)))
          by_cases hC : (!isRed l && !isRed l.left) = true
          · -- borrow via moveRedLeft
            have hCparts := (Bool.and_eq_true _ _).mp hC
            have hlb : isRed l = false := by simpa using hCparts.1
            have hllb : isRed l.left = false := by simpa using hCparts.2
            have hct : c = true := by
              rcases hpre1 with h | h
              · simpa using h
              · rw [h] at hlb
                exact absurd hlb (by simp)
            subst hct
            obtain ⟨m1, bl1, br1, hm⟩ := balanced_node_iff.mp hbal
            have hmm : m = m1 := by simpa using hm
            rw [← hmm] at bl1 br1
            have hrne : r ≠ nil :=
              ne_nil_of_balanced_pos br1 (black_bh_pos hlnil hlb bl1)
            obtain ⟨k2, v2, L, R, s2, c2, hmv, hLne, okL, hLred, hk2, hshape⟩ :=
              moveRedLeft_spec (k := k) (v := v) (s := s)
                okl okr hlb hllb hrb bl1 br1 hlnil hrne
            have hres : deleteItemNode key (node k v l r true s)
                = balance (node k2 v2 (deleteItemNode key L) R c2 s2) := by
              simp only [deleteItemNode]
              rw [if_pos hkey, if_pos hC, hmv]
              simp [setLeft, left]
            rw [hres]
            have hLsz : L.realSize ≤ N := by
              have h1 : (node k2 v2 L R c2 s2).realSize
                  = (node k v l r true s).realSize := by
                rw [← hmv, realSize_moveRedLeft]
              simp only [realSize_node] at h1 hsz
              omega
            have hpfull : (node k2 v2 L R c2 s2).pairs = (node k v l r true s).pairs := by
              rw [← hmv, pairs_moveRedLeft]
            have hordmv : Ordered (node k2 v2 L R c2 s2) :=
              (ordered_congr hpfull).mp hordt
            obtain ⟨hkl2, hkr2, ordL, ordR⟩ := hordmv
            have hordmv2 : Ordered (node k2 v2 L R c2 s2) := ⟨hkl2, hkr2, ordL, ordR⟩
            have hk2lt : key < k2 := by
              rcases hk2 with h | h
              · exact h ▸ hkey
              · exact lt_trans hkey (hkr _ h)
            have hmemmv : key ∈ keysList (node k2 v2 L R c2 s2) := by
              rw [keysList, hpfull]
              exact hmem
            have hmemL : key ∈ keysList L := mem_left_of_lt_root hordmv2 hmemmv hk2lt
            have hp : L.pairs ++ (k2, v2) :: R.pairs
                = l.pairs ++ (k, v) :: r.pairs := by simpa using hpfull
            have hRne2 : ∀ p ∈ R.pairs, p.1 ≠ key := fun p hp2 =>
              ne_of_gt (lt_trans hk2lt (hkr2 _ (List.mem_map_of_mem Prod.fst hp2)))
            rcases hshape with ⟨hc2, hLr, hRr, okR, mm, hmmm, bLmm, bRmm⟩ |
              ⟨hc2, hLr, hRr, okR, bLm, bRm⟩
            · subst hc2
              obtain ⟨okD, bD, redD, pD⟩ := IH L mm hLsz ordL
                (Or.inl ⟨okL, Or.inl hLr⟩) bLmm hmemL
              have hbal2 := balance_spec (k := k2) (v := v2) (c := false) (s := s2)
                okD okR bD bRmm (fun h => absurd h Bool.false_ne_true)
              refine ⟨hbal2.1, ?_, fun _ => rfl, ?_⟩
              · rw [hmmm]
                simpa using hbal2.2.1
              · rw [pairs_balance]
                simp only [pairs_node]
                rw [pD]
                conv_rhs => rw [← hp]
                rw [eraseKey_append_right_ne (ne_of_gt hk2lt) hRne2]
            · subst hc2
              obtain ⟨okD, bD, redD, pD⟩ := IH L m hLsz ordL
                (Or.inl ⟨okL, hLred⟩) bLm hmemL
              have hnotred : isRed (deleteItemNode key L) = false := by
                cases hD : isRed (deleteItemNode key L) with
                | false => rfl
                | true =>
                    rw [redD hD] at hLr
                    exact absurd hLr (by simp)
              have hbal2 := balance_spec (k := k2) (v := v2) (c := true) (s := s2)
                okD okR bD bRm (fun _ => ⟨hnotred, hRr⟩)
              refine ⟨hbal2.1, by simpa using hbal2.2.1, fun _ => rfl, ?_⟩
              rw [pairs_balance]
              simp only [pairs_node]
              rw [pD]
              conv_rhs => rw [← hp]
              rw [eraseKey_append_right_ne (ne_of_gt hk2lt) hRne2]
          · -- recurse directly into the left child
            have hC' : isRed l = true ∨ isRed l.left = true := by
              cases hx : isRed l with
              | true => exact Or.inl rfl
              | false =>
                  cases hy : isRed l.left with
                  | true => exact Or.inr rfl
                  | false => simp [hx, hy] at hC
            obtain ⟨m1, bl1, br1, hm⟩ := balanced_node_iff.mp hbal
            have hlsz : l.realSize ≤ N := by
              simp only [realSize_node] at hsz
              omega
            obtain ⟨okD, bD, redD, pD⟩ := IH l m1 hlsz ordl
              (Or.inl ⟨okl, hC'⟩) bl1 hmeml
            have hres : deleteItemNode key (node k v l r c s)
                = balance (node k v (deleteItemNode key l) r c s) := by
              simp only [deleteItemNode]
              rw [if_pos hkey, if_neg hC]
              simp [setLeft, left]
            rw [hres]
            have hcred : c = true →
                isRed (deleteItemNode key l) = false ∧ isRed r = false := by
              intro hc
              refine ⟨?_, hrb⟩
              cases hD : isRed (deleteItemNode key l) with
              | false => rfl
              | true => exact absurd (redD hD) (by simp [hcl hc])
            have hbal2 := balance_spec (k := k) (v := v) (c := c) (s := s)
              okD okr bD br1 hcred
            refine ⟨hbal2.1, ?_, ?_, ?_⟩
            · rw [hm]
              exact hbal2.2.1
            · intro hres2
              rcases hbal2.2.2 hres2 with h | h
              · simp [h]
              · rw [hrb] at h
                exact absurd h.2 (by simp)
            · rw [pairs_balance]
              simp only [pairs_node]
              rw [pD, eraseKey_append_right_ne (ne_of_gt hkey) hrne2]
        · -- the key is at the root or to the right
          have hkk : k ≤ key := not_lt.mp hkey
          have hlne2 : ∀ p ∈ l.pairs, p.1 ≠ key := fun p hp =>
            ne_of_lt (lt_of_lt_of_le (hkl _ (List.mem_map_of_mem Prod.fst hp)) hkk)
          by_cases hlred : isRed l = true
          · -- rotate right, then recurse into the rebuilt right subtree
            obtain ⟨okt, _⟩ : Ok23 (node k v l r c s) ∧ True := by
              rcases hpre with ⟨okt, _⟩ | ⟨k2, v2, l2, r2, s2, heq, _, _, hlb2, _, _⟩
              · exact ⟨okt, trivial⟩
              · cases heq
                rw [hlred] at hlb2
                exact absurd hlb2 (by simp)
            obtain ⟨okl, okr, hrb, hcl⟩ := okt
            have hcf : c = false := by
              cases c with
              | false => rfl
              | true => exact absurd (hcl rfl) (by simp [hlred])
            subst hcf
            obtain ⟨lk, lv, ll, lr, ls, rfl⟩ := isRed_true_node hlred
            obtain ⟨okll, oklr, hlrb, hllbf⟩ := okl
            have hllb : isRed ll = false := hllbf rfl
            obtain ⟨hkll, hklr, ordll, ordlr⟩ := ordl
            have hlk : lk < key := lt_of_lt_of_le (hkl lk (by simp)) hkk
            obtain ⟨m1, bl1, br1, hm⟩ := balanced_node_iff.mp hbal
            have hm' : m = m1 + 1 := by simpa using hm
            obtain ⟨m0, bll, blr, hm0⟩ := balanced_node_iff.mp bl1
            have hm02 : m0 = m1 := by simpa using hm0.symm
            rw [hm02] at bll blr
            have hres : deleteItemNode key
                  (node k v (node lk lv ll lr true ls) r false s)
                = balance (node lk lv ll
                    (deleteItemNode key (node k v lr r true (size lr + size r + 1)))
                    false s) := by
              conv_lhs =>
                simp only [deleteItemNode]
                rw [if_neg hkey]
                rw [if_pos (show (node lk lv ll lr true ls).isRed = true from rfl)]
                simp [rotateRight, RED, rootKeyD, setRight, asymm hlk, hlk]
            rw [hres]
            have hinsz : (node k v lr r true (size lr + size r + 1)).realSize ≤ N := by
              simp only [realSize_node] at hsz ⊢
              omega
            have okin : Ok23 (node k v lr r true (size lr + size r + 1)) :=
              ⟨oklr, okr, hrb, fun _ => hlrb⟩
            have ordin : Ordered (node k v lr r true (size lr + size r + 1)) :=
              ⟨fun a ha => hkl a (by simp [ha]), hkr, ordlr, ordr⟩
            have bin : Balanced (node k v lr r true (size lr + size r + 1)) m1 := by
              simpa using balanced_node (k := k) (v := v) (c := true)
                (s := size lr + size r + 1) blr br1
            have hmemin : key ∈ keysList (node k v lr r true (size lr + size r + 1)) := by
              rw [keysList_node]
              rcases (by simpa using hmem :
                  key ∈ keysList ll ∨ key = lk ∨ key ∈ keysList lr ∨
                    key = k ∨ key ∈ keysList r) with h | h | h | h | h
              · exact absurd (lt_of_lt_of_le (hkl key (by simp [h])) hkk) (lt_irrefl _)
              · exact absurd (h ▸ hlk) (lt_irrefl _)
              · exact List.mem_append_left _ h
              · exact List.mem_append_right _ (by simp [h])
              · exact List.mem_append_right _ (by simp [h])
            obtain ⟨okD, bD, redD, pD⟩ := IH _ m1 hinsz ordin
              (Or.inl ⟨okin, Or.inl rfl⟩) bin hmemin
            have hbal2 := balance_spec (k := lk) (v := lv) (c := false) (s := s)
              okll okD bll bD (fun h => absurd h Bool.false_ne_true)
            refine ⟨hbal2.1, ?_, ?_, ?_⟩
            · rw [hm']
              simpa using hbal2.2.1
            · intro hres2
              rcases hbal2.2.2 hres2 with h | h
              · exact absurd h Bool.false_ne_true
              · rw [hllb] at h
                exact absurd h.1 (by simp)
            · rw [pairs_balance]
              simp only [pairs_node] at pD ⊢
              rw [pD]
              have hllne : ∀ p ∈ ll.pairs, p.1 ≠ key := fun p hp =>
                ne_of_lt (lt_of_lt_of_le
                  (hkl _ (by
                    rw [keysList_node]
                    exact List.mem_append_left _ (List.mem_map_of_mem Prod.fst hp))) hkk)
              rw [List.append_assoc, List.cons_append,
                eraseKey_append_left_ne hllne (ne_of_lt hlk)]
          · -- black left child
            have hlb : isRed l = false := by simpa using hlred
            obtain ⟨okl, okr, hcr, hpre2⟩ : Ok23 l ∧ Ok23 r ∧
                (c = true → isRed l = false ∧ isRed r = false) ∧
                (isRed (node k v l r c s) = true ∨ isRed l = true ∨ isRed r = true) := by
              rcases hpre with ⟨okt, hd⟩ | ⟨k2, v2, l2, r2, s2, heq, h1, h2, h3, h4, _⟩
              · exact ⟨okt.1, okt.2.1, fun hc => ⟨(okt.2.2.2) hc, okt.2.2.1⟩,
                  by rcases hd with h | h
                     · exact Or.inl h
                     · exact Or.inr (Or.inl (by simpa using h))⟩
              · cases heq
                exact ⟨h1, h2, fun hc => absurd hc (by simp),
                  Or.inr (Or.inr h4)⟩
            by_cases hknil : k < key
            · -- strictly greater key: never the root; recurse right
              have hmemr : key ∈ keysList r :=
                mem_right_of_root_lt ⟨hkl, hkr, ordl, ordr⟩ hmem hknil
              have hrnil : r ≠ nil := keysList_ne_nil_of_mem hmemr
              by_cases hC2 : (!isRed r && !isRed r.left) = true
              · -- borrow via moveRedRight
                have hCparts := (Bool.and_eq_true _ _).mp hC2
                have hrb : isRed r = false := by simpa using hCparts.1
                have hrlb : isRed r.left = false := by simpa using hCparts.2
                have hct : c = true := by
                  rcases hpre2 with h | h | h
                  · simpa using h
                  · rw [h] at hlb
                    exact absurd hlb (by simp)
                  · rw [h] at hrb
                    exact absurd hrb (by simp)
                subst hct
                obtain ⟨m1, bl1, br1, hm⟩ := balanced_node_iff.mp hbal
                have hmm : m = m1 := by simpa using hm
                rw [← hmm] at bl1 br1
                have hlne : l ≠ nil :=
                  ne_nil_of_balanced_pos bl1 (black_bh_pos hrnil hrb br1)
                obtain ⟨k2, v2, L, R, s2, c2, hmv, hRne, hk2, hshape⟩ :=
                  moveRedRight_spec (k := k) (v := v) (s := s)
                    okl okr hlb hrb hrlb bl1 br1 hlne hrnil
                have hpfull : (node k2 v2 L R c2 s2).pairs
                    = (node k v l r true s).pairs := by
                  rw [← hmv, pairs_moveRedRight]
                have hordmv : Ordered (node k2 v2 L R c2 s2) :=
                  (ordered_congr hpfull).mp ⟨hkl, hkr, ordl, ordr⟩
                obtain ⟨hkl2, hkr2, ordL, ordR⟩ := hordmv
                have hordmv2 : Ordered (node k2 v2 L R c2 s2) := ⟨hkl2, hkr2, ordL, ordR⟩
                have hk2le : k2 ≤ k := by
                  rcases hk2 with h | h
                  · exact h ▸ le_refl k
                  · exact le_of_lt (hkl _ h)
                have hk2lt : k2 < key := lt_of_le_of_lt hk2le hknil
                have hmemmv : key ∈ keysList (node k2 v2 L R c2 s2) := by
                  rw [keysList, hpfull]
                  exact hmem
                have hmemR : key ∈ keysList R := mem_right_of_root_lt hordmv2 hmemmv hk2lt
                have hRsz : R.realSize ≤ N := by
                  have h1 : (node k2 v2 L R c2 s2).realSize
                      = (node k v l r true s).realSize := by
                    rw [← hmv, realSize_moveRedRight]
                  simp only [realSize_node] at h1 hsz
                  omega
                have hp : L.pairs ++ (k2, v2) :: R.pairs
                    = l.pairs ++ (k, v) :: r.pairs := by simpa using hpfull
                have hLne2 : ∀ p ∈ L.pairs, p.1 ≠ key := fun p hp2 =>
                  ne_of_lt (lt_trans (hkl2 _ (List.mem_map_of_mem Prod.fst hp2)) hk2lt)
                have hres : deleteItemNode key (node k v l r true s)
                    = balance (node k2 v2 L (deleteItemNode key R) c2 s2) := by
                  simp only [deleteItemNode]
                  rw [if_neg hkey]
                  rw [if_neg (show ¬(l.isRed = true) from
                    by simpa using hlb)]
                  rw [if_neg (show ¬((¬key < rootKeyD key (node k v l r true s) ∧
                      ¬rootKeyD key (node k v l r true s) < key) ∧
                      (node k v l r true s).right.isNil = true) from by
                    simp only [rootKeyD, right_node]
                    rintro ⟨⟨_, hh⟩, _⟩
                    exact hh hknil)]
                  rw [if_pos (show ((!(node k v l r true s).right.isRed &&
                      !(node k v l r true s).right.left.isRed) = true) from
                    by simpa using hC2)]
                  rw [hmv]
                  rw [if_neg (show ¬(¬key < rootKeyD key (node k2 v2 L R c2 s2) ∧
                      ¬rootKeyD key (node k2 v2 L R c2 s2) < key) from by
                    simp only [rootKeyD]
                    rintro ⟨_, hh⟩
                    exact hh hk2lt)]
                  simp [setRight, right]
                rw [hres]
                rcases hshape with ⟨hc2, hk2e, hLr, hRr, okL, okR, hRlb, mm, hmmm, bLmm, bRmm⟩ |
                  ⟨hc2, hLr, okL, bLm, hk2l, k3, v3, R1, R2, s3, hReq, hk3, okR1, okR2,
                    hR1b, hR2r, bRm⟩
                · subst hc2
                  obtain ⟨okD, bD, redD, pD⟩ := IH R mm hRsz ordR
                    (Or.inl ⟨okR, Or.inl hRr⟩) bRmm hmemR
                  have hbal2 := balance_spec (k := k2) (v := v2) (c := false) (s := s2)
                    okL okD bLmm bD (fun h => absurd h Bool.false_ne_true)
                  refine ⟨hbal2.1, ?_, fun _ => rfl, ?_⟩
                  · rw [hmmm]
                    simpa using hbal2.2.1
                  · rw [pairs_balance]
                    simp only [pairs_node]
                    rw [pD]
                    conv_rhs => rw [← hp]
                    rw [eraseKey_append_left_ne hLne2 (ne_of_lt hk2lt)]
                · subst hc2
                  obtain ⟨okD, bD, redD, pD⟩ := IH R m hRsz ordR
                    (Or.inr ⟨k3, v3, R1, R2, s3, hReq, okR1, okR2, hR1b, hR2r,
                      hk3 ▸ hkk⟩) bRm hmemR
                  have hDb : isRed (deleteItemNode key R) = false := by
                    cases hD : isRed (deleteItemNode key R) with
                    | false => rfl
                    | true =>
                        have := redD hD
                        rw [hReq] at this
                        exact absurd this (by simp)
                  have hbal2 := balance_spec (k := k2) (v := v2) (c := true) (s := s2)
                    okL okD bLm bD (fun _ => ⟨hLr, hDb⟩)
                  refine ⟨hbal2.1, by simpa using hbal2.2.1, fun _ => rfl, ?_⟩
                  rw [pairs_balance]
                  simp only [pairs_node]
                  rw [pD]
                  conv_rhs => rw [← hp]
                  rw [eraseKey_append_left_ne hLne2 (ne_of_lt hk2lt)]
              · -- recurse directly into the right child
                have hC2' : isRed r = true ∨ isRed r.left = true := by
                  cases hx : isRed r with
                  | true => exact Or.inl rfl
                  | false =>
                      cases hy : isRed r.left with
                      | true => exact Or.inr rfl
                      | false => simp [hx, hy] at hC2
                obtain ⟨m1, bl1, br1, hm⟩ := balanced_node_iff.mp hbal
                have hrsz : r.realSize ≤ N := by
                  simp only [realSize_node] at hsz
                  omega
                obtain ⟨okD, bD, redD, pD⟩ := IH r m1 hrsz ordr
                  (Or.inl ⟨okr, hC2'⟩) br1 hmemr
                have hres : deleteItemNode key (node k v l r c s)
                    = balance (node k v l (deleteItemNode key r) c s) := by
                  simp only [deleteItemNode]
                  rw [if_neg hkey]
                  rw [if_neg (show ¬(l.isRed = true) from
                    by simpa using hlb)]
                  rw [if_neg (show ¬((¬key < rootKeyD key (node k v l r c s) ∧
                      ¬rootKeyD key (node k v l r c s) < key) ∧
                      (node k v l r c s).right.isNil = true) from by
                    simp only [rootKeyD, right_node]
                    rintro ⟨⟨_, hh⟩, _⟩
                    exact hh hknil)]
                  rw [if_neg (show ¬((!(node k v l r c s).right.isRed &&
                      !(node k v l r c s).right.left.isRed) = true) from
                    by simpa using hC2)]
                  rw [if_neg (show ¬(¬key < rootKeyD key (node k v l r c s) ∧
                      ¬rootKeyD key (node k v l r c s) < key) from by
                    simp only [rootKeyD]
                    rintro ⟨_, hh⟩
                    exact hh hknil)]
                  simp [setRight, right]
                rw [hres]
                have hcred : c = true →
                    isRed l = false ∧ isRed (deleteItemNode key r) = false := by
                  intro hc
                  refine ⟨hlb, ?_⟩
                  cases hD : isRed (deleteItemNode key r) with
                  | false => rfl
                  | true => exact absurd (redD hD) (by simp [(hcr hc).2])
                have hbal2 := balance_spec (k := k) (v := v) (c := c) (s := s)
                  okl okD bl1 bD hcred
                refine ⟨hbal2.1, ?_, ?_, ?_⟩
                · rw [hm]
                  exact hbal2.2.1
                · intro hres2
                  rcases hbal2.2.2 hres2 with h | h
                  · simp [h]
                  · rw [hlb] at h
                    exact absurd h.1 (by simp)
                · rw [pairs_balance]
                  simp only [pairs_node]
                  rw [pD, eraseKey_append_left_ne hlne2 (ne_of_lt hknil)]
            · -- the root holds the key
              have hkeq : key = k := le_antisymm (not_lt.mp hknil) hkk
              subst hkeq
              by_cases hrnil : r = nil
              · -- no right child: detach the node
                subst hrnil
                have hct : c = true := by
                  rcases hpre2 with h | h | h
                  · simpa using h
                  · rw [h] at hlb
                    exact absurd hlb (by simp)
                  · simp [isRed] at h
                subst hct
                obtain ⟨m1, bl1, br1, hm⟩ := balanced_node_iff.mp hbal
                have hm1 : m1 = 0 := by simpa using (balanced_nil_iff.mp br1)
                rw [hm1] at bl1
                have hm0 : m = 0 := by simpa [hm1] using hm
                have hlnil : l = nil := balanced_zero_black_nil bl1 hlb
                subst hlnil
                subst hm0
                have hres : deleteItemNode key (node key v nil nil true s) = nil := by
                  simp [deleteItemNode, rootKeyD, isNil, lt_irrefl]
                rw [hres]
                refine ⟨trivial, by simp, by simp, ?_⟩
                simp [eraseKey]
              · -- right child present: replace by the in-order successor
                have hrxne : r ≠ nil := hrnil
                by_cases hC2 : (!isRed r && !isRed r.left) = true
                · -- borrow via moveRedRight first
                  have hCparts := (Bool.and_eq_true _ _).mp hC2
                  have hrb : isRed r = false := by simpa using hCparts.1
                  have hrlb : isRed r.left = false := by simpa using hCparts.2
                  have hct : c = true := by
                    rcases hpre2 with h | h | h
                    · simpa using h
                    · rw [h] at hlb
                      exact absurd hlb (by simp)
                    · rw [h] at hrb
                      exact absurd hrb (by simp)
                  subst hct
                  obtain ⟨m1, bl1, br1, hm⟩ := balanced_node_iff.mp hbal
                  have hmm : m = m1 := by simpa using hm
                  rw [← hmm] at bl1 br1
                  have hlne : l ≠ nil :=
                    ne_nil_of_balanced_pos bl1 (black_bh_pos hrnil hrb br1)
                  obtain ⟨k2, v2, L, R, s2, c2, hmv, hRne, hk2, hshape⟩ :=
                    moveRedRight_spec (k := key) (v := v) (s := s)
                      okl okr hlb hrb hrlb bl1 br1 hlne hrnil
                  have hpfull : (node k2 v2 L R c2 s2).pairs
                      = (node key v l r true s).pairs := by
                    rw [← hmv, pairs_moveRedRight]
                  have hordmv : Ordered (node k2 v2 L R c2 s2) :=
                    (ordered_congr hpfull).mp ⟨hkl, hkr, ordl, ordr⟩
                  obtain ⟨hkl2, hkr2, ordL, ordR⟩ := hordmv
                  have hordmv2 : Ordered (node k2 v2 L R c2 s2) :=
                    ⟨hkl2, hkr2, ordL, ordR⟩
                  have hp : L.pairs ++ (k2, v2) :: R.pairs
                      = l.pairs ++ (key, v) :: r.pairs := by simpa using hpfull
                  have hRsz : R.realSize ≤ N := by
                    have h1 : (node k2 v2 L R c2 s2).realSize
                        = (node key v l r true s).realSize := by
                      rw [← hmv, realSize_moveRedRight]
                    simp only [realSize_node] at h1 hsz
                    omega
                  rcases hshape with
                    ⟨hc2, hk2e, hLr, hRr, okL, okR, hRlb, mm, hmmm, bLmm, bRmm⟩ |
                    ⟨hc2, hLr, okL, bLm, hk2l, k3, v3, R1, R2, s3, hReq, hk3, okR1,
                      okR2, hR1b, hR2r, bRm⟩
                  · -- flip shape: the root of the flipped tree still holds the key
                    subst hc2
                    have hk2eq : k2 = key := hk2e
                    subst hk2eq
                    obtain ⟨okD, bD, redD, pD⟩ :=
                      deleteMinNode_spec R.realSize R mm (le_refl _) hRne okR
                        (Or.inl hRr) bRmm
                    have hres : deleteItemNode k2 (node k2 v l r true s)
                        = balance (node (rootKeyD k2 (minNode R))
                            (rootValD v (minNode R)) L (deleteMinNode R) false s2) := by
                      simp only [deleteItemNode]
                      rw [if_neg (lt_irrefl _)]
                      rw [if_neg (show ¬(l.isRed = true) from
                        by simpa using hlb)]
                      rw [if_neg (show ¬((¬k2 < rootKeyD k2 (node k2 v l r true s) ∧
                          ¬rootKeyD k2 (node k2 v l r true s) < k2) ∧
                          (node k2 v l r true s).right.isNil = true) from by
                        simp only [rootKeyD, right_node]
                        rintro ⟨_, hh⟩
                        rw [isNil_eq_false hrnil] at hh
                        exact absurd hh (by simp))]
                      rw [if_pos (show ((!(node k2 v l r true s).right.isRed &&
                          !(node k2 v l r true s).right.left.isRed) = true) from
                        by simpa using hC2)]
                      rw [hmv]
                      rw [if_pos (show (¬k2 < rootKeyD k2 (node k2 v2 L R false s2) ∧
                          ¬rootKeyD k2 (node k2 v2 L R false s2) < k2) from by
                        simp only [rootKeyD]
                        exact ⟨lt_irrefl _, lt_irrefl _⟩)]
                      simp [setKeyValRight, right]
                    rw [hres]
                    have hbal2 := balance_spec (k := rootKeyD k2 (minNode R))
                      (v := rootValD v (minNode R)) (c := false) (s := s2)
                      okL okD bLmm bD (fun h => absurd h Bool.false_ne_true)
                    refine ⟨hbal2.1, ?_, fun _ => rfl, ?_⟩
                    · rw [hmmm]
                      simpa using hbal2.2.1
                    · rw [pairs_balance]
                      simp only [pairs_node]
                      rw [pD]
                      conv_rhs => rw [← hp]
                      rw [eraseKey_append_eq
                        (fun p hp2 => ne_of_lt (hkl2 _ (List.mem_map_of_mem Prod.fst hp2)))
                        (fun p hp2 => ne_of_gt (hkr2 _ (List.mem_map_of_mem Prod.fst hp2)))]
                      conv_rhs => rw [minNode_pairs k2 v hRne]
                  · -- rotate shape: the new root is a key of the left subtree
                    subst hc2
                    have hk2lt : k2 < key := lt_of_lt_of_le (hkl _ hk2l) hkk
                    have hmemmv : key ∈ keysList (node k2 v2 L R true s2) := by
                      rw [keysList, hpfull]
                      exact hmem
                    have hmemR : key ∈ keysList R :=
                      mem_right_of_root_lt hordmv2 hmemmv hk2lt
                    obtain ⟨okD, bD, redD, pD⟩ := IH R m hRsz ordR
                      (Or.inr ⟨k3, v3, R1, R2, s3, hReq, okR1, okR2, hR1b, hR2r,
                        hk3 ▸ hkk⟩) bRm hmemR
                    have hDb : isRed (deleteItemNode key R) = false := by
                      cases hD : isRed (deleteItemNode key R) with
                      | false => rfl
                      | true =>
                          have := redD hD
                          rw [hReq] at this
                          exact absurd this (by simp)
                    have hres : deleteItemNode key (node key v l r true s)
                        = balance (node k2 v2 L (deleteItemNode key R) true s2) := by
                      simp only [deleteItemNode]
                      rw [if_neg (lt_irrefl _)]
                      rw [if_neg (show ¬(l.isRed = true) from
                        by simpa using hlb)]
                      rw [if_neg (show ¬((¬key < rootKeyD key (node key v l r true s) ∧
                          ¬rootKeyD key (node key v l r true s) < key) ∧
                          (node key v l r true s).right.isNil = true) from by
                        simp only [rootKeyD, right_node]
                        rintro ⟨_, hh⟩
                        rw [isNil_eq_false hrnil] at hh
                        exact absurd hh (by simp))]
                      rw [if_pos (show ((!(node key v l r true s).right.isRed &&
                          !(node key v l r true s).right.left.isRed) = true) from
                        by simpa using hC2)]
                      rw [hmv]
                      rw [if_neg (show ¬(¬key < rootKeyD key (node k2 v2 L R true s2) ∧
                          ¬rootKeyD key (node k2 v2 L R true s2) < key) from by
                        simp only [rootKeyD]
                        rintro ⟨_, hh⟩
                        exact hh hk2lt)]
                      simp [setRight, right]
                    rw [hres]
                    have hbal2 := balance_spec (k := k2) (v := v2) (c := true) (s := s2)
                      okL okD bLm bD (fun _ => ⟨hLr, hDb⟩)
                    refine ⟨hbal2.1, by simpa using hbal2.2.1, fun _ => rfl, ?_⟩
                    rw [pairs_balance]
                    simp only [pairs_node]
                    rw [pD]
                    conv_rhs => rw [← hp]
                    rw [eraseKey_append_left_ne
                      (fun p hp2 => ne_of_lt (lt_trans
                        (hkl2 _ (List.mem_map_of_mem Prod.fst hp2)) hk2lt))
                      (ne_of_lt hk2lt)]
                · -- no borrowing needed: delete the minimum of the right subtree
                  have hC2' : isRed r = true ∨ isRed r.left = true := by
                    cases hx : isRed r with
                    | true => exact Or.inl rfl
                    | false =>
                        cases hy : isRed r.left with
                        | true => exact Or.inr rfl
                        | false => simp [hx, hy] at hC2
                  obtain ⟨m1, bl1, br1, hm⟩ := balanced_node_iff.mp hbal
                  obtain ⟨okD, bD, redD, pD⟩ :=
                    deleteMinNode_spec r.realSize r m1 (le_refl _) hrnil okr hC2' br1
                  have hres : deleteItemNode key (node key v l r c s)
                      = balance (node (rootKeyD key (minNode r))
                          (rootValD v (minNode r)) l (deleteMinNode r) c s) := by
                    simp only [deleteItemNode]
                    rw [if_neg (lt_irrefl _)]
                    rw [if_neg (show ¬(l.isRed = true) from
                      by simpa using hlb)]
                    rw [if_neg (show ¬((¬key < rootKeyD key (node key v l r c s) ∧
                        ¬rootKeyD key (node key v l r c s) < key) ∧
                        (node key v l r c s).right.isNil = true) from by
                      simp only [rootKeyD, right_node]
                      rintro ⟨_, hh⟩
                      rw [isNil_eq_false hrnil] at hh
                      exact absurd hh (by simp))]
                    rw [if_neg (show ¬((!(node key v l r c s).right.isRed &&
                        !(node key v l r c s).right.left.isRed) = true) from
                      by simpa using hC2)]
                    rw [if_pos (show (¬key < rootKeyD key (node key v l r c s) ∧
                        ¬rootKeyD key (node key v l r c s) < key) from by
                      simp only [rootKeyD]
                      exact ⟨lt_irrefl _, lt_irrefl _⟩)]
                    simp [setKeyValRight, right]
                  rw [hres]
                  have hDb2 : c = true →
                      isRed l = false ∧ isRed (deleteMinNode r) = false := by
                    intro hc
                    refine ⟨hlb, ?_⟩
                    cases hD : isRed (deleteMinNode r) with
                    | false => rfl
                    | true => exact absurd (redD hD) (by simp [(hcr hc).2])
                  have hbal2 := balance_spec (k := rootKeyD key (minNode r))
                    (v := rootValD v (minNode r)) (c := c) (s := s)
                    okl okD bl1 bD hDb2
                  refine ⟨hbal2.1, ?_, ?_, ?_⟩
                  · rw [hm]
                    exact hbal2.2.1
                  · intro hres2
                    rcases hbal2.2.2 hres2 with h | h
                    · simp [h]
                    · rw [hlb] at h
                      exact absurd h.1 (by simp)
                  · rw [pairs_balance]
                    simp only [pairs_node]
                    rw [pD]
                    rw [eraseKey_append_eq
                      (fun p hp2 => ne_of_lt (hkl _ (List.mem_map_of_mem Prod.fst hp2)))
                      (fun p hp2 => ne_of_gt (hkr _ (List.mem_map_of_mem Prod.fst hp2)))]
                    conv_rhs => rw [minNode_pairs key v hrnil]

/-! ### Functional behavior of the query functions -/

theorem getNode_not_mem [LinearOrder K] (defV : V) (key : K) :
    ∀ {t : RBNode K V}, Ordered t → key ∉ keysList t → getNode defV t key = defV
  | nil, _, _ => rfl
  | node k v l r c s, hord, hmem => by
      obtain ⟨hkl, hkr, ordl, ordr⟩ := hord
      rcases lt_trichotomy key k with h | h | h
      · simp only [getNode]
        rw [if_pos h]
        exact getNode_not_mem defV key ordl (fun hc => hmem (by simp [hc]))
      · exact absurd (by simp [h]) hmem
      · simp only [getNode]
        rw [if_neg (asymm h), if_pos h]
        exact getNode_not_mem defV key ordr (fun hc => hmem (by simp [hc]))

theorem getNode_mem [LinearOrder K] (defV : V) (key : K) :
    ∀ {t : RBNode K V}, Ordered t → key ∈ keysList t →
      (key, getNode defV t key) ∈ t.pairs
  | nil, _, hmem => absurd hmem (by simp [keysList])
  | node k v l r c s, hord, hmem => by
      obtain ⟨hkl, hkr, ordl, ordr⟩ := hord
      simp only [pairs_node]
      rcases lt_trichotomy key k with h | h | h
      · have hl : key ∈ keysList l := mem_left_of_lt_root ⟨hkl, hkr, ordl, ordr⟩ hmem h
        simp only [getNode]
        rw [if_pos h]
        exact List.mem_append_left _ (getNode_mem defV key ordl hl)
      · subst h
        simp only [getNode]
        rw [if_neg (lt_irrefl _), if_neg (lt_irrefl _)]
        exact List.mem_append_right _ (by simp)
      · have hr : key ∈ keysList r := mem_right_of_root_lt ⟨hkl, hkr, ordl, ordr⟩ hmem h
        simp only [getNode]
        rw [if_neg (asymm h), if_pos h]
        exact List.mem_append_right _ (List.mem_cons_of_mem _ (getNode_mem defV key ordr hr))

/-- On an ordered tree, `get` returns the stored value exactly when the key is
present (assuming the stored values avoid the sentinel). -/
theorem getNode_eq_of_mem [LinearOrder K] (defV : V) {key : K} {v : V}
    {t : RBNode K V} (hord : Ordered t) (hmem : (key, v) ∈ t.pairs) :
    getNode defV t key = v := by
  have h1 := getNode_mem defV key hord
    (by rw [keysList]; exact List.mem_map_of_mem Prod.fst hmem)
  have hnd : (keysList t).Nodup := nodup_keysList hord
  rw [keysList] at hnd
  have := List.inj_on_of_nodup_map hnd hmem h1 (by rfl)
  exact (congrArg Prod.snd this).symm

theorem minKey_mem_le [LinearOrder K] (d : K) :
    ∀ {t : RBNode K V}, Ordered t → t ≠ nil →
      rootKeyD d (minNode t) ∈ keysList t ∧ ∀ a ∈ keysList t, rootKeyD d (minNode t) ≤ a
  | nil, _, h => absurd rfl h
  | node k v l r c s, hord, _ => by
      obtain ⟨hkl, hkr, ordl, ordr⟩ := hord
      cases l with
      | nil =>
          refine ⟨by simp [minNode, rootKeyD], ?_⟩
          intro a ha
          simp only [minNode, rootKeyD]
          rcases (by simpa using ha : a = k ∨ a ∈ keysList r) with h | h
          · exact le_of_eq h.symm
          · exact le_of_lt (hkr a h)
      | node lk lv ll lr lc ls =>
          obtain ⟨hmem, hle⟩ :=
            minKey_mem_le d (t := node lk lv ll lr lc ls) ordl (by simp)
          have hmeq : minNode (node k v (node lk lv ll lr lc ls) r c s)
              = minNode (node lk lv ll lr lc ls) := rfl
          rw [hmeq]
          refine ⟨by rw [keysList_node]; exact List.mem_append_left _ hmem, ?_⟩
          intro a ha
          rw [keysList_node] at ha
          rcases List.mem_append.mp ha with h | h
          · exact hle a h
          · rcases List.mem_cons.mp h with h | h
            · exact h ▸ le_of_lt (hkl _ hmem)
            · exact le_of_lt (lt_trans (hkl _ hmem) (hkr a h))

theorem maxKey_mem_ge [LinearOrder K] (d : K) :
    ∀ {t : RBNode K V}, Ordered t → t ≠ nil →
      rootKeyD d (maxNode t) ∈ keysList t ∧ ∀ a ∈ keysList t, a ≤ rootKeyD d (maxNode t)
  | nil, _, h => absurd rfl h
  | node k v l r c s, hord, _ => by
      obtain ⟨hkl, hkr, ordl, ordr⟩ := hord
      cases r with
      | nil =>
          refine ⟨by simp [maxNode, rootKeyD], ?_⟩
          intro a ha
          simp only [maxNode, rootKeyD]
          rcases (by simpa using ha : a ∈ keysList l ∨ a = k) with h | h
          · exact le_of_lt (hkl a h)
          · exact le_of_eq h
      | node rk rv rl rr rc rs =>
          obtain ⟨hmem, hge⟩ :=
            maxKey_mem_ge d (t := node rk rv rl rr rc rs) ordr (by simp)
          have hmeq : maxNode (node k v l (node rk rv rl rr rc rs) c s)
              = maxNode (node rk rv rl rr rc rs) := rfl
          rw [hmeq]
          have hmm : rootKeyD d (maxNode (node rk rv rl rr rc rs))
              ∈ keysList (node k v l (node rk rv rl rr rc rs) c s) := by
            rw [keysList_node]
            exact List.mem_append_right _ (List.mem_cons_of_mem _ hmem)
          refine ⟨hmm, ?_⟩
          intro a ha
          rw [keysList_node] at ha
          rcases List.mem_append.mp ha with h | h
          · exact le_of_lt (lt_trans (hkl a h) (hkr _ hmem))
          · rcases List.mem_cons.mp h with h | h
            · exact h ▸ le_of_lt (hkr _ hmem)
            · exact hge a h

theorem filter_lt_all [LinearOrder K] {key : K} {L : List K} (h : ∀ a ∈ L, a < key) :
    L.filter (fun a => decide (a < key)) = L :=
  List.filter_eq_self.mpr fun a ha => by simpa using h a ha

theorem filter_lt_none [LinearOrder K] {key : K} {L : List K} (h : ∀ a ∈ L, ¬ a < key) :
    L.filter (fun a => decide (a < key)) = [] :=
  List.filter_eq_nil_iff.mpr fun a ha => by simpa using h a ha

theorem keysList_length {t : RBNode K V} : (keysList t).length = t.realSize := by
  rw [keysList, List.length_map, ← realSize_eq_pairs_length]

/-- `rank` on a size-consistent ordered tree counts the stored keys strictly
smaller than the argument. -/
theorem rankNode_eq [LinearOrder K] (key : K) :
    ∀ {t : RBNode K V}, Ordered t → Sizes t →
      rankNode key t = (((keysList t).filter (fun a => decide (a < key))).length : Int)
  | nil, _, _ => by simp [rankNode, keysList, pairs]
  | node k v l r c s, hord, hsz => by
      obtain ⟨hkl, hkr, ordl, ordr⟩ := hord
      obtain ⟨hs, hl, hr⟩ := sizes_node_iff.mp hsz
      have hsl : (size l : Int) = ((keysList l).length : Int) := by
        rw [size_eq_realSize hl, keysList_length]
      rcases lt_trichotomy key k with h | h | h
      · simp only [rankNode]
        rw [if_neg (fun hc => hc.1 h), if_pos h, rankNode_eq key ordl hl]
        rw [keysList_node, List.filter_append,
          List.filter_cons_of_neg (by simpa using asymm h),
          filter_lt_none (fun a ha => asymm (lt_trans h (hkr a ha)))]
        simp
      · subst h
        simp only [rankNode]
        rw [if_pos ⟨lt_irrefl _, lt_irrefl _⟩]
        rw [keysList_node, List.filter_append,
          List.filter_cons_of_neg (by simp),
          filter_lt_none (fun a ha => asymm (hkr a ha)),
          filter_lt_all hkl]
        simpa using hsl
      · simp only [rankNode]
        rw [if_neg (fun hc => hc.2 h), if_neg (asymm h), rankNode_eq key ordr hr]
        rw [keysList_node, List.filter_append,
          List.filter_cons_of_pos (by simpa using h),
          filter_lt_all (fun a ha => lt_trans (hkl a ha) h)]
        simp only [List.length_append, List.length_cons]
        rw [hsl]
        push_cast
        ring

/-- `select` on a size-consistent ordered tree reads off the in-order key list
at the given index. -/
theorem selectNode_eq [LinearOrder K] (d : K) :
    ∀ {t : RBNode K V}, Ordered t → Sizes t → ∀ i : Nat, i < t.realSize →
      selectNode d t (i : Int) = (keysList t).getD i d
  | nil, _, _, i, hi => by simp [realSize] at hi
  | node k v l r c s, hord, hsz, i, hi => by
      obtain ⟨hkl, hkr, ordl, ordr⟩ := hord
      obtain ⟨hs, hl, hr⟩ := sizes_node_iff.mp hsz
      have hsl : size l = l.realSize := size_eq_realSize hl
      have hlen : (keysList l).length = l.realSize := keysList_length
      simp only [selectNode]
      rcases lt_trichotomy i l.realSize with h | h | h
      · rw [if_pos (by rw [hsl]; exact_mod_cast h)]
        rw [selectNode_eq d ordl hl i h, keysList_node,
          List.getD_append _ _ _ _ (by omega)]
      · rw [if_neg (by rw [hsl, h]; simp),
          if_neg (by rw [hsl, h]; simp)]
        rw [keysList_node, List.getD_append_right _ _ _ _ (by omega)]
        rw [hlen, h, Nat.sub_self]
        rfl
      · rw [if_neg (by rw [hsl]; intro hc; omega)]
        rw [if_pos (by rw [hsl]; exact_mod_cast h)]
        have harg : (i : Int) - (size l : Int) - 1 = ((i - l.realSize - 1 : Nat) : Int) := by
          rw [hsl]
          omega
        have hi2 : i - l.realSize - 1 < r.realSize := by
          simp only [realSize_node] at hi
          omega
        rw [harg, selectNode_eq d ordr hr _ hi2, keysList_node,
          List.getD_append_right _ _ _ _ (by omega)]
        rw [hlen]
        have hidx : i - l.realSize = (i - l.realSize - 1) + 1 := by omega
        rw [hidx]
        rfl

/-- Rank of the `i`-th element of a sorted list of distinct keys. -/
theorem sorted_filter_lt_getD [LinearOrder K] {L : List K}
    (hs : List.Sorted (· < ·) L) (d : K) :
    ∀ i : Nat, i < L.length →
      ((L.filter (fun a => decide (a < L.getD i d))).length : Int) = i := by
  induction L with
  | nil => intro i hi; simp at hi
  | cons x xs IH =>
      have hx : ∀ a ∈ xs, x < a := (List.sorted_cons.mp hs).1
      have hs2 : List.Sorted (· < ·) xs := (List.sorted_cons.mp hs).2
      intro i hi
      cases i with
      | zero =>
          show ((((x :: xs).filter (fun a => decide (a < x))).length : Int)) = 0
          rw [List.filter_cons_of_neg (by simp),
            filter_lt_none (fun a ha => asymm (hx a ha))]
          rfl
      | succ j =>
          have hj : j < xs.length := by simpa using hi
          have hmem : xs.getD j d ∈ xs := by
            rw [List.getD_eq_getElem xs d hj]
            exact List.getElem_mem hj
          show ((((x :: xs).filter
              (fun a => decide (a < xs.getD j d))).length : Int)) = (j + 1 : Nat)
          rw [List.filter_cons_of_pos (by simpa using hx _ hmem)]
          have := IH hs2 j hj
          simp only [List.length_cons]
          push_cast at this ⊢
          omega

/-- The element of a sorted list at the index given by its rank. -/
theorem sorted_getD_filter_lt [LinearOrder K] {L : List K}
    (hs : List.Sorted (· < ·) L) (d : K) {k : K} (hk : k ∈ L) :
    L.getD ((L.filter (fun a => decide (a < k))).length) d = k := by
  induction L with
  | nil => simp at hk
  | cons x xs IH =>
      have hx : ∀ a ∈ xs, x < a := (List.sorted_cons.mp hs).1
      have hs2 : List.Sorted (· < ·) xs := (List.sorted_cons.mp hs).2
      rcases List.mem_cons.mp hk with rfl | hk2
      · rw [List.filter_cons_of_neg (by simp),
          filter_lt_none (fun a ha => asymm (hx a ha))]
        rfl
      · rw [List.filter_cons_of_pos (by simpa using hx _ hk2)]
        simp only [List.length_cons]
        exact IH hs2 hk2

theorem filter_lt_length_lt [LinearOrder K] {L : List K} {k : K} (hk : k ∈ L) :
    ((L.filter (fun a => decide (a < k))).length) < L.length :=
  List.length_filter_lt_length_iff_exists.mpr ⟨k, hk, by simp⟩

theorem floorNode_nil_of_all_gt [LinearOrder K] (key : K) :
    ∀ {t : RBNode K V}, (∀ a ∈ keysList t, key < a) → floorNode key t = nil
  | nil, _ => rfl
  | node k v l r c s, h => by
      have hk : key < k := h k (by simp)
      simp only [floorNode]
      rw [if_neg (fun hc => hc.1 hk), if_pos hk]
      exact floorNode_nil_of_all_gt key (fun a ha => h a (by simp [ha]))

theorem floorNode_ne_nil [LinearOrder K] (key : K) :
    ∀ {t : RBNode K V}, Ordered t → ∀ a ∈ keysList t, a ≤ key →
      floorNode key t ≠ nil
  | nil, _, a, ha, _ => absurd ha (by simp [keysList])
  | node k v l r c s, hord, a, ha, hle => by
      obtain ⟨hkl, hkr, ordl, ordr⟩ := hord
      rcases lt_trichotomy key k with h | h | h
      · have hal : a ∈ keysList l := by
          rw [keysList_node] at ha
          rcases List.mem_append.mp ha with h2 | h2
          · exact h2
          · rcases List.mem_cons.mp h2 with h2 | h2
            · exact absurd (lt_of_le_of_lt (h2 ▸ hle) h) (lt_irrefl k)
            · exact absurd (lt_of_le_of_lt hle (lt_trans h (hkr a h2))) (lt_irrefl a)
        simp only [floorNode]
        rw [if_neg (fun hc => hc.1 h), if_pos h]
        exact floorNode_ne_nil key ordl a hal hle
      · simp only [floorNode]
        rw [if_pos ⟨by simp [h], by simp [h]⟩]
        simp
      · simp only [floorNode]
        rw [if_neg (fun hc => hc.2 h), if_neg (asymm h)]
        cases hfr : floorNode key r with
        | nil => simp
        | node fk fv fl fr2 fc fs => simp

/-- `floor` returns a node with the largest stored key at most the argument. -/
theorem floorNode_spec [LinearOrder K] (key d : K) :
    ∀ {t : RBNode K V}, Ordered t → floorNode key t ≠ nil →
      rootKeyD d (floorNode key t) ∈ keysList t ∧
      rootKeyD d (floorNode key t) ≤ key ∧
      ∀ a ∈ keysList t, a ≤ key → a ≤ rootKeyD d (floorNode key t)
  | nil, _, hne => absurd rfl hne
  | node k v l r c s, hord, hne => by
      obtain ⟨hkl, hkr, ordl, ordr⟩ := hord
      rcases lt_trichotomy key k with h | h | h
      · have hres : floorNode key (node k v l r c s) = floorNode key l := by
          simp only [floorNode]
          rw [if_neg (fun hc => hc.1 h), if_pos h]
        rw [hres] at hne ⊢
        obtain ⟨hmem, hle2, hmax⟩ := floorNode_spec key d ordl hne
        refine ⟨by rw [keysList_node]; exact List.mem_append_left _ hmem, hle2, ?_⟩
        intro a ha hale
        rw [keysList_node] at ha
        rcases List.mem_append.mp ha with h2 | h2
        · exact hmax a h2 hale
        · rcases List.mem_cons.mp h2 with h2 | h2
          · exact absurd (lt_of_le_of_lt (h2 ▸ hale) h) (lt_irrefl k)
          · exact absurd (lt_of_le_of_lt hale (lt_trans h (hkr a h2))) (lt_irrefl a)
      · have hres : floorNode key (node k v l r c s) = node k v l r c s := by
          simp only [floorNode]
          rw [if_pos ⟨by simp [h], by simp [h]⟩]
        rw [hres]
        simp only [rootKeyD]
        refine ⟨by simp, le_of_eq h.symm, ?_⟩
        intro a ha hale
        rw [keysList_node] at ha
        rcases List.mem_append.mp ha with h2 | h2
        · exact le_of_lt (hkl a h2)
        · rcases List.mem_cons.mp h2 with h2 | h2
          · exact le_of_eq h2
          · exact absurd (lt_of_lt_of_le (hkr a h2)
              (le_trans hale (le_of_eq h))) (lt_irrefl k)
      · cases hfr : floorNode key r with
        | nil =>
            have hres : floorNode key (node k v l r c s) = node k v l r c s := by
              simp only [floorNode]
              rw [if_neg (fun hc => hc.2 h), if_neg (asymm h), hfr]
            have hrgt : ∀ a ∈ keysList r, key < a := by
              intro a ha
              by_contra hc
              exact floorNode_ne_nil key ordr a ha (not_lt.mp hc) hfr
            rw [hres]
            simp only [rootKeyD]
            refine ⟨by simp, le_of_lt h, ?_⟩
            intro a ha hale
            rw [keysList_node] at ha
            rcases List.mem_append.mp ha with h2 | h2
            · exact le_of_lt (hkl a h2)
            · rcases List.mem_cons.mp h2 with h2 | h2
              · exact le_of_eq h2
              · exact absurd (lt_of_le_of_lt hale (hrgt a h2)) (lt_irrefl a)
        | node fk fv fl fr2 fc fs =>
            have hres : floorNode key (node k v l r c s) = node fk fv fl fr2 fc fs := by
              simp only [floorNode]
              rw [if_neg (fun hc => hc.2 h), if_neg (asymm h), hfr]
            rw [hres]
            have hne2 : floorNode key r ≠ nil := by rw [hfr]; simp
            obtain ⟨hmem, hle2, hmax⟩ := floorNode_spec key d ordr hne2
            rw [hfr] at hmem hle2 hmax
            simp only [rootKeyD] at hmem hle2 hmax ⊢
            have hmm : fk ∈ keysList (node k v l r c s) := by
              rw [keysList_node]
              exact List.mem_append_right _ (List.mem_cons_of_mem _ hmem)
            refine ⟨hmm, hle2, ?_⟩
            intro a ha hale
            rw [keysList_node] at ha
            rcases List.mem_append.mp ha with h2 | h2
            · exact le_of_lt (lt_trans (hkl a h2) (hkr _ hmem))
            · rcases List.mem_cons.mp h2 with h2 | h2
              · exact h2 ▸ le_of_lt (hkr _ hmem)
              · exact hmax a h2 hale

theorem ceilingNode_nil_of_all_lt [LinearOrder K] (key : K) :
    ∀ {t : RBNode K V}, (∀ a ∈ keysList t, a < key) → ceilingNode key t = nil
  | nil, _ => rfl
  | node k v l r c s, h => by
      have hk : k < key := h k (by simp)
      simp only [ceilingNode]
      rw [if_neg (fun hc => hc.2 hk), if_pos (asymm hk)]
      exact ceilingNode_nil_of_all_lt key (fun a ha => h a (by simp [ha]))

theorem ceilingNode_ne_nil [LinearOrder K] (key : K) :
    ∀ {t : RBNode K V}, Ordered t → ∀ a ∈ keysList t, key ≤ a →
      ceilingNode key t ≠ nil
  | nil, _, a, ha, _ => absurd ha (by simp [keysList])
  | node k v l r c s, hord, a, ha, hle => by
      obtain ⟨hkl, hkr, ordl, ordr⟩ := hord
      rcases lt_trichotomy key k with h | h | h
      · simp only [ceilingNode]
        rw [if_neg (fun hc => hc.1 h), if_neg (not_not_intro h)]
        cases hfl : ceilingNode key l with
        | nil => simp
        | node fk fv fl2 fr2 fc fs => simp
      · simp only [ceilingNode]
        rw [if_pos ⟨by simp [h], by simp [h]⟩]
        simp
      · have har : a ∈ keysList r := by
          rw [keysList_node] at ha
          rcases List.mem_append.mp ha with h2 | h2
          · exact absurd (lt_of_le_of_lt hle (lt_trans (hkl a h2) h)) (lt_irrefl key)
          · rcases List.mem_cons.mp h2 with h2 | h2
            · exact absurd (lt_of_le_of_lt hle (by rw [h2]; exact h)) (lt_irrefl key)
            · exact h2
        simp only [ceilingNode]
        rw [if_neg (fun hc => hc.2 h), if_pos (asymm h)]
        exact ceilingNode_ne_nil key ordr a har hle

/-- `ceiling` returns a node with the smallest stored key at least the argument. -/
theorem ceilingNode_spec [LinearOrder K] (key d : K) :
    ∀ {t : RBNode K V}, Ordered t → ceilingNode key t ≠ nil →
      rootKeyD d (ceilingNode key t) ∈ keysList t ∧
      key ≤ rootKeyD d (ceilingNode key t) ∧
      ∀ a ∈ keysList t, key ≤ a → rootKeyD d (ceilingNode key t) ≤ a
  | nil, _, hne => absurd rfl hne
  | node k v l r c s, hord, hne => by
      obtain ⟨hkl, hkr, ordl, ordr⟩ := hord
      rcases lt_trichotomy key k with h | h | h
      · cases hfl : ceilingNode key l with
        | nil =>
            have hres : ceilingNode key (node k v l r c s) = node k v l r c s := by
              simp only [ceilingNode]
              rw [if_neg (fun hc => hc.1 h), if_neg (not_not_intro h), hfl]
            have hllt : ∀ a ∈ keysList l, a < key := by
              intro a ha
              by_contra hc
              exact ceilingNode_ne_nil key ordl a ha (not_lt.mp hc) hfl
            rw [hres]
            simp only [rootKeyD]
            refine ⟨by simp, le_of_lt h, ?_⟩
            intro a ha hale
            rw [keysList_node] at ha
            rcases List.mem_append.mp ha with h2 | h2
            · exact absurd (lt_of_le_of_lt hale (hllt a h2)) (lt_irrefl key)
            · rcases List.mem_cons.mp h2 with h2 | h2
              · exact le_of_eq h2.symm
              · exact le_of_lt (hkr a h2)
        | node fk fv fl2 fr2 fc fs =>
            have hres : ceilingNode key (node k v l r c s)
                = node fk fv fl2 fr2 fc fs := by
              simp only [ceilingNode]
              rw [if_neg (fun hc => hc.1 h), if_neg (not_not_intro h), hfl]
            rw [hres]
            have hne2 : ceilingNode key l ≠ nil := by rw [hfl]; simp
            obtain ⟨hmem, hle2, hmin⟩ := ceilingNode_spec key d ordl hne2
            rw [hfl] at hmem hle2 hmin
            simp only [rootKeyD] at hmem hle2 hmin ⊢
            have hmm : fk ∈ keysList (node k v l r c s) := by
              rw [keysList_node]
              exact List.mem_append_left _ hmem
            refine ⟨hmm, hle2, ?_⟩
            intro a ha hale
            rw [keysList_node] at ha
            rcases List.mem_append.mp ha with h2 | h2
            · exact hmin a h2 hale
            · rcases List.mem_cons.mp h2 with h2 | h2
              · exact h2 ▸ le_of_lt (hkl _ hmem)
              · exact le_of_lt (lt_trans (hkl _ hmem) (hkr a h2))
      · have hres : ceilingNode key (node k v l r c s) = node k v l r c s := by
          simp only [ceilingNode]
          rw [if_pos ⟨by simp [h], by simp [h]⟩]
        rw [hres]
        simp only [rootKeyD]
        refine ⟨by simp, le_of_eq h, ?_⟩
        intro a ha hale
        rw [keysList_node] at ha
        rcases List.mem_append.mp ha with h2 | h2
        · exact absurd (lt_of_le_of_lt hale (by rw [h]; exact hkl a h2)) (lt_irrefl key)
        · rcases List.mem_cons.mp h2 with h2 | h2
          · exact le_of_eq h2.symm
          · exact le_of_lt (hkr a h2)
      · have hres : ceilingNode key (node k v l r c s) = ceilingNode key r := by
          simp only [ceilingNode]
          rw [if_neg (fun hc => hc.2 h), if_pos (asymm h)]
        rw [hres] at hne ⊢
        obtain ⟨hmem, hle2, hmin⟩ := ceilingNode_spec key d ordr hne
        refine ⟨by rw [keysList_node]
                   exact List.mem_append_right _ (List.mem_cons_of_mem _ hmem),
          hle2, ?_⟩
        intro a ha hale
        rw [keysList_node] at ha
        rcases List.mem_append.mp ha with h2 | h2
        · exact absurd (lt_of_le_of_lt hale (lt_trans (hkl a h2) h)) (lt_irrefl key)
        · rcases List.mem_cons.mp h2 with h2 | h2
          · exact absurd (lt_of_le_of_lt hale (by rw [h2]; exact h)) (lt_irrefl key)
          · exact hmin a h2 hale

/-- The range collection visits, in order, exactly the stored keys inside the
closed interval. -/
theorem keysAux_eq [LinearOrder K] (lo hi : K) :
    ∀ {t : RBNode K V}, Ordered t →
      keysAux lo hi t
        = (keysList t).filter (fun a => decide (¬ a < lo ∧ ¬ hi < a))
  | nil, _ => rfl
  | node k v l r c s, hord => by
      obtain ⟨hkl, hkr, ordl, ordr⟩ := hord
      simp only [keysAux, keysList_node, List.filter_append, List.filter_cons]
      have hA : (if lo < k then keysAux lo hi l else [])
          = (keysList l).filter (fun a => decide (¬ a < lo ∧ ¬ hi < a)) := by
        by_cases hlo : lo < k
        · rw [if_pos hlo, keysAux_eq lo hi ordl]
        · rw [if_neg hlo]
          symm
          apply List.filter_eq_nil_iff.mpr
          intro a ha
          have : a < lo := lt_of_lt_of_le (hkl a ha) (not_lt.mp hlo)
          simp [this]
      have hC : (if k < hi then keysAux lo hi r else [])
          = (keysList r).filter (fun a => decide (¬ a < lo ∧ ¬ hi < a)) := by
        by_cases hhi : k < hi
        · rw [if_pos hhi, keysAux_eq lo hi ordr]
        · rw [if_neg hhi]
          symm
          apply List.filter_eq_nil_iff.mpr
          intro a ha
          have : hi < a := lt_of_le_of_lt (not_lt.mp hhi) (hkr a ha)
          simp [this]
      have hB : (if (lo < k ∨ ¬ k < lo) ∧ ¬ hi < k then [k] else [])
            ++ (keysList r).filter (fun a => decide (¬ a < lo ∧ ¬ hi < a))
          = if (decide (¬ k < lo ∧ ¬ hi < k)) = true
              then k :: (keysList r).filter (fun a => decide (¬ a < lo ∧ ¬ hi < a))
              else (keysList r).filter (fun a => decide (¬ a < lo ∧ ¬ hi < a)) := by
        by_cases hmid : ¬ k < lo ∧ ¬ hi < k
        · rw [if_pos ⟨Or.inr hmid.1, hmid.2⟩, if_pos (by simpa using hmid)]
          rfl
        · rw [if_neg (fun hc => hmid ⟨hc.1.elim (fun hh => asymm hh) id, hc.2⟩),
            if_neg (by simpa using hmid)]
          rfl
      rw [hA, hC, List.append_assoc, hB]

/-- Membership in the list-level insertion. -/
theorem mem_insertKV [LinearOrder K] {key : K} {val : V} {p : K × V} :
    ∀ {L : List (K × V)}, p ∈ insertKV key val L → p = (key, val) ∨ p ∈ L
  | [], h => by
      simp [insertKV] at h
      exact Or.inl h
  | (a, b) :: L, h => by
      by_cases h1 : key < a
      · simp only [insertKV, if_pos h1] at h
        rcases List.mem_cons.mp h with h2 | h2
        · exact Or.inl h2
        · exact Or.inr h2
      · by_cases h2 : a < key
        · simp only [insertKV, if_neg h1, if_pos h2] at h
          rcases List.mem_cons.mp h with h3 | h3
          · exact Or.inr (by simp [h3])
          · rcases mem_insertKV h3 with h4 | h4
            · exact Or.inl h4
            · exact Or.inr (List.mem_cons_of_mem _ h4)
        · simp only [insertKV, if_neg h1, if_neg h2] at h
          rcases List.mem_cons.mp h with h3 | h3
          · exact Or.inl h3
          · exact Or.inr (List.mem_cons_of_mem _ h3)

/-- Sorted association-list insertion keeps the key list sorted. -/
theorem sorted_insertKV [LinearOrder K] (key : K) (val : V) :
    ∀ {L : List (K × V)}, List.Sorted (· < ·) (L.map Prod.fst) →
      List.Sorted (· < ·) ((insertKV key val L).map Prod.fst)
  | [], _ => by simp [insertKV]
  | (a, b) :: L, hs => by
      have hs2 : List.Sorted (· < ·) (a :: L.map Prod.fst) := by simpa using hs
      have hs' := List.sorted_cons.mp hs2
      by_cases h1 : key < a
      · simp only [insertKV, if_pos h1, List.map_cons]
        refine List.sorted_cons.mpr ⟨?_, hs2⟩
        intro x hx
        rcases (by simpa using hx : x = a ∨ x ∈ L.map Prod.fst) with h | h
        · exact h ▸ h1
        · exact lt_trans h1 (hs'.1 x h)
      · by_cases h2 : a < key
        · simp only [insertKV, if_neg h1, if_pos h2, List.map_cons]
          refine List.sorted_cons.mpr ⟨?_, sorted_insertKV key val hs'.2⟩
          intro x hx
          rcases mem_keys_insertKV.mp hx with h | h
          · exact h ▸ h2
          · exact hs'.1 x h
        · simp only [insertKV, if_neg h1, if_neg h2, List.map_cons]
          have hak : a = key := le_antisymm (not_lt.mp h1) (not_lt.mp h2)
          refine List.sorted_cons.mpr ⟨?_, hs'.2⟩
          intro x hx
          exact hak ▸ hs'.1 x hx

/-- `put` keeps the symmetric order. -/
theorem ordered_putNode [LinearOrder K] (key : K) (val : V) {t : RBNode K V}
    (hord : Ordered t) : Ordered (putNode key val t) := by
  rw [ordered_iff_sorted, keysList, pairs_putNode key val t hord]
  exact sorted_insertKV key val ((ordered_iff_sorted t).mp hord)

end RBNode

/-- C++ exceptions thrown by the public interface: `std::invalid_argument` and
`std::out_of_range`, with the message of the corresponding `throw` site.  What
the spec calls `Underflow` is `std::invalid_argument("BST underflow")` in the
source. -/
inductive Err where
  | invalidArgument (msg : String) : Err
  | outOfRange (msg : String) : Err
deriving DecidableEq

namespace RBNode

variable {K V : Type}

/-- Source `_root->_color = BLACK` / `_root->_color = RED` on a possibly-null
root pointer (guarded at every call site). -/
def setRootColor (c : Bool) : RBNode K V → RBNode K V
  | nil => nil
  | node k v l r _ s => node k v l r c s

/-- Public `size()`: the stored size of the root. -/
def sizeP (t : RBNode K V) : Nat := t.size

/-- Public `isEmpty()`: `root_ == nullptr`. -/
def isEmptyP (t : RBNode K V) : Bool := t.isNil

/-- Public `get(Key key)`. -/
def getP [LinearOrder K] (defK : K) (defV : V) (t : RBNode K V) (key : K) : Except Err V :=
  if key = defK then .error (.invalidArgument "argument to get() is null")
  else .ok (getNode defV t key)

/-- Public `contains(Key key)`: `get(key) != defaultValue<Key>()` in the source.
This only compiles when `Key` and `Value` are the same type, in which case
`defaultValue<Key>() = defaultValue<Value>()`; the comparison is modelled
against `defV`. -/
def containsP [LinearOrder K] [DecidableEq V] (defK : K) (defV : V) (t : RBNode K V)
    (key : K) : Except Err Bool :=
  (getP defK defV t key).map fun v => decide (v ≠ defV)

/-- Public `put(Key key, Value val)`: throws on a sentinel key, silently returns
when `val` is the sentinel value, and otherwise inserts and forces the root
black. -/
def putP [LinearOrder K] [DecidableEq V] (defK : K) (defV : V) (t : RBNode K V)
    (key : K) (val : V) : Except Err (RBNode K V) :=
  if key = defK then .error (.invalidArgument "first argument to put() is null")
  else if val = defV then .ok t
  else .ok (setRootColor BLACK (putNode key val t))

/-- Public `deleteMin()`. -/
def deleteMinP (t : RBNode K V) : Except Err (RBNode K V) :=
  if t.isNil then .error (.invalidArgument "BST underflow")
  else
    let t1 := if !isRed t.left && !isRed t.right then setRootColor RED t else t
    let t2 := deleteMinNode t1
    .ok (if t2.isNil then t2 else setRootColor BLACK t2)

/-- Public `deleteMax()`. -/
def deleteMaxP (t : RBNode K V) : Except Err (RBNode K V) :=
  if t.isNil then .error (.invalidArgument "BST underflow")
  else
    let t1 := if !isRed t.left && !isRed t.right then setRootColor RED t else t
    let t2 := deleteMaxNode t1
    .ok (if t2.isNil then t2 else setRootColor BLACK t2)

/-- Public `deleteItem(Key key)`: throws on the sentinel key, is a no-op when
`contains(key)` is false, and otherwise deletes and forces the root black. -/
def deleteItemP [LinearOrder K] [DecidableEq V] (defK : K) (defV : V) (t : RBNode K V)
    (key : K) : Except Err (RBNode K V) :=
  if key = defK then .error (.invalidArgument "argument to deleteItem() is null")
  else if getNode defV t key = defV then .ok t
  else
    let t1 := if !isRed t.left && !isRed t.right then setRootColor RED t else t
    let t2 := deleteItemNode key t1
    .ok (if t2.isNil then t2 else setRootColor BLACK t2)

/-- Public `min()`. -/
def minP (defK : K) (t : RBNode K V) : Except Err K :=
  if t.isNil then .error (.invalidArgument "calls min() with empty symbol table")
  else .ok (rootKeyD defK (minNode t))

/-- Public `max()`. -/
def maxP (defK : K) (t : RBNode K V) : Except Err K :=
  if t.isNil then .error (.invalidArgument "calls max() with empty symbol table")
  else .ok (rootKeyD defK (maxNode t))

/-- Public `floor(Key key)`. -/
def floorP [LinearOrder K] (defK : K) (t : RBNode K V) (key : K) : Except Err K :=
  if key = defK then .error (.invalidArgument "argument to floor() is null")
  else if t.isNil then .error (.outOfRange "calls floor() with empty symbol table")
  else match floorNode key t with
    | nil => .error (.invalidArgument "argument to floor() is too small")
    | node k _ _ _ _ _ => .ok k

/-- Public `ceiling(Key key)`. -/
def ceilingP [LinearOrder K] (defK : K) (t : RBNode K V) (key : K) : Except Err K :=
  if key = defK then .error (.invalidArgument "argument to ceiling() is null")
  else if t.isNil then .error (.outOfRange "calls ceiling() with empty symbol table")
  else match ceilingNode key t with
    | nil => .error (.invalidArgument "argument to ceiling() is too small")
    | node k _ _ _ _ _ => .ok k

/-- Public `select(int rank)`. -/
def selectP [LinearOrder K] (defK : K) (t : RBNode K V) (rank : Int) : Except Err K :=
  if rank < 0 ∨ rank ≥ (sizeP t : Int) then
    .error (.invalidArgument ("argument to select() is invalid: " ++ toString rank))
  else .ok (selectNode defK t rank)

/-- Public `rank(Key key)`. -/
def rankP [LinearOrder K] (defK : K) (t : RBNode K V) (key : K) : Except Err Int :=
  if key = defK then .error (.invalidArgument "argument to rank() is null")
  else .ok (rankNode key t)

/-- Public `keys(Key lo, Key hi)`. -/
def keysRangeP [LinearOrder K] (defK : K) (t : RBNode K V) (lo hi : K) : Except Err (List K) :=
  if lo = defK then .error (.invalidArgument "first argument to keys() is null")
  else if hi = defK then .error (.invalidArgument "second argument to keys() is null")
  else .ok (keysAux lo hi t)

/-- Public `keys()`: empty sequence on the empty table, else the range query
between `min()` and `max()`. -/
def keysP [LinearOrder K] (defK : K) (t : RBNode K V) : Except Err (List K) :=
  if t.isNil then .ok []
  else keysRangeP defK t (rootKeyD defK (minNode t)) (rootKeyD defK (maxNode t))


/-- `keys()` on an ordered sentinel-free table lists all stored keys in order. -/
theorem keysP_eq [LinearOrder K] (defK : K) {t : RBNode K V} (hord : Ordered t)
    (hfree : ∀ a ∈ keysList t, a ≠ defK) :
    keysP defK t = .ok (keysList t) := by
  cases t with
  | nil => rfl
  | node k v l r c s =>
      have hne : (node k v l r c s) ≠ nil := by simp
      obtain ⟨hminm, hminle⟩ := minKey_mem_le (V := V) defK hord hne
      obtain ⟨hmaxm, hmaxge⟩ := maxKey_mem_ge (V := V) defK hord hne
      have hmn := hfree _ hminm
      have hmx := hfree _ hmaxm
      rw [keysP, if_neg (by simp), keysRangeP, if_neg hmn, if_neg hmx,
        keysAux_eq _ _ hord]
      congr 1
      apply List.filter_eq_self.mpr
      intro a ha
      simpa using ⟨hminle a ha, hmaxge a ha⟩

theorem pairs_setRootColor (c : Bool) :
    ∀ t : RBNode K V, (setRootColor c t).pairs = t.pairs
  | nil => rfl
  | node _ _ _ _ _ _ => rfl

theorem sizes_setRootColor (c : Bool) :
    ∀ {t : RBNode K V}, Sizes t → Sizes (setRootColor c t)
  | nil, _ => trivial
  | node _ _ _ _ _ _, h => h

theorem ok23_setRootColor_black :
    ∀ {t : RBNode K V}, Ok23 t → Ok23 (setRootColor false t)
  | nil, _ => trivial
  | node _ _ _ _ _ _, h => ⟨h.1, h.2.1, h.2.2.1, fun hc => absurd hc (by simp)⟩

theorem balanced_setRootColor_black :
    ∀ {t : RBNode K V} {n : Nat}, Balanced t n →
      ∃ n', Balanced (setRootColor false t) n'
  | nil, n, h => ⟨n, h⟩
  | node k v l r c s, n, h => by
      obtain ⟨m, hl, hr, hn⟩ := balanced_node_iff.mp h
      exact ⟨m + 1, balanced_node_iff.mpr ⟨m, hl, hr, by simp⟩⟩

theorem isRed_setRootColor_black :
    ∀ t : RBNode K V, isRed (setRootColor false t) = false
  | nil => rfl
  | node _ _ _ _ _ _ => rfl

@[simp] theorem setRootColor_eq_nil_iff {c : Bool} {t : RBNode K V} :
    setRootColor c t = nil ↔ t = nil := by
  cases t <;> simp [setRootColor]

end RBNode

/-- Mutating calls of the public interface, for reasoning about call sequences. -/
inductive Op (K V : Type) where
  | put (key : K) (val : V) : Op K V
  | deleteMin : Op K V
  | deleteMax : Op K V
  | deleteItem (key : K) : Op K V

namespace RBNode

variable {K V : Type}

/-- Apply one mutating call to the tree.  A call that throws leaves the tree
unchanged (every check in the source happens before any mutation). -/
def runOp [LinearOrder K] [DecidableEq V] (defK : K) (defV : V) (t : RBNode K V) :
    Op K V → RBNode K V
  | .put k v => match putP defK defV t k v with
      | .ok u => u
      | .error _ => t
  | .deleteMin => match deleteMinP t with
      | .ok u => u
      | .error _ => t
  | .deleteMax => match deleteMaxP t with
      | .ok u => u
      | .error _ => t
  | .deleteItem k => match deleteItemP defK defV t k with
      | .ok u => u
      | .error _ => t

/-- Run a sequence of mutating calls starting from the empty table. -/
def runOps [LinearOrder K] [DecidableEq V] (defK : K) (defV : V) (ops : List (Op K V)) :
    RBNode K V :=
  ops.foldl (runOp defK defV) nil

@[simp] theorem isNil_true_iff {t : RBNode K V} : t.isNil = true ↔ t = nil := by
  cases t <;> simp [isNil]

/-- The structural invariant maintained by the public interface: symmetric
order, size consistency, the left-leaning 2-3 property, perfect black balance,
a black root, and no stored sentinel key or value. -/
def Inv [LinearOrder K] (defK : K) (defV : V) (t : RBNode K V) : Prop :=
  Ordered t ∧ Sizes t ∧ Ok23 t ∧ (∃ n, Balanced t n) ∧ isRed t = false ∧
  ∀ p ∈ t.pairs, p.1 ≠ defK ∧ p.2 ≠ defV

theorem inv_nil [LinearOrder K] (defK : K) (defV : V) :
    Inv defK defV (nil : RBNode K V) :=
  ⟨trivial, trivial, trivial, ⟨0, rfl⟩, rfl, by simp [pairs]⟩

/-- `put` preserves the invariant. -/
theorem inv_putP [LinearOrder K] [DecidableEq V] (defK : K) (defV : V)
    {t u : RBNode K V} {key : K} {val : V} (hinv : Inv defK defV t)
    (h : putP defK defV t key val = .ok u) : Inv defK defV u := by
  rw [putP] at h
  split_ifs at h with hk hv
  · injection h with h
    subst h
    exact hinv
  · injection h with h
    subst h
    obtain ⟨hord, hsz, hok, ⟨n, hbal⟩, hblack, hfree⟩ := hinv
    obtain ⟨hokd, hbal2, hok2, hne⟩ := putNode_spec key val t n hok hbal
    have hok3 : Ok23 (putNode key val t) := hok2 hblack
    refine ⟨?_, ?_, ?_, ?_, ?_, ?_⟩
    · exact (ordered_congr (pairs_setRootColor BLACK _)).mp
        (ordered_putNode key val hord)
    · exact sizes_setRootColor _ (sizes_putNode key val hsz)
    · exact ok23_setRootColor_black hok3
    · exact balanced_setRootColor_black hbal2
    · exact isRed_setRootColor_black _
    · intro p hp
      rw [pairs_setRootColor, pairs_putNode key val t hord] at hp
      rcases mem_insertKV hp with h2 | h2
      · rw [h2]
        exact ⟨hk, hv⟩
      · exact hfree p h2

/-- Shared final step of the three deletions: the recursive result satisfies
`Ok23`, is balanced, and its pairs form a sublist of the original pairs; after
forcing the root black the invariant holds again. -/
theorem inv_delete_finish [LinearOrder K] (defK : K) (defV : V)
    {t t2 : RBNode K V} {m : Nat} (hord0 : Ordered t)
    (hfree0 : ∀ p ∈ t.pairs, p.1 ≠ defK ∧ p.2 ≠ defV)
    (hsub : t2.pairs.Sublist t.pairs) (hsz2 : Sizes t2) (hok2 : Ok23 t2)
    (hbal2 : Balanced t2 m) :
    Inv defK defV (if t2.isNil then t2 else setRootColor BLACK t2) := by
  by_cases hnil : t2.isNil = true
  · rw [if_pos hnil]
    rw [isNil_true_iff.mp hnil]
    exact inv_nil defK defV
  · rw [if_neg hnil]
    have hord2 : Ordered t2 := ordered_of_pairs_sublist hsub hord0
    refine ⟨?_, ?_, ?_, ?_, ?_, ?_⟩
    · exact (ordered_congr (pairs_setRootColor BLACK _)).mp hord2
    · exact sizes_setRootColor _ hsz2
    · exact ok23_setRootColor_black hok2
    · exact balanced_setRootColor_black hbal2
    · exact isRed_setRootColor_black _
    · intro p hp
      rw [pairs_setRootColor] at hp
      exact hfree0 p (hsub.mem hp)

/-- Facts about the root-reddening step shared by the three deletions. -/
theorem red_root_step [LinearOrder K] (defK : K) (defV : V) {t : RBNode K V}
    (hinv : Inv defK defV t) (hne : t ≠ nil) :
    Ok23 (if !isRed t.left && !isRed t.right then setRootColor RED t else t) ∧
    (isRed (if !isRed t.left && !isRed t.right then setRootColor RED t else t) = true ∨
      isRed (if !isRed t.left && !isRed t.right then setRootColor RED t else t).left
        = true) ∧
    Sizes (if !isRed t.left && !isRed t.right then setRootColor RED t else t) ∧
    (∃ m, Balanced (if !isRed t.left && !isRed t.right then setRootColor RED t else t) m) ∧
    (if !isRed t.left && !isRed t.right then setRootColor RED t else t) ≠ nil ∧
    (if !isRed t.left && !isRed t.right then setRootColor RED t else t).pairs
      = t.pairs := by
  obtain ⟨hord, hsz, hok, ⟨n, hbal⟩, hblack, hfree⟩ := hinv
  cases t with
  | nil => exact absurd rfl hne
  | node k v l r c s =>
      have hcf : c = false := by simpa [isRed] using hblack
      subst hcf
      obtain ⟨okl, okr, hrb, hcl⟩ := hok
      obtain ⟨m, hbl, hbr, hn⟩ := balanced_node_iff.mp hbal
      by_cases hc : (!isRed (node k v l r false s).left &&
          !isRed (node k v l r false s).right) = true
      · rw [if_pos hc]
        have hlb : isRed l = false := by
          have := (Bool.and_eq_true _ _).mp hc
          simpa using this.1
        exact ⟨⟨okl, okr, hrb, fun _ => hlb⟩, Or.inl (by simp [setRootColor, isRed, RED]),
          hsz, ⟨m, balanced_node_iff.mpr ⟨m, hbl, hbr, by simp [RED]⟩⟩,
          by simp [setRootColor], pairs_setRootColor RED _⟩
      · rw [if_neg hc]
        have hc2 : (!isRed l && !isRed r) = false := by simpa using hc
        have hlr : isRed l = true := by
          rcases Bool.and_eq_false_iff.mp hc2 with h2 | h2
          · simpa using h2
          · exact absurd (by simpa using h2) (by simp [hrb])
        exact ⟨⟨okl, okr, hrb, hcl⟩, Or.inr (by simpa using hlr), hsz, ⟨n, hbal⟩,
          by simp, rfl⟩

/-- `deleteMin` preserves the invariant. -/
theorem inv_deleteMinP [LinearOrder K] (defK : K) (defV : V) {t u : RBNode K V}
    (hinv : Inv defK defV t) (h : deleteMinP t = .ok u) : Inv defK defV u := by
  rw [deleteMinP] at h
  by_cases hnil : t.isNil = true
  · rw [if_pos hnil] at h
    exact absurd h (by simp)
  · rw [if_neg hnil] at h
    injection h with h
    subst h
    have htne : t ≠ nil := fun hc => hnil (by simp [hc])
    obtain ⟨hok1, hred1, hsz1, ⟨m, hbal1⟩, hne1, hp1⟩ :=
      red_root_step defK defV hinv htne
    obtain ⟨hord, hsz, hok, _, hblack, hfree⟩ := hinv
    obtain ⟨hok2, hbal2, _, hp2⟩ :=
      deleteMinNode_spec _ _ m (le_refl _) hne1 hok1 hred1 hbal1
    have hsz2 := sizes_deleteMinNode _ _ (le_refl _) hsz1
    refine inv_delete_finish defK defV hord hfree ?_ hsz2 hok2 hbal2
    rw [hp2, hp1]
    exact List.tail_sublist _

/-- `deleteMax` preserves the invariant. -/
theorem inv_deleteMaxP [LinearOrder K] (defK : K) (defV : V) {t u : RBNode K V}
    (hinv : Inv defK defV t) (h : deleteMaxP t = .ok u) : Inv defK defV u := by
  rw [deleteMaxP] at h
  by_cases hnil : t.isNil = true
  · rw [if_pos hnil] at h
    exact absurd h (by simp)
  · rw [if_neg hnil] at h
    injection h with h
    subst h
    have htne : t ≠ nil := fun hc => hnil (by simp [hc])
    obtain ⟨hok1, hred1, hsz1, ⟨m, hbal1⟩, hne1, hp1⟩ :=
      red_root_step defK defV hinv htne
    obtain ⟨hord, hsz, hok, _, hblack, hfree⟩ := hinv
    obtain ⟨hok2, hbal2, _, hp2⟩ :=
      deleteMaxNode_spec _ _ m (le_refl _) hne1 (Or.inl ⟨hok1, hred1⟩) hbal1
    have hsz2 := sizes_deleteMaxNode _ _ (le_refl _) hsz1
    refine inv_delete_finish defK defV hord hfree ?_ hsz2 hok2 hbal2
    rw [hp2, hp1]
    exact List.dropLast_sublist _

/-- `deleteItem` preserves the invariant. -/
theorem inv_deleteItemP [LinearOrder K] [DecidableEq V] (defK : K) (defV : V)
    {t u : RBNode K V} {key : K} (hinv : Inv defK defV t)
    (h : deleteItemP defK defV t key = .ok u) : Inv defK defV u := by
  rw [deleteItemP] at h
  by_cases hk : key = defK
  · rw [if_pos hk] at h
    exact absurd h (by simp)
  · rw [if_neg hk] at h
    by_cases hget : getNode defV t key = defV
    · rw [if_pos hget] at h
      injection h with h
      subst h
      exact hinv
    · rw [if_neg hget] at h
      injection h with h
      subst h
      have hord := hinv.1
      have hfree := hinv.2.2.2.2.2
      have hmem : key ∈ keysList t := by
        by_contra hc
        exact hget (getNode_not_mem defV key hord hc)
      have htne : t ≠ nil := keysList_ne_nil_of_mem hmem
      obtain ⟨hok1, hred1, hsz1, ⟨m, hbal1⟩, hne1, hp1⟩ :=
        red_root_step defK defV hinv htne
      have hord1 : Ordered (if !isRed t.left && !isRed t.right
          then setRootColor RED t else t) := (ordered_congr hp1).mp hord
      have hmem1 : key ∈ keysList (if !isRed t.left && !isRed t.right
          then setRootColor RED t else t) := by
        rw [keysList, hp1]
        exact hmem
      obtain ⟨hok2, hbal2, _, hp2⟩ :=
        deleteItemNode_spec key _ _ m (le_refl _) hord1
          (Or.inl ⟨hok1, by
            rcases hred1 with h2 | h2
            · exact Or.inl h2
            · exact Or.inr h2⟩) hbal1 hmem1
      have hsz2 := sizes_deleteItemNode key _ _ (le_refl _) hsz1
      refine inv_delete_finish defK defV hord hfree ?_ hsz2 hok2 hbal2
      rw [hp2, hp1]
      exact List.filter_sublist _

/-- Every single public mutating call preserves the invariant. -/
theorem inv_runOp [LinearOrder K] [DecidableEq V] (defK : K) (defV : V)
    {t : RBNode K V} (hinv : Inv defK defV t) (op : Op K V) :
    Inv defK defV (runOp defK defV t op) := by
  cases op with
  | put k v =>
      simp only [runOp]
      cases hput : putP defK defV t k v with
      | ok u => exact inv_putP defK defV hinv hput
      | error e => exact hinv
  | deleteMin =>
      simp only [runOp]
      cases hdel : deleteMinP t with
      | ok u => exact inv_deleteMinP defK defV hinv hdel
      | error e => exact hinv
  | deleteMax =>
      simp only [runOp]
      cases hdel : deleteMaxP t with
      | ok u => exact inv_deleteMaxP defK defV hinv hdel
      | error e => exact hinv
  | deleteItem k =>
      simp only [runOp]
      cases hdel : deleteItemP defK defV t k with
      | ok u => exact inv_deleteItemP defK defV hinv hdel
      | error e => exact hinv

theorem inv_foldl [LinearOrder K] [DecidableEq V] (defK : K) (defV : V) :
    ∀ (ops : List (Op K V)) (t : RBNode K V), Inv defK defV t →
      Inv defK defV (ops.foldl (runOp defK defV) t)
  | [], t, h => h
  | op :: ops, t, h => inv_foldl defK defV ops _ (inv_runOp defK defV h op)

/-- The tree reached by any sequence of public mutating calls satisfies the
invariant. -/
theorem inv_runOps [LinearOrder K] [DecidableEq V] (defK : K) (defV : V)
    (ops : List (Op K V)) : Inv defK defV (runOps defK defV ops) :=
  inv_foldl defK defV ops nil (inv_nil defK defV)

/-- The in-order pairs after a sequence of `put` calls are repeated sorted
association-list insertions. -/
theorem pairs_runPuts [LinearOrder K] [DecidableEq V] (defK : K) (defV : V) :
    ∀ (ps : List (K × V)) (t : RBNode K V), Inv defK defV t →
      (∀ p ∈ ps, p.1 ≠ defK ∧ p.2 ≠ defV) →
      ((ps.map fun p => Op.put p.1 p.2).foldl (runOp defK defV) t).pairs
        = ps.foldl (fun L p => insertKV p.1 p.2 L) t.pairs
  | [], t, _, _ => rfl
  | p :: ps, t, hinv, hps => by
      simp only [List.map_cons, List.foldl_cons]
      have hput : putP defK defV t p.1 p.2
          = .ok (setRootColor BLACK (putNode p.1 p.2 t)) := by
        rw [putP, if_neg (hps p (by simp)).1, if_neg (hps p (by simp)).2]
      have hstep : runOp defK defV t (Op.put p.1 p.2)
          = setRootColor BLACK (putNode p.1 p.2 t) := by
        simp only [runOp, hput]
      rw [hstep, pairs_runPuts defK defV ps _ (inv_putP defK defV hinv hput)
        (fun q hq => hps q (by simp [hq]))]
      congr 1
      rw [pairs_setRootColor, pairs_putNode p.1 p.2 t hinv.1]

theorem mem_keys_foldl_insert [LinearOrder K] {a : K} :
    ∀ (ps : List (K × V)) (L : List (K × V)),
      (a ∈ (ps.foldl (fun L p => insertKV p.1 p.2 L) L).map Prod.fst) ↔
        a ∈ L.map Prod.fst ∨ a ∈ ps.map Prod.fst
  | [], L => by simp
  | p :: ps, L => by
      simp only [List.foldl_cons, List.map_cons, List.mem_cons]
      rw [mem_keys_foldl_insert ps _, mem_keys_insertKV]
      tauto

theorem mem_keys_eraseKey [LinearOrder K] {key a : K} {L : List (K × V)} :
    a ∈ (eraseKey key L).map Prod.fst ↔ a ∈ L.map Prod.fst ∧ a ≠ key := by
  simp only [eraseKey, List.mem_map, List.mem_filter, decide_eq_true_eq]
  constructor
  · rintro ⟨p, ⟨hp, hne⟩, rfl⟩
    exact ⟨⟨p, hp, rfl⟩, hne⟩
  · rintro ⟨⟨p, hp, rfl⟩, hne⟩
    exact ⟨p, ⟨hp, hne⟩, rfl⟩

/-- `deleteItem` filters exactly the given key out of the in-order pairs
(whether or not it is present). -/
theorem pairs_deleteItemP [LinearOrder K] [DecidableEq V] (defK : K) (defV : V)
    {t u : RBNode K V} {key : K} (hinv : Inv defK defV t)
    (h : deleteItemP defK defV t key = .ok u) :
    u.pairs = eraseKey key t.pairs := by
  rw [deleteItemP] at h
  by_cases hk : key = defK
  · rw [if_pos hk] at h
    exact absurd h (by simp)
  · rw [if_neg hk] at h
    by_cases hget : getNode defV t key = defV
    · rw [if_pos hget] at h
      injection h with h
      subst h
      have hnm : ∀ p ∈ t.pairs, p.1 ≠ key := by
        intro p hp hc
        have hpmem : (key, p.2) ∈ t.pairs := by
          have : p = (key, p.2) := by
            rw [← hc]
          exact this ▸ hp
        have := getNode_eq_of_mem defV hinv.1 hpmem
        exact (hinv.2.2.2.2.2 p hp).2 (by rw [← this, hget])
      exact (eraseKey_of_forall_ne hnm).symm
    · rw [if_neg hget] at h
      injection h with h
      subst h
      have hord := hinv.1
      have hmem : key ∈ keysList t := by
        by_contra hc
        exact hget (getNode_not_mem defV key hord hc)
      have htne : t ≠ nil := keysList_ne_nil_of_mem hmem
      obtain ⟨hok1, hred1, hsz1, ⟨m, hbal1⟩, hne1, hp1⟩ :=
        red_root_step defK defV hinv htne
      have hord1 : Ordered (if !isRed t.left && !isRed t.right
          then setRootColor RED t else t) := (ordered_congr hp1).mp hord
      have hmem1 : key ∈ keysList (if !isRed t.left && !isRed t.right
          then setRootColor RED t else t) := by
        rw [keysList, hp1]
        exact hmem
      obtain ⟨_, _, _, hp2⟩ :=
        deleteItemNode_spec key _ _ m (le_refl _) hord1
          (Or.inl ⟨hok1, by
            rcases hred1 with h2 | h2
            · exact Or.inl h2
            · exact Or.inr h2⟩) hbal1 hmem1
      have hfinal : (deleteItemNode key (if !isRed t.left && !isRed t.right
          then setRootColor RED t else t)).pairs = eraseKey key t.pairs := by
        rw [hp2, hp1]
      by_cases hnil : (deleteItemNode key (if !isRed t.left && !isRed t.right
          then setRootColor RED t else t)).isNil = true
      · rw [if_pos hnil]
        exact hfinal
      · rw [if_neg hnil, pairs_setRootColor]
        exact hfinal

/-- The detach branch of `deleteItem`: the node holding the key has no right
child, so it is removed outright. -/
theorem deleteItemNode_detach [LinearOrder K] (key : K) (v : V) (l : RBNode K V)
    (c : Bool) (s : Nat) (hl : isRed l = false) :
    deleteItemNode key (node key v l nil c s) = nil := by
  simp only [deleteItemNode]
  rw [if_neg (lt_irrefl key)]
  rw [if_neg (show ¬(l.isRed = true) from by simp [hl])]
  rw [if_pos (show (¬key < rootKeyD key (node key v l nil c s) ∧
      ¬rootKeyD key (node key v l nil c s) < key) ∧
      (node key v l nil c s).right.isNil = true from by
    simp only [rootKeyD, right_node]
    exact ⟨⟨lt_irrefl key, lt_irrefl key⟩, rfl⟩)]

/-- The successor branch of `deleteItem`: the node holding the key has a right
child (and no borrowing is needed), so its key and value are overwritten with
those of the minimum of the right subtree, whose minimum is then deleted. -/
theorem deleteItemNode_successor [LinearOrder K] (key : K) (v : V)
    (l r : RBNode K V) (c : Bool) (s : Nat) (hl : isRed l = false) (hr : r ≠ nil)
    (hC : (!isRed r && !isRed r.left) = false) :
    deleteItemNode key (node key v l r c s)
      = balance (node (rootKeyD key (minNode r)) (rootValD v (minNode r)) l
          (deleteMinNode r) c s) := by
  simp only [deleteItemNode]
  rw [if_neg (lt_irrefl key)]
  rw [if_neg (show ¬(l.isRed = true) from by simp [hl])]
  rw [if_neg (show ¬((¬key < rootKeyD key (node key v l r c s) ∧
      ¬rootKeyD key (node key v l r c s) < key) ∧
      (node key v l r c s).right.isNil = true) from by
    simp only [rootKeyD, right_node]
    rintro ⟨_, hh⟩
    rw [isNil_eq_false hr] at hh
    exact absurd hh (by simp))]
  rw [if_neg (show ¬((!(node key v l r c s).right.isRed &&
      !(node key v l r c s).right.left.isRed) = true) from by simp [hC])]
  rw [if_pos (show (¬key < rootKeyD key (node key v l r c s) ∧
      ¬rootKeyD key (node key v l r c s) < key) from by
    simp only [rootKeyD]
    exact ⟨lt_irrefl key, lt_irrefl key⟩)]
  simp [setKeyValRight, right]

/-! ### The claims -/

/-- C1: after every finite sequence of `put`/`deleteMin`/`deleteMax`/
`deleteItem` public calls starting from the empty table, the resulting tree
satisfies all structural invariants: symmetric order (`Ordered`), size
consistency (`Sizes`), the left-leaning 2-3 property (`Ok23`: no red right
link, no two consecutive red left links), perfect black balance
(`∃ n, Balanced · n`), and the root is black. -/
theorem claim_C1 [LinearOrder K] [DecidableEq V] (defK : K) (defV : V)
    (ops : List (Op K V)) :
    Ordered (runOps defK defV ops) ∧ Sizes (runOps defK defV ops) ∧
    Ok23 (runOps defK defV ops) ∧ (∃ n, Balanced (runOps defK defV ops) n) ∧
    isRed (runOps defK defV ops) = false := by
  obtain ⟨h1, h2, h3, h4, h5, _⟩ := inv_runOps defK defV ops
  exact ⟨h1, h2, h3, h4, h5⟩

/-- C2 as frozen is false on the code: with `Key = Value = int` the reserved
default value is `-1`, and `put(5, -1)` silently returns without inserting
(the source's `if (val == defaultValue<Value>()) return;`), so after the single
call `put(5, -1)` the table is still empty: `keys()` is `[]` rather than `[5]`
and `size()` is `0` rather than `1`. -/
theorem claim_C2_counterexample :
    keysP (-1 : Int) (runOps (-1 : Int) (-1 : Int) [Op.put (5 : Int) (-1 : Int)])
        = Except.ok ([] : List Int) ∧
    sizeP (runOps (-1 : Int) (-1 : Int) [Op.put (5 : Int) (-1 : Int)]) = 0 ∧
    ([] : List Int) ≠ [5] ∧ (0 : Nat) ≠ 1 :=
  ⟨rfl, rfl, by decide, by decide⟩

/-- C2 (amended): for every finite sequence of `put(k, v)` calls whose keys
avoid the reserved sentinel key and whose values avoid the reserved sentinel
value, `keys()` returns exactly the distinct keys inserted, in strictly
ascending order, and `size()` equals the number of distinct keys inserted. -/
theorem claim_C2 [LinearOrder K] [DecidableEq V] (defK : K) (defV : V)
    (ps : List (K × V)) (hps : ∀ p ∈ ps, p.1 ≠ defK ∧ p.2 ≠ defV) :
    keysP defK (runOps defK defV (ps.map fun p => Op.put p.1 p.2))
        = .ok (keysList (runOps defK defV (ps.map fun p => Op.put p.1 p.2))) ∧
    List.Sorted (· < ·)
      (keysList (runOps defK defV (ps.map fun p => Op.put p.1 p.2))) ∧
    (∀ a, a ∈ keysList (runOps defK defV (ps.map fun p => Op.put p.1 p.2)) ↔
      a ∈ ps.map Prod.fst) ∧
    sizeP (runOps defK defV (ps.map fun p => Op.put p.1 p.2))
        = (ps.map Prod.fst).toFinset.card := by
  have hinv := inv_runOps defK defV (ps.map fun p => Op.put p.1 p.2)
  have hord := hinv.1
  have hpairs : (runOps defK defV (ps.map fun p => Op.put p.1 p.2)).pairs
      = ps.foldl (fun L p => insertKV p.1 p.2 L) [] := by
    rw [runOps]
    exact pairs_runPuts defK defV ps nil (inv_nil defK defV) hps
  have hmem : ∀ a,
      a ∈ keysList (runOps defK defV (ps.map fun p => Op.put p.1 p.2)) ↔
        a ∈ ps.map Prod.fst := by
    intro a
    rw [keysList, hpairs, mem_keys_foldl_insert]
    simp
  have hfreeK : ∀ a ∈ keysList (runOps defK defV (ps.map fun p => Op.put p.1 p.2)),
      a ≠ defK := by
    intro a ha
    rw [keysList] at ha
    obtain ⟨p, hp, hpa⟩ := List.mem_map.mp ha
    exact hpa ▸ (hinv.2.2.2.2.2 p hp).1
  refine ⟨keysP_eq defK hord hfreeK, (ordered_iff_sorted _).mp hord, hmem, ?_⟩
  have hnd := nodup_keysList hord
  rw [sizeP, size_eq_realSize hinv.2.1, ← keysList_length,
    ← List.toFinset_card_of_nodup hnd]
  congr 1
  ext a
  simp only [List.mem_toFinset]
  exact hmem a

/-- Witness for C2 at the sequence `put 3 7; put 1 5; put 3 9` over `Int` with
sentinels `-1`. -/
theorem claim_C2_witness :
    (∀ p ∈ [((3 : Int), (7 : Int)), (1, 5), (3, 9)], p.1 ≠ -1 ∧ p.2 ≠ -1) ∧
    (keysP (-1 : Int) (runOps (-1 : Int) (-1 : Int)
        ([((3 : Int), (7 : Int)), (1, 5), (3, 9)].map fun p => Op.put p.1 p.2))
      = .ok (keysList (runOps (-1 : Int) (-1 : Int)
        ([((3 : Int), (7 : Int)), (1, 5), (3, 9)].map fun p => Op.put p.1 p.2))) ∧
    List.Sorted (· < ·) (keysList (runOps (-1 : Int) (-1 : Int)
        ([((3 : Int), (7 : Int)), (1, 5), (3, 9)].map fun p => Op.put p.1 p.2))) ∧
    (∀ a, a ∈ keysList (runOps (-1 : Int) (-1 : Int)
        ([((3 : Int), (7 : Int)), (1, 5), (3, 9)].map fun p => Op.put p.1 p.2)) ↔
      a ∈ [((3 : Int), (7 : Int)), (1, 5), (3, 9)].map Prod.fst) ∧
    sizeP (runOps (-1 : Int) (-1 : Int)
        ([((3 : Int), (7 : Int)), (1, 5), (3, 9)].map fun p => Op.put p.1 p.2))
      = ([((3 : Int), (7 : Int)), (1, 5), (3, 9)].map Prod.fst).toFinset.card) :=
  ⟨by decide, claim_C2 (-1) (-1) [((3 : Int), (7 : Int)), (1, 5), (3, 9)] (by decide)⟩

/-- C3: a successful `deleteItem(key)` call removes exactly the entry of that
key from the in-order pairs, so the resulting key set is the previous key set
minus `{key}`; moreover, at the node found to hold the key, the private routine
detaches the node when it has no right child, and otherwise overwrites its key
and value with those of the minimum of its right subtree and deletes that
minimum from the right subtree. -/
theorem claim_C3 [LinearOrder K] [DecidableEq V] (defK : K) (defV : V)
    {t u : RBNode K V} {key : K} (hinv : Inv defK defV t)
    (h : deleteItemP defK defV t key = .ok u) :
    (∀ (v : V) (l : RBNode K V) (c : Bool) (s : Nat), isRed l = false →
      deleteItemNode key (node key v l nil c s) = nil) ∧
    (∀ (v : V) (l r : RBNode K V) (c : Bool) (s : Nat), isRed l = false →
      r ≠ nil → (!isRed r && !isRed r.left) = false →
      deleteItemNode key (node key v l r c s)
        = balance (node (rootKeyD key (minNode r)) (rootValD v (minNode r)) l
            (deleteMinNode r) c s)) ∧
    u.pairs = eraseKey key t.pairs ∧
    (∀ a, a ∈ keysList u ↔ a ∈ keysList t ∧ a ≠ key) := by
  have hpairs := pairs_deleteItemP defK defV hinv h
  refine ⟨fun v l c s hl => deleteItemNode_detach key v l c s hl,
    fun v l r c s hl hr hC => deleteItemNode_successor key v l r c s hl hr hC,
    hpairs, ?_⟩
  intro a
  rw [keysList, keysList, hpairs, mem_keys_eraseKey]

/-- Witness for C3: deleting the key `2` of the singleton table `{2 ↦ 5}`. -/
theorem claim_C3_witness :
    (deleteItemP (-1 : Int) (-1 : Int) (node 2 5 nil nil false 1) 2
        = .ok (nil : RBNode Int Int)) ∧
    ∀ a : Int, a ∈ keysList (nil : RBNode Int Int) ↔
      a ∈ keysList (node (2 : Int) (5 : Int) (nil : RBNode Int Int) nil false 1) ∧
        a ≠ 2 := by
  have hinv : Inv (-1 : Int) (-1 : Int) (node 2 5 nil nil false 1) :=
    ⟨by decide, by decide, by decide, ⟨1, rfl⟩, rfl, by decide⟩
  have h : deleteItemP (-1 : Int) (-1 : Int) (node 2 5 nil nil false 1) 2
      = .ok (nil : RBNode Int Int) := by
    rw [deleteItemP, if_neg (by decide), if_neg (by decide)]
    have ht1 : (if !isRed (node (2 : Int) (5 : Int) (nil : RBNode Int Int)
          nil false 1).left &&
          !isRed (node (2 : Int) (5 : Int) (nil : RBNode Int Int) nil false 1).right
        then setRootColor RED (node 2 5 nil nil false 1)
        else node 2 5 nil nil false 1) = node 2 5 nil nil true 1 := by decide
    show Except.ok (if (deleteItemNode (2 : Int)
          (node (2 : Int) (5 : Int) (nil : RBNode Int Int) nil true 1)).isNil = true
        then deleteItemNode (2 : Int)
          (node (2 : Int) (5 : Int) (nil : RBNode Int Int) nil true 1)
        else setRootColor BLACK (deleteItemNode (2 : Int)
          (node (2 : Int) (5 : Int) (nil : RBNode Int Int) nil true 1)))
      = Except.ok nil
    rw [deleteItemNode_detach 2 5 nil true 1 rfl]
    rfl
  exact ⟨h, (claim_C3 (-1) (-1) hinv h).2.2.2⟩

/-- C4: on every size-consistent ordered tree whose keys avoid the sentinel,
`rank` and `select` are mutually inverse: `rank(select(r)) = r` for every rank
`0 ≤ r < size()`, and `select(rank(k)) = k` for every stored key `k`. -/
theorem claim_C4 [LinearOrder K] (defK : K) {t : RBNode K V} (hord : Ordered t)
    (hsz : Sizes t) (hfree : ∀ a ∈ keysList t, a ≠ defK) :
    (∀ r : Int, 0 ≤ r → r < (sizeP t : Int) →
      ∃ k, selectP defK t r = .ok k ∧ rankP defK t k = .ok r) ∧
    (∀ k ∈ keysList t, ∃ r, rankP defK t k = .ok r ∧ selectP defK t r = .ok k) := by
  have hsize : (sizeP t : Int) = (t.realSize : Int) := by
    rw [sizeP, size_eq_realSize hsz]
  have hsort : List.Sorted (· < ·) (keysList t) := (ordered_iff_sorted t).mp hord
  constructor
  · intro r hr0 hrs
    obtain ⟨i, rfl⟩ : ∃ i : Nat, r = (i : Int) :=
      ⟨r.toNat, (Int.toNat_of_nonneg hr0).symm⟩
    have hi : i < t.realSize := by
      rw [hsize] at hrs
      exact_mod_cast hrs
    have hilen : i < (keysList t).length := by
      rw [keysList_length]
      exact hi
    have hkey := selectNode_eq defK hord hsz i hi
    have hkmem : (keysList t).getD i defK ∈ keysList t := by
      rw [List.getD_eq_getElem _ _ hilen]
      exact List.getElem_mem _
    refine ⟨(keysList t).getD i defK, ?_, ?_⟩
    · rw [selectP, if_neg (show ¬(((i : Nat) : Int) < 0 ∨
          ((i : Nat) : Int) ≥ (sizeP t : Int)) from by
        push_neg
        refine ⟨by exact_mod_cast Nat.zero_le i, ?_⟩
        rw [hsize]
        exact_mod_cast hi)]
      exact congrArg Except.ok hkey
    · rw [rankP, if_neg (hfree _ hkmem), rankNode_eq _ hord hsz]
      exact congrArg Except.ok (sorted_filter_lt_getD hsort defK i hilen)
  · intro k hk
    have hclen : ((keysList t).filter (fun a => decide (a < k))).length
        < (keysList t).length := filter_lt_length_lt hk
    have hcrs : ((keysList t).filter (fun a => decide (a < k))).length
        < t.realSize := keysList_length ▸ hclen
    refine ⟨(((keysList t).filter (fun a => decide (a < k))).length : Int), ?_, ?_⟩
    · rw [rankP, if_neg (hfree k hk), rankNode_eq k hord hsz]
    · rw [selectP, if_neg (show
          ¬(((((keysList t).filter (fun a => decide (a < k))).length : Nat) : Int) < 0 ∨
            ((((keysList t).filter (fun a => decide (a < k))).length : Nat) : Int)
              ≥ (sizeP t : Int)) from by
        push_neg
        refine ⟨by exact_mod_cast Nat.zero_le _, ?_⟩
        rw [hsize]
        exact_mod_cast hcrs)]
      rw [selectNode_eq defK hord hsz _ hcrs]
      exact congrArg Except.ok (sorted_getD_filter_lt hsort defK hk)

/-- Witness for C4 on the two-key table `{1 ↦ 11, 2 ↦ 10}`. -/
theorem claim_C4_witness :
    ((∀ a ∈ keysList (node (2 : Int) (10 : Int)
        (node 1 11 nil nil true 1) nil false 2), a ≠ -1) ∧
    (∀ r : Int, 0 ≤ r →
      r < (sizeP (node (2 : Int) (10 : Int) (node 1 11 nil nil true 1) nil
          false 2) : Int) →
      ∃ k, selectP (-1 : Int) (node (2 : Int) (10 : Int)
          (node 1 11 nil nil true 1) nil false 2) r = .ok k ∧
        rankP (-1 : Int) (node (2 : Int) (10 : Int)
          (node 1 11 nil nil true 1) nil false 2) k = .ok r)) :=
  ⟨by decide,
    (claim_C4 (-1 : Int) (by decide) (by decide) (by decide)).1⟩

/-- C5: on the empty table, `deleteMin`, `deleteMax`, `min` and `max` each
signal what the spec calls `Underflow` — `std::invalid_argument` with the
source's message (`"BST underflow"` for the deletions, `"calls min()/max()
with empty symbol table"` for the queries) — and the tree is unchanged (the
throw happens before any mutation, so the sequencing semantics keeps the
tree); on any tree, `select(rank)` with `rank < 0` or `rank ≥ size()` signals
`InvalidArgument` with the source's message. -/
theorem claim_C5 [LinearOrder K] [DecidableEq V] (defK : K) (defV : V)
    (t : RBNode K V) (rank : Int) :
    deleteMinP (nil : RBNode K V) = .error (.invalidArgument "BST underflow") ∧
    deleteMaxP (nil : RBNode K V) = .error (.invalidArgument "BST underflow") ∧
    minP defK (nil : RBNode K V)
      = .error (.invalidArgument "calls min() with empty symbol table") ∧
    maxP defK (nil : RBNode K V)
      = .error (.invalidArgument "calls max() with empty symbol table") ∧
    runOp defK defV (nil : RBNode K V) Op.deleteMin = nil ∧
    runOp defK defV (nil : RBNode K V) Op.deleteMax = nil ∧
    (rank < 0 ∨ rank ≥ (sizeP t : Int) →
      selectP defK t rank
        = .error (.invalidArgument ("argument to select() is invalid: "
            ++ toString rank))) := by
  refine ⟨rfl, rfl, rfl, rfl, rfl, rfl, fun hr => ?_⟩
  rw [selectP, if_pos hr]

/-- Witness for C5's `select` clause at rank `-1` on the empty `Int` table. -/
theorem claim_C5_witness :
    ((-1 : Int) < 0 ∨ (-1 : Int) ≥ (sizeP (nil : RBNode Int Int) : Int)) ∧
    selectP (-1 : Int) (nil : RBNode Int Int) (-1)
      = .error (.invalidArgument ("argument to select() is invalid: "
          ++ toString (-1 : Int))) :=
  ⟨Or.inl (by decide),
    (claim_C5 (-1 : Int) (-1 : Int) (nil : RBNode Int Int) (-1)).2.2.2.2.2.2
      (Or.inl (by decide))⟩

/-- C6: on every tree reachable through the public interface and every
non-sentinel key, `contains` answers exactly whether the key is stored,
independently of the associated value (reachable tables never store the
sentinel value, so the source's `get(key) != defaultValue<Key>()` test is
equivalent to membership). -/
theorem claim_C6 [LinearOrder K] [DecidableEq V] (defK : K) (defV : V)
    (ops : List (Op K V)) (key : K) (hk : key ≠ defK) :
    containsP defK defV (runOps defK defV ops) key
      = .ok (decide (key ∈ keysList (runOps defK defV ops))) := by
  have hinv := inv_runOps defK defV ops
  rw [containsP, getP, if_neg hk]
  simp only [Except.map]
  congr 1
  rw [decide_eq_decide]
  constructor
  · intro hne2
    by_contra hc
    exact hne2 (getNode_not_mem defV key hinv.1 hc)
  · intro hmem
    exact (hinv.2.2.2.2.2 _ (getNode_mem defV key hinv.1 hmem)).2

/-- Witness for C6 after `put 5 7`, asking for the stored key `5`. -/
theorem claim_C6_witness :
    ((5 : Int) ≠ -1) ∧
    containsP (-1 : Int) (-1 : Int)
        (runOps (-1 : Int) (-1 : Int) [Op.put (5 : Int) (7 : Int)]) 5
      = .ok (decide ((5 : Int) ∈ keysList
          (runOps (-1 : Int) (-1 : Int) [Op.put (5 : Int) (7 : Int)]))) :=
  ⟨by decide, claim_C6 (-1) (-1) [Op.put (5 : Int) (7 : Int)] 5 (by decide)⟩

/-- C7: `deleteItem` on an ordered tree with a non-sentinel key that is not
stored is a no-op: the absence check (`!contains(key)`) fires before any
mutation and the call returns the tree unchanged. -/
theorem claim_C7 [LinearOrder K] [DecidableEq V] (defK : K) (defV : V)
    {t : RBNode K V} {key : K} (hord : Ordered t) (hk : key ≠ defK)
    (hmem : key ∉ keysList t) :
    deleteItemP defK defV t key = .ok t := by
  rw [deleteItemP, if_neg hk, if_pos (getNode_not_mem defV key hord hmem)]

/-- Witness for C7: deleting the absent key `7` from the singleton `{2 ↦ 5}`. -/
theorem claim_C7_witness :
    (Ordered (node (2 : Int) (5 : Int) (nil : RBNode Int Int) nil false 1) ∧
      (7 : Int) ≠ -1 ∧
      (7 : Int) ∉ keysList (node (2 : Int) (5 : Int) (nil : RBNode Int Int)
        nil false 1)) ∧
    deleteItemP (-1 : Int) (-1 : Int)
        (node (2 : Int) (5 : Int) (nil : RBNode Int Int) nil false 1) 7
      = .ok (node (2 : Int) (5 : Int) (nil : RBNode Int Int) nil false 1) :=
  ⟨⟨by decide, by decide, by decide⟩,
    claim_C7 (-1) (-1) (by decide) (by decide) (by decide)⟩

/-- C8: on a non-empty ordered tree and a non-sentinel key, `floor` returns the
largest stored key at most the argument when one exists and signals failure
(`invalid_argument`, with the source's message) when every stored key is
larger; symmetrically for `ceiling` (whose failure message is the source's
copy-pasted `"argument to ceiling() is too small"`). -/
theorem claim_C8 [LinearOrder K] (defK : K) {t : RBNode K V} (key : K)
    (hord : Ordered t) (hne : t ≠ nil) (hk : key ≠ defK) :
    ((∃ a ∈ keysList t, a ≤ key) →
      ∃ m, floorP defK t key = .ok m ∧ m ∈ keysList t ∧ m ≤ key ∧
        ∀ a ∈ keysList t, a ≤ key → a ≤ m) ∧
    ((∀ a ∈ keysList t, key < a) →
      floorP defK t key
        = .error (.invalidArgument "argument to floor() is too small")) ∧
    ((∃ a ∈ keysList t, key ≤ a) →
      ∃ m, ceilingP defK t key = .ok m ∧ m ∈ keysList t ∧ key ≤ m ∧
        ∀ a ∈ keysList t, key ≤ a → m ≤ a) ∧
    ((∀ a ∈ keysList t, a < key) →
      ceilingP defK t key
        = .error (.invalidArgument "argument to ceiling() is too small")) := by
  have hnil : ¬(t.isNil = true) := by
    simp [isNil_true_iff, hne]
  refine ⟨?_, ?_, ?_, ?_⟩
  · rintro ⟨a, ha, hale⟩
    have hfne := floorNode_ne_nil key hord a ha hale
    rw [floorP, if_neg hk, if_neg hnil]
    obtain ⟨hmem, hle2, hmax⟩ := floorNode_spec key defK hord hfne
    cases hf : floorNode key t with
    | nil => exact absurd hf hfne
    | node fk fv fl fr fc fs =>
        rw [hf] at hmem hle2 hmax
        simp only [rootKeyD] at hmem hle2 hmax
        exact ⟨fk, rfl, hmem, hle2, hmax⟩
  · intro hall
    rw [floorP, if_neg hk, if_neg hnil, floorNode_nil_of_all_gt key hall]
  · rintro ⟨a, ha, hale⟩
    have hfne := ceilingNode_ne_nil key hord a ha hale
    rw [ceilingP, if_neg hk, if_neg hnil]
    obtain ⟨hmem, hle2, hmin⟩ := ceilingNode_spec key defK hord hfne
    cases hf : ceilingNode key t with
    | nil => exact absurd hf hfne
    | node fk fv fl fr fc fs =>
        rw [hf] at hmem hle2 hmin
        simp only [rootKeyD] at hmem hle2 hmin
        exact ⟨fk, rfl, hmem, hle2, hmin⟩
  · intro hall
    rw [ceilingP, if_neg hk, if_neg hnil, ceilingNode_nil_of_all_lt key hall]

/-- Witness for C8 on the singleton `{5 ↦ 7}` with argument `9`. -/
theorem claim_C8_witness :
    (Ordered (node (5 : Int) (7 : Int) (nil : RBNode Int Int) nil false 1) ∧
      (node (5 : Int) (7 : Int) (nil : RBNode Int Int) nil false 1) ≠ nil ∧
      (9 : Int) ≠ -1 ∧
      (∃ a ∈ keysList (node (5 : Int) (7 : Int) (nil : RBNode Int Int)
        nil false 1), a ≤ 9)) ∧
    (∃ m, floorP (-1 : Int)
        (node (5 : Int) (7 : Int) (nil : RBNode Int Int) nil false 1) 9
          = .ok m ∧
      m ∈ keysList (node (5 : Int) (7 : Int) (nil : RBNode Int Int)
        nil false 1) ∧ m ≤ 9 ∧
      ∀ a ∈ keysList (node (5 : Int) (7 : Int) (nil : RBNode Int Int)
        nil false 1), a ≤ 9 → a ≤ m) :=
  ⟨⟨by decide, by decide, by decide, ⟨5, by decide, by decide⟩⟩,
    (claim_C8 (-1 : Int) 9 (by decide) (by decide) (by decide)).1
      ⟨5, by decide, by decide⟩⟩

/-- C9 as frozen is false on the code: encoding the letters by their alphabet
positions (`A=1, C=3, E=5, H=8, L=12, M=13, P=16, R=18, S=19, X=24`), the
scenario `S,E,A,R,C,H,E,X,A,M,P,L,E` with values equal to the 0-based
insertion index produces exactly the claimed in-order table
`A→8, C→4, E→12, H→5, L→11, M→9, P→10, R→3, S→0, X→7`, but `rank("M")` is the
number of stored keys strictly smaller than `M` — the five keys
`A, C, E, H, L` — so the code returns `5`, not `4`. -/
theorem claim_C9_counterexample :
    rankP (-1 : Int)
        (runOps (-1 : Int) (-1 : Int)
          ([(19, 0), (5, 1), (1, 2), (18, 3), (3, 4), (8, 5), (5, 6), (24, 7),
            (1, 8), (13, 9), (16, 10), (12, 11), (5, 12)].map
            fun p => Op.put p.1 p.2)) 13
      = .ok 5 ∧ (Except.ok (5 : Int) : Except Err Int) ≠ .ok 4 := by
  constructor
  · rfl
  · intro hc
    injection hc with hc
    exact absurd hc (by decide)

/-- C9 (amended): with the same letter encoding, inserting
`S,E,A,R,C,H,E,X,A,M,P,L,E` with values equal to each key's 0-based insertion
index (duplicates overwriting) yields the in-order pairs
`A→8, C→4, E→12, H→5, L→11, M→9, P→10, R→3, S→0, X→7`, and `rank("M")`
equals `5` (the number of stored keys smaller than `M`). -/
theorem claim_C9 :
    (runOps (-1 : Int) (-1 : Int)
        ([(19, 0), (5, 1), (1, 2), (18, 3), (3, 4), (8, 5), (5, 6), (24, 7),
          (1, 8), (13, 9), (16, 10), (12, 11), (5, 12)].map
          fun p => Op.put p.1 p.2)).pairs
      = [(1, 8), (3, 4), (5, 12), (8, 5), (12, 11), (13, 9), (16, 10), (18, 3),
         (19, 0), (24, 7)] ∧
    rankP (-1 : Int)
        (runOps (-1 : Int) (-1 : Int)
          ([(19, 0), (5, 1), (1, 2), (18, 3), (3, 4), (8, 5), (5, 6), (24, 7),
            (1, 8), (13, 9), (16, 10), (12, 11), (5, 12)].map
            fun p => Op.put p.1 p.2)) 13
      = .ok 5 := by
  constructor
  · rfl
  · rfl

/-- C10: calling `put(k, v)` with the reserved default value as `v` on a
non-sentinel key silently returns before any mutation, leaving the tree
entirely unchanged. -/
theorem claim_C10 [LinearOrder K] [DecidableEq V] (defK : K) (defV : V)
    (t : RBNode K V) (key : K) (hk : key ≠ defK) :
    putP defK defV t key defV = .ok t := by
  rw [putP, if_neg hk, if_pos rfl]

/-- Witness for C10: `put 5 (-1)` on the singleton `{3 ↦ 4}` over `Int`. -/
theorem claim_C10_witness :
    ((5 : Int) ≠ -1) ∧
    putP (-1 : Int) (-1 : Int)
        (node (3 : Int) (4 : Int) (nil : RBNode Int Int) nil false 1) 5 (-1)
      = .ok (node (3 : Int) (4 : Int) (nil : RBNode Int Int) nil false 1) :=
  ⟨by decide, claim_C10 (-1) (-1) _ 5 (by decide)⟩

end RBNode

end RedBlackBSTVerify
